import Mathlib

/-!
# cs446 operating-system simulator: the parser and the run loop of `Sim03_LiJia/data.cpp`
and of `Sim01_LiJia/data.cpp`

A shallow embedding of `readMetaData` (Sim03, data.cpp lines 289-470) together with the
part of the C++ input-stream library it relies on (`get`, `peek`, `ignore`,
`getline`, the `eofbit`/`failbit` state) and of `std::string::compare`, and of
`printMetrics` (lines 547-734) and `outputToFileMetrics` (lines 746-930), whose
effects (assignments of the process-state register, lines written to `cout` or to
the log file, waits, threads, calls of the external `allocateMemory`) are recorded
in a trace, and of `findTime`, `wait` and `pWait` (lines 481-535) over a list of
clock readings.

The namespace `Sim01` holds the embedding of `readMetaData` (lines 227-405) and
`printMetrics` (lines 416-490) of `Sim01_LiJia/data.cpp`.

Conventions of the embedding

* a file is the list of its characters; `fin.get()` returns `Option Char`, where
  `none` is `EOF`;
* `int` values are integers reduced to the 32-bit two's-complement range by `wrap32`
  after every arithmetic operation of the source;
* `cout` is the list of the strings written to it, in order;
* the ways the C++ code can leave defined, terminating behaviour are results of
  type `Fault`: an uncaught `std::out_of_range`, a write past the end of the
  30-byte `description` field and a remainder with divisor zero. Loops that poll
  the stream carry a fuel argument that is instantiated with more steps than the
  remaining input allows.
-/

set_option maxRecDepth 100000

namespace Cs446

/-! ## The input stream -/

/-- An `ifstream` opened on a file: the characters not yet extracted and the two
state bits the parser can observe. -/
structure IStream where
  buf : List Char
  eofbit : Bool
  failbit : Bool
deriving DecidableEq, Repr

namespace IStream

/-- A stream freshly opened on the file contents `file`. -/
def ofFile (file : List Char) : IStream := ⟨file, false, false⟩

/-- The member `good()`: no state bit is set. -/
def good (s : IStream) : Bool := !s.eofbit && !s.failbit

/-- The member `eof()`: it looks at `eofbit` only. -/
def eof (s : IStream) : Bool := s.eofbit

/-- The member `get()`: on a stream that is not good the sentry sets `failbit`
and `EOF` is returned; at end of input both `eofbit` and `failbit` are set. -/
def get (s : IStream) : Option Char × IStream :=
  if s.good then
    match s.buf with
    | [] => (none, { s with eofbit := true, failbit := true })
    | c :: cs => (some c, { s with buf := cs })
  else (none, { s with failbit := true })

/-- The member `peek()`: at end of input only `eofbit` is set. -/
def peek (s : IStream) : Option Char × IStream :=
  if s.good then
    match s.buf with
    | [] => (none, { s with eofbit := true })
    | c :: _ => (some c, s)
  else (none, { s with failbit := true })

/-- The extraction loop of `ignore( n, delim )`: it stops when `n` characters have
been extracted, or at end of input (second component `true`), or after extracting
the delimiter, whichever comes first and in this order. The delimiter `none` is
`char_traits<char>::eof()`, which no character equals. -/
def ignoreLoop (delim : Option Char) : Nat → List Char → List Char × Bool
  | 0, cs => (cs, false)
  | _ + 1, [] => ([], true)
  | n + 1, c :: cs => if some c = delim then (cs, false) else ignoreLoop delim n cs

/-- The member `ignore( n, delim )`. -/
def ignore (s : IStream) (n : Nat) (delim : Option Char) : IStream :=
  if s.good then
    let r := ignoreLoop delim n s.buf
    { s with buf := r.1, eofbit := r.2 }
  else { s with failbit := true }

/-- What the extraction loop of `getline` reports. -/
structure Line where
  stored : List Char
  rest : List Char
  hitEof : Bool
  gotDelim : Bool
  full : Bool
deriving DecidableEq, Repr

/-- The extraction loop of `getline( s, n, delim )` with `room = n - 1` characters
still to be stored: it stops at end of input, or on the delimiter (extracted, not
stored), or when no room is left (the next character stays in the stream). -/
def getlineLoop (delim : Char) : Nat → List Char → Line
  | _, [] => ⟨[], [], true, false, false⟩
  | room, c :: cs =>
    if c = delim then ⟨[], cs, false, true, false⟩
    else
      match room with
      | 0 => ⟨[], c :: cs, false, false, true⟩
      | room + 1 =>
        let l := getlineLoop delim room cs
        { l with stored := c :: l.stored }

/-- The member `getline( s, n, delim )` for `n ≥ 1`: the characters stored in `s`
(before the terminating NUL) and the stream afterwards. `failbit` is set when the
room is used up before the delimiter shows, and when nothing at all was extracted;
on a stream that is not good nothing is extracted and `s` becomes empty. -/
def getline (s : IStream) (n : Nat) (delim : Char) : List Char × IStream :=
  if s.good then
    let l := getlineLoop delim (n - 1) s.buf
    (l.stored,
      { buf := l.rest,
        eofbit := l.hitEof,
        failbit := l.full || (l.stored.isEmpty && !l.gotDelim) })
  else ([], { s with failbit := true })

/-- The loop `while( c == ch ) c = fin.get( );`, at most `fuel` iterations. -/
def getWhile (ch : Char) : Nat → Option Char → IStream → Option Char × IStream
  | 0, c, s => (c, s)
  | fuel + 1, c, s =>
    if c = some ch then
      let r := s.get
      getWhile ch fuel r.1 r.2
    else (c, s)

end IStream

/-! ## Data of the program -/

/-- The ways the program can leave defined, terminating behaviour. -/
inductive Fault where
  /-- Exception `std::out_of_range` thrown by `std::string::compare`, never caught. -/
  | outOfRange
  /-- A `getline` that stores more than 29 characters in `char description[30]`. -/
  | overrun
  /-- The fuel of a loop ran out. -/
  | outOfFuel
  /-- An integer remainder `%` with divisor zero. -/
  | divideByZero
deriving DecidableEq, Repr

/-- Equality of results is decidable, so that concrete runs can be evaluated. -/
instance instDecidableEqExcept {ε α : Type} [DecidableEq ε] [DecidableEq α] :
    DecidableEq (Except ε α)
  | .ok a, .ok b =>
    if h : a = b then isTrue (by rw [h]) else isFalse (fun h2 => h (Except.ok.inj h2))
  | .error a, .error b =>
    if h : a = b then isTrue (by rw [h]) else isFalse (fun h2 => h (Except.error.inj h2))
  | .ok _, .error _ => isFalse (fun h => Except.noConfusion h)
  | .error _, .ok _ => isFalse (fun h => Except.noConfusion h)

/-- The `struct cycleTime`. -/
structure cycleTime where
  componentName : List Char
  time : Int
deriving DecidableEq, Repr

/-- The part of `struct configData` that `readMetaData` and `printMetrics` read:
the array `cycleTime cycleData[8]`, the two device quantities and the two memory
sizes. -/
structure configData where
  cycleData : Fin 8 → cycleTime
  printerQuantity : Int
  hardDriveQuantity : Int
  systemMemorySize : Int
  blockMemorySize : Int

/-- The `struct metaData`. -/
structure metaData where
  code : Char
  description : List Char
  cycles : Int
deriving DecidableEq, Repr

/-- A table given by the list of its configured entries; the entries that are not
configured hold the empty name of a default-constructed `std::string`. The
quantities and memory sizes are zero. -/
def configData.ofList (l : List cycleTime) : configData :=
  { cycleData := fun i => l.getD i.val ⟨[], 0⟩,
    printerQuantity := 0,
    hardDriveQuantity := 0,
    systemMemorySize := 0,
    blockMemorySize := 0 }

/-- Reduction of an integer to the range of a 32-bit `int`. -/
def wrap32 (x : Int) : Int := (x + 2147483648) % 4294967296 - 2147483648

/-- The C-string view of a `char` array: the characters before the first NUL. -/
def cstr (raw : List Char) : List Char := raw.takeWhile (fun c => c ≠ Char.ofNat 0)

/-- Whether `s.compare( pos1, n1, t, pos2, n2 ) == 0`: the two substrings, each
clamped to the end of its string, are equal. A start position beyond the end of its
string throws `std::out_of_range`. -/
def compareIsZero (s : List Char) (pos1 n1 : Nat) (t : List Char) (pos2 n2 : Nat) :
    Except Fault Bool :=
  if pos1 > s.length ∨ pos2 > t.length then .error .outOfRange
  else .ok (decide ((s.drop pos1).take n1 = (t.drop pos2).take n2))

/-! ## Diagnostics written to `cout` -/

def typoMsg : String :=
  "Sorry, either you made a typo or you forgot to enter the description\n"

def negativeMsg : String := "Invalid negative cycle values in meta-data file.\n"

def missingMsg : String := "You're missing a cycle value in the meta-data file.\n"

def invalidCodeMsg : String :=
  "In the metadata file, you either did not enter a metadata code or the code is invalid.\n"

def emptyFileMsg (filePath : String) : String :=
  filePath ++ " is either an empty metadata file or an invalid filename\n"

/-! ## `readMetaData` of `Sim03_LiJia/data.cpp` -/

namespace Sim03

/-- The variables of `readMetaData` that live across the iterations of its main
loop: the stream `fin`, the vector `metaDataStream` and what was written to `cout`. -/
structure Parse where
  fin : IStream
  metaDataStream : List metaData
  cout : List String
deriving DecidableEq, Repr

/-- The six codes tested at lines 326-331. -/
def entryCodes : List Char := ['S', 'A', 'M', 'P', 'I', 'O']

/-- The ten characters tested at lines 410-419 and 429-438. -/
def digitChars : List Char := ['0', '1', '2', '3', '4', '5', '6', '7', '8', '9']

def startText : List Char := ['s', 't', 'a', 'r', 't']

def endText : List Char := ['e', 'n', 'd']

def runText : List Char := ['r', 'u', 'n']

def allocateText : List Char := ['a', 'l', 'l', 'o', 'c', 'a', 't', 'e']

def blockText : List Char := ['b', 'l', 'o', 'c', 'k']

/-- The value `c - '0'` of a character. -/
def digitValue (c : Char) : Int := (c.toNat : Int) - 48

/-- The indices `0 .. 7` of the loop at line 381. -/
def indices : List (Fin 8) := [0, 1, 2, 3, 4, 5, 6, 7]

/-- Lines 381-389: the loop over the eight table entries that sets `flag` when
`componentName.compare( 1, length, temp.description, 1, length ) == 0`, with
`length = strlen( temp.description )`. -/
def ioScan (fileData : configData) (description : List Char) :
    List (Fin 8) → Bool → Except Fault Bool
  | [], flag => .ok flag
  | indexTwo :: more, flag =>
    let length := description.length
    match compareIsZero (fileData.cycleData indexTwo).componentName 1 length
        description 1 length with
    | .error e => .error e
    | .ok true => ioScan fileData description more true
    | .ok false => ioScan fileData description more flag

/-- Lines 336-396: the value of `flag` for the entry just read. A rejected
description writes the typo message and calls `fin.ignore( 1000, EOF )`. The last
branch of the source tests for `I` or `O`, the only codes left at that point. -/
def validate (fileData : configData) (code : Char) (description : List Char)
    (st : Parse) : Except Fault (Bool × Parse) :=
  let rejected : Parse :=
    { st with fin := st.fin.ignore 1000 none, cout := st.cout ++ [typoMsg] }
  if code = 'S' ∨ code = 'A' then
    if description = startText ∨ description = endText then .ok (true, st)
    else .ok (false, rejected)
  else if code = 'P' then
    if description = runText then .ok (true, st) else .ok (false, rejected)
  else if code = 'M' then
    if description = allocateText ∨ description = blockText then .ok (true, st)
    else .ok (false, rejected)
  else
    match ioScan fileData description indices false with
    | .error e => .error e
    | .ok true => .ok (true, st)
    | .ok false => .ok (false, rejected)

/-- Lines 429-444: the loop over the digits after the first one. `tempNum` is
multiplied by ten at every digit but the digit is added to `temp.cycles` only. -/
def digitLoop : Nat → Int → Int → Option Char → IStream → Int × IStream
  | 0, _, cycles, _, fin => (cycles, fin)
  | fuel + 1, tempNum, cycles, tempCharTwo, fin =>
    match tempCharTwo with
    | none => (cycles, fin)
    | some c =>
      if c ∈ digitChars then
        let tempNum := wrap32 (tempNum * 10)
        let tempNumTwo := digitValue c
        let cycles := wrap32 (tempNum + tempNumTwo)
        let r := fin.get
        digitLoop fuel tempNum cycles r.1 r.2
      else (cycles, fin)

/-- Lines 448-456: after an entry, one blank and then one newline are skipped. -/
def skipSeparator (fin : IStream) : IStream :=
  let r := fin.peek
  if r.1 = some ' ' then
    let fin := r.2.ignore 1000 (some ' ')
    let r := fin.peek
    if r.1 = some '\n' then r.2.ignore 1000 (some '\n') else r.2
  else r.2

/-- Lines 398-459: the block run when `flag == true`, which reads the cycle count
and appends the entry. -/
def readCycles (code : Char) (description : List Char) (st : Parse) : Parse :=
  let fuel := st.fin.buf.length + 1
  let r := st.fin.get
  let r := IStream.getWhile ' ' fuel r.1 r.2
  match r.1 with
  | none => { st with cout := st.cout ++ [missingMsg], fin := r.2.ignore 1000 none }
  | some tempChar =>
    if tempChar = '-' then
      { st with cout := st.cout ++ [negativeMsg], fin := r.2.ignore 1000 none }
    else if tempChar ∉ digitChars then
      { st with cout := st.cout ++ [missingMsg], fin := r.2.ignore 1000 none }
    else
      let tempNum := digitValue tempChar
      let g := r.2.get
      let d := digitLoop fuel tempNum tempNum g.1 g.2
      { st with
        metaDataStream := st.metaDataStream ++ [⟨code, description, d.1⟩],
        fin := skipSeparator d.2 }

/-- Lines 315-465: one iteration of the main loop. -/
def loopBody (fileData : configData) (st : Parse) : Except Fault Parse :=
  let fuel := st.fin.buf.length + 1
  let r := st.fin.get
  let r := IStream.getWhile '\n' fuel r.1 r.2
  let r := IStream.getWhile ' ' fuel r.1 r.2
  match r.1 with
  | none =>
    .ok { st with cout := st.cout ++ [invalidCodeMsg], fin := r.2.ignore 1000 none }
  | some code =>
    if code = 'E' then .ok { st with fin := r.2.ignore 1000 none }
    else if code ∈ entryCodes then
      let fin := r.2.ignore 1000 (some '(')
      let l := fin.getline 1000 ')'
      if l.1.length > 29 then .error .overrun
      else
        match validate fileData code (cstr l.1) { st with fin := l.2 } with
        | .error e => .error e
        | .ok (true, st) => .ok (readCycles code (cstr l.1) st)
        | .ok (false, st) => .ok st
    else
      .ok { st with cout := st.cout ++ [invalidCodeMsg], fin := r.2.ignore 1000 none }

/-- Lines 313-466: the loop `while( !fin.eof( ) )`, at most `fuel` iterations. -/
def mainLoop (fileData : configData) : Nat → Parse → Except Fault Parse
  | fuel, st =>
    if st.fin.eof then .ok st
    else
      match fuel with
      | 0 => .error .outOfFuel
      | fuel + 1 =>
        match loopBody fileData st with
        | .error e => .error e
        | .ok st => mainLoop fileData fuel st

/-- The function `readMetaData` run on the contents `file` of the file `filePath`
and the vector `metaDataStream`: the vector and the output on `cout` when it
returns. Every iteration of the main loop on a good stream extracts a character or
sets `eofbit`, so `file.length + 1` iterations exhaust the file. -/
def readMetaData (metaDataStream : List metaData) (fileData : configData)
    (filePath : String) (file : List Char) :
    Except Fault (List metaData × List String) :=
  let r := (IStream.ofFile file).peek
  if r.1 = none then .ok (metaDataStream, [emptyFileMsg filePath])
  else
    let fin := r.2.ignore 1000 (some '\n')
    match mainLoop fileData (file.length + 1) ⟨fin, metaDataStream, []⟩ with
    | .error e => .error e
    | .ok st => .ok (st.metaDataStream, st.cout)

/-- A cost table with the eight components of a usual configuration file. -/
def sampleTable : configData :=
  configData.ofList
    [⟨"Processor".toList, 20⟩, ⟨"Monitor".toList, 5⟩, ⟨"Hard drive".toList, 15⟩,
     ⟨"Printer".toList, 25⟩, ⟨"Keyboard".toList, 50⟩, ⟨"Memory".toList, 30⟩,
     ⟨"Mouse".toList, 10⟩, ⟨"Speaker".toList, 15⟩]

/-- The banner line of a usual meta-data file, without its newline. -/
def sampleBanner : List Char := "Start Program Meta-Data Code:".toList

/-! ## The vocabulary of the claims -/

/-- A value of the field `char description[30]` seen as a C string: at most 29
characters and no NUL among them. -/
def IsDescription (d : List Char) : Prop := d.length ≤ 29 ∧ Char.ofNat 0 ∉ d

instance instDecidableIsDescription (d : List Char) : Decidable (IsDescription d) :=
  inferInstanceAs (Decidable (_ ∧ _))

/-- The rule of the specification for `I` and `O`: the description matches a
component name when the first character is ignored, that is, both have the same
length and the same characters from position 1 on. -/
def IoMatch (name d : List Char) : Prop :=
  name.length = d.length ∧ ∀ j, 1 ≤ j → name[j]? = d[j]?

/-- The whitelist table of section 4.1 of the specification. -/
def Whitelisted (fileData : configData) (code : Char) (d : List Char) : Prop :=
  ((code = 'S' ∨ code = 'A') ∧ (d = startText ∨ d = endText)) ∨
  (code = 'P' ∧ d = runText) ∨
  (code = 'M' ∧ (d = allocateText ∨ d = blockText)) ∨
  ((code = 'I' ∨ code = 'O') ∧ ∃ i, IoMatch (fileData.cycleData i).componentName d)

/-- All eight component names of the table are non-empty. -/
def NamesNonEmpty (fileData : configData) : Prop :=
  ∀ i, (fileData.cycleData i).componentName ≠ []

/-- The value that lines 426-444 leave in `temp.cycles` for the digits that follow
the first one, from the running values of `tempNum` and `temp.cycles`. -/
def cyclesLoop : Int → Int → List Char → Int
  | _, cycles, [] => cycles
  | tempNum, _, c :: cs =>
    cyclesLoop (wrap32 (tempNum * 10)) (wrap32 (wrap32 (tempNum * 10) + digitValue c)) cs

/-- The value that lines 426-444 leave in `temp.cycles` for a run of digits. -/
def parsedCycles : List Char → Int
  | [] => 0
  | c :: cs => cyclesLoop (digitValue c) (digitValue c) cs

/-- The base-10 value of a run of digits. -/
def decimalValue (ds : List Char) : Int :=
  ds.foldl (fun acc c => acc * 10 + digitValue c) 0

/-- An entry of a meta-data file as it is written: its code, the text between the
parentheses and the digits of its cycle count. -/
structure Entry where
  code : Char
  description : List Char
  digits : List Char
deriving DecidableEq, Repr

/-- The text `<code>(<description>)<digits>;` of an entry. -/
def Entry.text (e : Entry) : List Char :=
  e.code :: '(' :: (e.description ++ ')' :: (e.digits ++ [';']))

/-- The instruction the parser appends for an entry. -/
def Entry.parsed (e : Entry) : metaData :=
  ⟨e.code, e.description, parsedCycles e.digits⟩

/-- The separators between two entries: nothing, one blank, one newline, or one
blank followed by one newline. -/
def separators : List (List Char) := [[], [' '], ['\n'], [' ', '\n']]

/-- The text of a sequence of entries, each followed by its separator. -/
def entriesText : List (Entry × List Char) → List Char
  | [] => []
  | (e, sep) :: more => e.text ++ (sep ++ entriesText more)

/-- The script made of a banner line, the entries and the final `E`. -/
def script (banner : List Char) (items : List (Entry × List Char)) : List Char :=
  banner ++ '\n' :: (entriesText items ++ ['E'])

/-- An entry is well formed for a table: its code is one of the six codes, its
description is a whitelisted value of the description field without a closing
parenthesis, and its cycle count is a non-empty run of digits. -/
def Entry.WellFormed (fileData : configData) (e : Entry) : Prop :=
  Whitelisted fileData e.code e.description ∧ IsDescription e.description ∧
    ')' ∉ e.description ∧ e.digits ≠ [] ∧ ∀ c ∈ e.digits, c ∈ digitChars

/-- The state after a rejected description: the typo message is written and
`fin.ignore( 1000, EOF )` is called. -/
def rejected (st : Parse) : Parse :=
  { st with fin := st.fin.ignore 1000 none, cout := st.cout ++ [typoMsg] }

/-- A cost table in which a component name holds a closing parenthesis, as read
from the configuration line `Hard drive(s) cycle time (msec): 15`. -/
def parenTable : configData :=
  configData.ofList
    [⟨"Processor".toList, 20⟩, ⟨"Monitor".toList, 5⟩, ⟨"Hard drive(s)".toList, 15⟩,
     ⟨"Printer".toList, 25⟩, ⟨"Keyboard".toList, 50⟩, ⟨"Memory".toList, 30⟩,
     ⟨"Mouse".toList, 10⟩, ⟨"Speaker".toList, 15⟩]

/-- Three well-formed entries with their separators:
`S(start)0; I(hard drive)13;` newline `P(run)7;`. -/
def sampleItems : List (Entry × List Char) :=
  [(⟨'S', startText, "0".toList⟩, [' ']),
   (⟨'I', "hard drive".toList, "13".toList⟩, ['\n']),
   (⟨'P', runText, "7".toList⟩, [])]

/-- The state at the start of an iteration of the main loop when the stream holds
`a` newlines, `b` blanks, the entry `<code>(<d>)` and then `tail`, with the vector
`acc` and the output `out` so far. -/
def atEntry (acc : List metaData) (out : List String) (a b : Nat) (code : Char)
    (d tail : List Char) : Parse :=
  ⟨⟨List.replicate a '\n' ++ (List.replicate b ' ' ++ code :: '(' :: (d ++ ')' :: tail)),
    false, false⟩, acc, out⟩

/-- A cost table with seven configured components: the eighth name is empty. -/
def sevenNamesTable : configData :=
  configData.ofList
    [⟨"Processor".toList, 20⟩, ⟨"Monitor".toList, 5⟩, ⟨"Hard drive".toList, 15⟩,
     ⟨"Printer".toList, 25⟩, ⟨"Keyboard".toList, 50⟩, ⟨"Memory".toList, 30⟩,
     ⟨"Mouse".toList, 10⟩]

/-! ## `printMetrics` of `Sim03_LiJia/data.cpp`

The function writes to `cout`, waits, starts threads and assigns the process-state
register. Its embedding returns the final values of its variables together with the
trace of these effects, in order. Every logged line starts with the elapsed time and
the text ` - `; they depend on the clock and are left out of the trace. A `double`
that holds `n / 1000.0` for an `int` value `n` is kept as `n`, see `Duration`. The
thread functions `pthread_create` and `pthread_join` are taken to succeed. -/

/-- The constants of lines 41-45. -/
def START : Int := 1

def READY : Int := 2

def RUNNING : Int := 3

def WAITING : Int := 4

def EXIT : Int := 5

/-- The `struct PCB`. -/
structure PCB where
  processState : Int
deriving DecidableEq, Repr

/-- The value `millis / 1000.0` of the variable `cycles`. -/
structure Duration where
  millis : Int
deriving DecidableEq, Repr

/-- The number of seconds of a duration, as a rational number. -/
def Duration.seconds (d : Duration) : ℚ := (d.millis : ℚ) / 1000

/-- An item written to `cout` with `<<`: a string, an `int` written while the
stream is in base 16 (`hex = true`) or in base 10, or the `unsigned int` written by
`setw(8) << hex << memoryNum` after `setfill('0')`. -/
inductive Token where
  | str (s : List Char)
  | int (hex : Bool) (n : Int)
  | address (n : Nat)
deriving DecidableEq, Repr

/-- An effect of `printMetrics`: an assignment to `processObj.processState`, a line
written to `cout` (its items after the elapsed time), a call of `wait`, a call of
`allocateMemory` on the value of `memoryNum`, the start of a thread that runs
`pWait` on `td.cycleTime`, and the join of that thread. -/
inductive Event where
  | state (s : Int)
  | log (line : List Token)
  | wait (cycles : Duration)
  | allocate (memoryNum : Nat)
  | create (cycleTime : Duration)
  | join
deriving DecidableEq, Repr

/-- The variables of `printMetrics` that live across its statements, with the
register `processObj.processState` and the base flag of `cout` (`hex = true` once the
manipulator `hex` was applied). The fill character set by `setfill('0')` is not
kept: no later output has a width. -/
structure Sim where
  processState : Int
  processID : Int
  memoryNum : Nat
  indexFour : Int
  indexFive : Int
  hex : Bool
deriving DecidableEq, Repr

def hardDriveText : List Char := "hard drive".toList

def printerText : List Char := "printer".toList

def processorName : List Char := "Processor".toList

def memoryName : List Char := "Memory".toList

/-- The items `"Process" << processID << text`. -/
def processLine (s : Sim) (text : String) : List Token :=
  [.str "Process".toList, .int s.hex s.processID, .str text.toList]

/-- The value of `cycles` after
`cycles = ( metaDataStream[index].cycles * fileData.cycleData[indexTwo].time ) / 1000.0`:
the product is a product of two `int`. -/
def cyclesOf (m : metaData) (entry : cycleTime) : Duration :=
  ⟨wrap32 (m.cycles * entry.time)⟩

/-- A loop `for( indexTwo = 0; indexTwo < 8; indexTwo++ )` with the given body. -/
def forEntries (body : Fin 8 → Sim → Except Fault (Sim × List Event)) :
    List (Fin 8) → Sim → Except Fault (Sim × List Event)
  | [], s => .ok (s, [])
  | indexTwo :: more, s =>
    match body indexTwo s with
    | .error e => .error e
    | .ok r =>
      match forEntries body more r.1 with
      | .error e => .error e
      | .ok r2 => .ok (r2.1, r.2 ++ r2.2)

/-- Lines 588-596: the block run for a table entry named `Processor`. -/
def processorBlock (m : metaData) (entry : cycleTime) (s : Sim) : Sim × List Event :=
  ({ s with processState := WAITING },
    [.state WAITING,
     .log (processLine s ": start processing action"),
     .wait (cyclesOf m entry),
     .log (processLine s ": end processing action")])

/-- Lines 584-598. -/
def processorBody (m : metaData) (fileData : configData) (indexTwo : Fin 8) (s : Sim) :
    Except Fault (Sim × List Event) :=
  if (fileData.cycleData indexTwo).componentName = processorName then
    .ok (processorBlock m (fileData.cycleData indexTwo) s)
  else .ok (s, [])

/-- Lines 604-611: the action `A(start)`. -/
def startBlock (s : Sim) : Sim × List Event :=
  let s2 := { s with processState := START, processID := wrap32 (s.processID + 1) }
  (s2,
    [.state START,
     .log [.str "OS: preparing process ".toList, .int s2.hex s2.processID],
     .log [.str "OS: starting process ".toList, .int s2.hex s2.processID]])

/-- Lines 615-618: the action `A(end)`. -/
def endBlock (s : Sim) : Sim × List Event :=
  ({ s with processState := EXIT },
    [.state EXIT, .log [.str "OS: removing process ".toList, .int s.hex s.processID]])

/-- Lines 629-640: `M(allocate)` for a table entry named `Memory`. The process
number of the second line is written before the manipulator `hex`, which stays in
force afterwards. The value returned by `allocateMemory` is converted to
`unsigned int`. -/
def allocateBlock (allocateMemory : Nat → Int → Int → Nat) (m : metaData)
    (fileData : configData) (entry : cycleTime) (s : Sim) : Sim × List Event :=
  ({ s with
      processState := RUNNING,
      hex := true,
      memoryNum :=
        allocateMemory s.memoryNum fileData.blockMemorySize fileData.systemMemorySize
          % 4294967296 },
    [.state RUNNING,
     .wait (cyclesOf m entry),
     .log (processLine s ": allocating memory"),
     .log (processLine s ": memory allocated at " ++ [.str "0x".toList, .address s.memoryNum]),
     .allocate s.memoryNum])

/-- Lines 644-652: `M(block)` for a table entry named `Memory`. -/
def blockBlock (m : metaData) (entry : cycleTime) (s : Sim) : Sim × List Event :=
  ({ s with processState := READY },
    [.state READY,
     .wait (cyclesOf m entry),
     .log (processLine s ": start memory blocking"),
     .log (processLine s ": end memory blocking")])

/-- Lines 623-655. -/
def memoryBody (allocateMemory : Nat → Int → Int → Nat) (m : metaData)
    (fileData : configData) (indexTwo : Fin 8) (s : Sim) :
    Except Fault (Sim × List Event) :=
  if (fileData.cycleData indexTwo).componentName = memoryName then
    if m.description = allocateText then
      .ok (allocateBlock allocateMemory m fileData (fileData.cycleData indexTwo) s)
    else if m.description = blockText then
      .ok (blockBlock m (fileData.cycleData indexTwo) s)
    else .ok (s, [])
  else .ok (s, [])

/-- The items `" input"` or `" output"` of lines 671-678 and 708-715. -/
def directionItems (m : metaData) : List Token :=
  (if m.code = 'I' then [Token.str " input".toList] else []) ++
    (if m.code = 'O' then [Token.str " output".toList] else [])

/-- The statements `index++; index = index % quantity;` of lines 719-720 and
725-726. -/
def advance (index quantity : Int) : Except Fault Int :=
  if quantity = 0 then .error .divideByZero
  else .ok ((wrap32 (index + 1)).tmod quantity)

/-- Lines 665-728: the block run for a table entry that matches the description of
an `I` or `O` instruction. -/
def ioBlock (m : metaData) (fileData : configData) (entry : cycleTime) (s : Sim) :
    Except Fault (Sim × List Event) :=
  let before : List Event :=
    [.state WAITING,
     .log (processLine s ": start " ++ [.str m.description] ++ directionItems m),
     .create (cyclesOf m entry),
     .state READY,
     .join]
  let line : List Token := processLine s ": end " ++ [.str m.description] ++ directionItems m
  let s1 := { s with processState := READY }
  let hdd : Except Fault (Sim × List Token) :=
    if m.description = hardDriveText then
      match advance s1.indexFour fileData.hardDriveQuantity with
      | .error e => .error e
      | .ok i =>
        .ok ({ s1 with indexFour := i },
          line ++ [.str " on HDD ".toList, .int s1.hex s1.indexFour])
    else .ok (s1, line)
  match hdd with
  | .error e => .error e
  | .ok (s2, line2) =>
    if m.description = printerText then
      match advance s2.indexFive fileData.printerQuantity with
      | .error e => .error e
      | .ok i =>
        .ok ({ s2 with indexFive := i },
          before ++ [.log (line2 ++ [.str " on PRNTR ".toList, .int s2.hex s2.indexFive])])
    else .ok (s2, before ++ [.log line2])

/-- Lines 659-730. -/
def ioBody (m : metaData) (fileData : configData) (indexTwo : Fin 8) (s : Sim) :
    Except Fault (Sim × List Event) :=
  let length := m.description.length
  match compareIsZero (fileData.cycleData indexTwo).componentName 1 length
      m.description 1 length with
  | .error e => .error e
  | .ok true => ioBlock m fileData (fileData.cycleData indexTwo) s
  | .ok false => .ok (s, [])

/-- Lines 582-731: the body of the loop over the instructions, for the instruction
`m = metaDataStream[index]`. -/
def step (allocateMemory : Nat → Int → Int → Nat) (fileData : configData) (m : metaData)
    (s : Sim) : Except Fault (Sim × List Event) :=
  if m.code = 'P' then forEntries (processorBody m fileData) indices s
  else if m.code = 'A' then
    if m.description = startText then .ok (startBlock s)
    else if m.description = endText then .ok (endBlock s)
    else .ok (s, [])
  else if m.code = 'M' then forEntries (memoryBody allocateMemory m fileData) indices s
  else if m.code = 'I' ∨ m.code = 'O' then forEntries (ioBody m fileData) indices s
  else .ok (s, [])

/-- Lines 575-733: the loop over the instructions, from the state `s`. -/
def run (allocateMemory : Nat → Int → Int → Nat) (fileData : configData) :
    List metaData → Sim → Except Fault (Sim × List Event)
  | [], s => .ok (s, [])
  | m :: more, s =>
    match step allocateMemory fileData m s with
    | .error e => .error e
    | .ok r =>
      match run allocateMemory fileData more r.1 with
      | .error e => .error e
      | .ok r2 => .ok (r2.1, r.2 ++ r2.2)

/-- The values of the variables of `printMetrics` before the loop, for the register
value `processState` of the caller; `cout` is in base 10. -/
def fresh (processState : Int) : Sim :=
  { processState := processState, processID := 0, memoryNum := 0, indexFour := 0,
    indexFive := 0, hex := false }

/-- The line written at line 573. -/
def startingLine : List Token := [.str "Simulator program starting".toList]

/-- The function `printMetrics`, with the external function `allocateMemory` as a
parameter: the register `processObj` when it returns and the trace of its effects. -/
def printMetrics (allocateMemory : Nat → Int → Int → Nat) (metaDataStream : List metaData)
    (fileData : configData) (processObj : PCB) : Except Fault (PCB × List Event) :=
  match run allocateMemory fileData metaDataStream (fresh processObj.processState) with
  | .error e => .error e
  | .ok r => .ok (⟨r.1.processState⟩, Event.log startingLine :: r.2)

/-- The lines written to `cout`, in order. -/
def logLines : List Event → List (List Token)
  | [] => []
  | .log line :: more => line :: logLines more
  | _ :: more => logLines more

/-- The durations passed to `wait`, in order. -/
def waits : List Event → List Duration
  | [] => []
  | .wait d :: more => d :: waits more
  | _ :: more => waits more

/-- The values assigned to the process-state register, in order. -/
def states : List Event → List Int
  | [] => []
  | .state v :: more => v :: states more
  | _ :: more => states more

/-- The text of an `int` written in base 16, as `unsigned int`, or in base 10. -/
def showInt (hex : Bool) (n : Int) : List Char :=
  if hex then Nat.toDigits 16 (n % 4294967296).toNat
  else if n < 0 then '-' :: Nat.toDigits 10 n.natAbs
  else Nat.toDigits 10 n.toNat

/-- The text of `setw(8) << hex << memoryNum` with the fill character `0`. -/
def showAddress (n : Nat) : List Char :=
  List.replicate (8 - (Nat.toDigits 16 n).length) '0' ++ Nat.toDigits 16 n

/-- The text of an item. -/
def Token.text : Token → List Char
  | .str s => s
  | .int hex n => showInt hex n
  | .address n => showAddress n

/-- The text of a line, after the elapsed time and ` - `. -/
def lineText : List Token → List Char
  | [] => []
  | t :: more => t.text ++ lineText more

/-! ## The vocabulary of the claims on `printMetrics` -/

/-- The indices of the table entries named exactly `Processor`, in table order. -/
def processorEntries (fileData : configData) : List (Fin 8) :=
  indices.filter (fun i => decide ((fileData.cycleData i).componentName = processorName))

/-- The indices of the table entries named exactly `Memory`, in table order. -/
def memoryEntries (fileData : configData) : List (Fin 8) :=
  indices.filter (fun i => decide ((fileData.cycleData i).componentName = memoryName))

/-- The rule `IoMatch` as the code evaluates it. -/
def matchesName (name d : List Char) : Bool :=
  decide (name.length = d.length ∧ name.drop 1 = d.drop 1)

/-- The indices of the table entries that match a description when the first
character is ignored, in table order. -/
def matchingEntries (fileData : configData) (d : List Char) : List (Fin 8) :=
  indices.filter (fun i => matchesName (fileData.cycleData i).componentName d)

/-- An instruction `A(start)`. -/
def IsStart (m : metaData) : Prop := m.code = 'A' ∧ m.description = startText

instance instDecidableIsStart (m : metaData) : Decidable (IsStart m) :=
  inferInstanceAs (Decidable (_ ∧ _))

/-- An instruction `A(end)`. -/
def IsEnd (m : metaData) : Prop := m.code = 'A' ∧ m.description = endText

instance instDecidableIsEnd (m : metaData) : Decidable (IsEnd m) :=
  inferInstanceAs (Decidable (_ ∧ _))

/-- An instruction `M(allocate)`. -/
def IsAllocate (m : metaData) : Prop := m.code = 'M' ∧ m.description = allocateText

instance instDecidableIsAllocate (m : metaData) : Decidable (IsAllocate m) :=
  inferInstanceAs (Decidable (_ ∧ _))

/-- An `I` or `O` instruction with the given description. -/
def IsDevice (d : List Char) (m : metaData) : Prop :=
  (m.code = 'I' ∨ m.code = 'O') ∧ m.description = d

instance instDecidableIsDevice (d : List Char) (m : metaData) : Decidable (IsDevice d m) :=
  inferInstanceAs (Decidable (_ ∧ _))

/-- The number of instructions `A(start)` in a sequence. -/
def numStarts (xs : List metaData) : Nat := xs.countP (fun m => decide (IsStart m))

/-- The number of instructions `M(allocate)` in a sequence. -/
def numAllocates (xs : List metaData) : Nat := xs.countP (fun m => decide (IsAllocate m))

/-- The number of `I` and `O` instructions with the given description. -/
def numDevice (d : List Char) (xs : List metaData) : Nat :=
  xs.countP (fun m => decide (IsDevice d m))

/-- The value assigned to `memoryNum` by line 640. -/
def nextCursor (allocateMemory : Nat → Int → Int → Nat) (fileData : configData)
    (memoryNum : Nat) : Nat :=
  allocateMemory memoryNum fileData.blockMemorySize fileData.systemMemorySize % 4294967296

/-- An instruction that `printMetrics` processes without an exception and without a
division by zero: for an `I` or `O` instruction the eight component names and the
description are non-empty, and the quantity of a device that is indexed is not
zero. -/
def Safe (fileData : configData) (m : metaData) : Prop :=
  (m.code = 'I' ∨ m.code = 'O') →
    NamesNonEmpty fileData ∧ m.description ≠ [] ∧
      (m.description = hardDriveText → fileData.hardDriveQuantity ≠ 0) ∧
      (m.description = printerText → fileData.printerQuantity ≠ 0)

/-- The value that an instruction assigns to the process-state register, if it
assigns one. -/
def target (fileData : configData) (m : metaData) : Option Int :=
  if m.code = 'P' then
    if processorEntries fileData = [] then none else some WAITING
  else if m.code = 'A' then
    if m.description = startText then some START
    else if m.description = endText then some EXIT
    else none
  else if m.code = 'M' then
    if memoryEntries fileData = [] then none
    else if m.description = allocateText then some RUNNING
    else if m.description = blockText then some READY
    else none
  else if m.code = 'I' ∨ m.code = 'O' then
    if matchingEntries fileData m.description = [] then none else some READY
  else none

/-- The value of a device index after `index++; index = index % quantity;`, for a
quantity that is not zero. -/
def stepIndex (quantity index : Int) : Int := (wrap32 (index + 1)).tmod quantity

/-- The values of the variables after an instruction, from their values before it:
the register takes the target of the instruction, `A(start)` increments the process
number, `M(allocate)` moves the cursor and puts `cout` in base 16 once per entry
named `Memory`, and an `I` or `O` instruction on `hard drive` or `printer` advances
the index of the device once per matching entry. -/
def after (allocateMemory : Nat → Int → Int → Nat) (fileData : configData) (m : metaData)
    (s : Sim) : Sim :=
  { processState := (target fileData m).getD s.processState,
    processID := if IsStart m then wrap32 (s.processID + 1) else s.processID,
    memoryNum :=
      if IsAllocate m then
        (nextCursor allocateMemory fileData)^[(memoryEntries fileData).length] s.memoryNum
      else s.memoryNum,
    indexFour :=
      if IsDevice hardDriveText m then
        (stepIndex fileData.hardDriveQuantity)^[(matchingEntries fileData
          hardDriveText).length] s.indexFour
      else s.indexFour,
    indexFive :=
      if IsDevice printerText m then
        (stepIndex fileData.printerQuantity)^[(matchingEntries fileData
          printerText).length] s.indexFive
      else s.indexFive,
    hex := s.hex || decide (IsAllocate m ∧ memoryEntries fileData ≠ []) }

/-- The trace of the block run for one matching entry of an `I` or `O` instruction:
the register is set to Waiting, the start line is written, the thread is started,
the register is set to Ready, the thread is joined, the end line is written. -/
def IoBlockTrace (evs : List Event) : Prop :=
  ∃ startLine cycleTime endLine,
    evs = [.state WAITING, .log startLine, .create cycleTime, .state READY, .join,
      .log endLine]

/-- The start line of an `I` or `O` instruction. -/
def ioStartLine (m : metaData) (s : Sim) : List Token :=
  processLine s ": start " ++ [.str m.description] ++ directionItems m

/-- The end line of an `I` or `O` instruction, with the device index when the
description is `hard drive` or `printer`. -/
def ioEndLine (m : metaData) (s : Sim) : List Token :=
  processLine s ": end " ++ [.str m.description] ++ directionItems m ++
    (if m.description = hardDriveText then
      [.str " on HDD ".toList, .int s.hex s.indexFour] else []) ++
    (if m.description = printerText then
      [.str " on PRNTR ".toList, .int s.hex s.indexFive] else [])

/-- The variables after the block of lines 665-728. -/
def ioAfter (m : metaData) (fileData : configData) (s : Sim) : Sim :=
  { s with
    processState := READY,
    indexFour :=
      if m.description = hardDriveText then
        stepIndex fileData.hardDriveQuantity s.indexFour
      else s.indexFour,
    indexFive :=
      if m.description = printerText then
        stepIndex fileData.printerQuantity s.indexFive
      else s.indexFive }

/-- The variables after a sequence of instructions, by `after`. -/
def runAfter (allocateMemory : Nat → Int → Int → Nat) (fileData : configData)
    (xs : List metaData) (s : Sim) : Sim :=
  xs.foldl (fun s m => after allocateMemory fileData m s) s

/-- The arguments of the calls of `allocateMemory`, in order. -/
def allocations : List Event → List Nat
  | [] => []
  | .allocate n :: more => n :: allocations more
  | _ :: more => allocations more

/-- The sixteen digits of base 16 as `cout` writes them. -/
def hexChars : List Char := "0123456789abcdef".toList

/-- The base-16 value of a run of digits. -/
def hexValue (cs : List Char) : Nat :=
  cs.foldl (fun acc c => acc * 16 + hexChars.indexOf c) 0

/-- The sample table with two hard drives, three printers, 2048 units of memory
and blocks of 128 units. -/
def sampleConfig : configData :=
  { sampleTable with
    hardDriveQuantity := 2, printerQuantity := 3,
    systemMemorySize := 2048, blockMemorySize := 128 }

/-- The sample configuration with the second entry named `Card drive`, 7 ms per
cycle: two entries match `hard drive` when the first character is ignored. -/
def ambiguousConfig : configData :=
  { sampleConfig with
    cycleData := fun i =>
      if i = 1 then ⟨"Card drive".toList, 7⟩ else sampleConfig.cycleData i }

/-- A table whose only configured entry is `Processor`, with 20 ms per cycle. -/
def processorOnlyTable : configData :=
  configData.ofList [⟨processorName, 20⟩]

/-- An allocator for the examples: the next block, or 0 when the block would end
beyond the system memory. -/
def sampleAllocate (memoryNum : Nat) (blockSize systemSize : Int) : Nat :=
  if (memoryNum : Int) + 2 * blockSize > systemSize then 0
  else memoryNum + blockSize.toNat

/-! ## The blocks of an instruction, entry by entry -/

/-- The blocks run for the listed table entries, in order, each from the variables
left by the one before. -/
def runBlocks (block : Fin 8 → Sim → Sim × List Event) :
    List (Fin 8) → Sim → Sim × List Event
  | [], s => (s, [])
  | indexTwo :: more, s =>
    let r := block indexTwo s
    let r2 := runBlocks block more r.1
    (r2.1, r.2 ++ r2.2)

/-- The block of lines 665-728 for the table entry `indexTwo`, when the quantity of
an indexed device is not zero. -/
def ioBlockOf (m : metaData) (fileData : configData) (indexTwo : Fin 8) (s : Sim) :
    Sim × List Event :=
  (ioAfter m fileData s,
    [.state WAITING, .log (ioStartLine m s),
     .create (cyclesOf m (fileData.cycleData indexTwo)), .state READY, .join,
     .log (ioEndLine m s)])

/-- The durations given to the threads that run `pWait`, in order. -/
def creates : List Event → List Duration
  | [] => []
  | .create d :: more => d :: creates more
  | _ :: more => creates more

/-- The items that an end line carries after the direction, for a description that
is `hard drive`, `printer` or neither. -/
def deviceSuffix (m : metaData) (s : Sim) : List Token :=
  if m.description = hardDriveText then [.str " on HDD ".toList, .int s.hex s.indexFour]
  else if m.description = printerText then
    [.str " on PRNTR ".toList, .int s.hex s.indexFive]
  else []

/-! ## `findTime`, `wait` and `pWait` of `Sim03_LiJia/data.cpp`

The clock is the list of the values that the successive calls of `gettimeofday`
store, and the arithmetic of `double` and `float` is exact arithmetic on rationals. -/

/-- The `struct timeval`: seconds and microseconds. -/
structure timeval where
  tv_sec : Int
  tv_usec : Int
deriving DecidableEq, Repr

/-- Lines 481-486: the time from `t1` to `t2` in seconds. The source has no
`return` statement; the value is that of the local `elapsedTime` at the closing
brace, which is what `wait`, `pWait` and `printMetrics` use as the result. -/
def findTime (t1 t2 : timeval) : ℚ :=
  let elapsedTime : ℚ := ((t2.tv_sec - t1.tv_sec : Int) : ℚ) * 1000
  let elapsedTime : ℚ := elapsedTime + ((t2.tv_usec - t1.tv_usec : Int) : ℚ) / 1000
  elapsedTime / 1000

/-- Lines 503-507: the loop of `wait`, for the clock readings still to come. The
result is the list of the readings sampled, or `none` when the loop is still
running after the last reading of the list. -/
def waitLoop (t1 : timeval) (cycleTime : ℚ) :
    ℚ → List timeval → List timeval → Option (List timeval)
  | elapsedTime, [], sampled => if elapsedTime < cycleTime then none else some sampled
  | elapsedTime, t2 :: clock, sampled =>
    if elapsedTime < cycleTime then
      waitLoop t1 cycleTime (findTime t1 t2) clock (sampled ++ [t2])
    else some sampled

/-- Lines 497-508: the function `wait`. -/
def wait (t1 t2 : timeval) (cycleTime : ℚ) (clock : List timeval) :
    Option (List timeval) :=
  let elapsedTime := findTime t1 t2
  let cycleTime := elapsedTime + cycleTime
  waitLoop t1 cycleTime elapsedTime clock []

/-- The `struct threadData`. -/
structure threadData where
  t1 : timeval
  t2 : timeval
  cycleTime : ℚ
deriving DecidableEq, Repr

/-- Lines 529-533: the loop of `pWait`, which stores each reading in `IOData->t2`. -/
def pWaitLoop : ℚ → threadData → List timeval → List timeval →
    Option (threadData × List timeval)
  | elapsedTime, IOData, [], sampled =>
    if elapsedTime < IOData.cycleTime then none else some (IOData, sampled)
  | elapsedTime, IOData, t2 :: clock, sampled =>
    if elapsedTime < IOData.cycleTime then
      pWaitLoop (findTime IOData.t1 t2) { IOData with t2 := t2 } clock (sampled ++ [t2])
    else some (IOData, sampled)

/-- Lines 519-535: the function `pWait`, run by a thread of its own on the
structure that `threadArg` points to. The semaphore is initialised to 1 just before
the thread is created (line 684), so `sem_wait` does not block. -/
def pWait (IOData : threadData) (clock : List timeval) :
    Option (threadData × List timeval) :=
  let elapsedTime := findTime IOData.t1 IOData.t2
  let IOData := { IOData with cycleTime := IOData.cycleTime + elapsedTime }
  pWaitLoop elapsedTime IOData clock []

/-! ## `outputToFileMetrics` of `Sim03_LiJia/data.cpp`

The trace records the lines written to `fout`, a stream opened at line 767, whose
number base is kept in the field `hex` as for `cout`. -/

/-- Two results of a piece of the simulator that fail alike, or succeed with the
same trace and the same variables except possibly the process-state register. -/
def SameEffects (a b : Except Fault (Sim × List Event)) : Prop :=
  (∃ e, a = .error e ∧ b = .error e) ∨
    ∃ r w, a = .ok r ∧ b = .ok ({ r.1 with processState := w }, r.2)

/-! ## The vocabulary of the claim on termination -/

/-- A stream whose `failbit` is set only together with `eofbit`: the state in
which `get` fails while `eof()` stays false does not occur. -/
def ReadableOrEof (s : IStream) : Prop := s.failbit = true → s.eofbit = true

/-- The number of iterations of the main loop that a stream still allows: none
when `eofbit` is set, otherwise one more than the number of characters left. -/
def remaining (s : IStream) : Nat := if s.eofbit then 0 else s.buf.length + 1

/-- The stream `t` is a state that follows `s` in a parse: it is readable or at its
end, and it allows no more iterations than `s`. -/
def Follows (s t : IStream) : Prop := ReadableOrEof t ∧ remaining t ≤ remaining s

end Sim03

/-! ## `readMetaData` and `printMetrics` of `Sim01_LiJia/data.cpp` -/

namespace Sim01

/-- The `struct logInfo`. -/
structure logInfo where
  logCriteria : List Char
  logFilePath : List Char
deriving DecidableEq, Repr

/-- The part of the `struct configData` of Sim01 that `readMetaData` and
`printMetrics` read: the array `cycleTime cycleData[8]` and the log data. This
version of the structure has no quantities and no memory sizes. -/
structure configData where
  cycleData : Fin 8 → cycleTime
  logData : logInfo

/-- Lines 316-324: the loop over the eight table entries that sets `flag`. -/
def ioScan (fileData : configData) (description : List Char) :
    List (Fin 8) → Bool → Except Fault Bool
  | [], flag => .ok flag
  | indexTwo :: more, flag =>
    let length := description.length
    match compareIsZero (fileData.cycleData indexTwo).componentName 1 length
        description 1 length with
    | .error e => .error e
    | .ok true => ioScan fileData description more true
    | .ok false => ioScan fileData description more flag

/-- Lines 271-331: the value of `flag` for the entry just read. The last branch of
the source tests for `I` or `O`, the only codes left at that point. -/
def validate (fileData : configData) (code : Char) (description : List Char)
    (st : Sim03.Parse) : Except Fault (Bool × Sim03.Parse) :=
  let rejected : Sim03.Parse :=
    { st with fin := st.fin.ignore 1000 none, cout := st.cout ++ [typoMsg] }
  if code = 'S' ∨ code = 'A' then
    if description = Sim03.startText ∨ description = Sim03.endText then .ok (true, st)
    else .ok (false, rejected)
  else if code = 'P' then
    if description = Sim03.runText then .ok (true, st) else .ok (false, rejected)
  else if code = 'M' then
    if description = Sim03.allocateText ∨ description = Sim03.blockText then .ok (true, st)
    else .ok (false, rejected)
  else
    match ioScan fileData description Sim03.indices false with
    | .error e => .error e
    | .ok true => .ok (true, st)
    | .ok false => .ok (false, rejected)

/-- Lines 253-255: the character that an iteration of the main loop takes as the
entry code, and the stream after it. -/
def readCode (st : Sim03.Parse) : Option Char × IStream :=
  let fuel := st.fin.buf.length + 1
  let r := st.fin.get
  IStream.getWhile '\n' fuel r.1 r.2

/-- Lines 253-400: one iteration of the main loop. There is no loop over blanks
after the loop over newlines. Lines 333-393, the block run when `flag == true`,
are lines 398-459 of Sim03, embedded as `Sim03.readCycles`. -/
def loopBody (fileData : configData) (st : Sim03.Parse) : Except Fault Sim03.Parse :=
  let r := readCode st
  match r.1 with
  | none =>
    .ok { st with cout := st.cout ++ [invalidCodeMsg], fin := r.2.ignore 1000 none }
  | some code =>
    if code = 'E' then .ok { st with fin := r.2.ignore 1000 none }
    else if code ∈ Sim03.entryCodes then
      let fin := r.2.ignore 1000 (some '(')
      let l := fin.getline 1000 ')'
      if l.1.length > 29 then .error .overrun
      else
        match validate fileData code (cstr l.1) { st with fin := l.2 } with
        | .error e => .error e
        | .ok (true, st) => .ok (Sim03.readCycles code (cstr l.1) st)
        | .ok (false, st) => .ok st
    else
      .ok { st with cout := st.cout ++ [invalidCodeMsg], fin := r.2.ignore 1000 none }

/-- Lines 251-401: the loop `while( !fin.eof( ) )`, at most `fuel` iterations. -/
def mainLoop (fileData : configData) : Nat → Sim03.Parse → Except Fault Sim03.Parse
  | fuel, st =>
    if st.fin.eof then .ok st
    else
      match fuel with
      | 0 => .error .outOfFuel
      | fuel + 1 =>
        match loopBody fileData st with
        | .error e => .error e
        | .ok st => mainLoop fileData fuel st

/-- The state of the parse when the main loop is entered: the first line of the
file has been skipped (line 249). -/
def start (metaDataStream : List metaData) (file : List Char) : Sim03.Parse :=
  ⟨((IStream.ofFile file).peek).2.ignore 1000 (some '\n'), metaDataStream, []⟩

/-- The function `readMetaData` of Sim01 (lines 227-405) run on the contents `file`
of the file `filePath`. -/
def readMetaData (metaDataStream : List metaData) (fileData : configData)
    (filePath : String) (file : List Char) :
    Except Fault (List metaData × List String) :=
  let r := (IStream.ofFile file).peek
  if r.1 = none then .ok (metaDataStream, [emptyFileMsg filePath])
  else
    match mainLoop fileData (file.length + 1) (start metaDataStream file) with
    | .error e => .error e
    | .ok st => .ok (st.metaDataStream, st.cout)

/-- Whether some iteration of the main loop of Sim01, among the first `fuel` ones
from the state `st`, takes a blank as the entry code. -/
def readsBlankCode (fileData : configData) : Nat → Sim03.Parse → Bool
  | fuel, st =>
    if st.fin.eof then false
    else
      match fuel with
      | 0 => false
      | fuel + 1 =>
        decide ((readCode st).1 = some ' ') ||
          match loopBody fileData st with
          | .error _ => false
          | .ok st => readsBlankCode fileData fuel st

/-- The table of Sim01 with the entries of a table of Sim03. -/
def tableOf (fileData : Cs446.configData) (logData : logInfo) : configData :=
  ⟨fileData.cycleData, logData⟩

/-- A loop `for( indexTwo = 0; indexTwo < 8; indexTwo++ )` whose body writes lines
to `cout`. -/
def forLines (body : Fin 8 → Except Fault (List (List Char))) :
    List (Fin 8) → Except Fault (List (List Char))
  | [] => .ok []
  | indexTwo :: more =>
    match body indexTwo with
    | .error e => .error e
    | .ok lines =>
      match forLines body more with
      | .error e => .error e
      | .ok lines2 => .ok (lines ++ lines2)

/-- Lines 453-456, 466-469 and 481-484: the line
`<code>(<description>)<cycles> - <cycles * time> ms`; the product is a product of
two `int`, and `cout` is in base 10. -/
def metricsLine (m : metaData) (entry : cycleTime) : List Char :=
  [m.code] ++ "(".toList ++ m.description ++ ")".toList ++ Sim03.showInt false m.cycles ++
    " - ".toList ++ Sim03.showInt false (wrap32 (m.cycles * entry.time)) ++ " ms".toList

/-- Lines 447-487: the body of the loop over the instructions. -/
def metricsStep (fileData : configData) (m : metaData) : Except Fault (List (List Char)) :=
  if m.code = 'P' then
    forLines (fun indexTwo =>
      if (fileData.cycleData indexTwo).componentName = Sim03.processorName then
        .ok [metricsLine m (fileData.cycleData indexTwo)]
      else .ok []) Sim03.indices
  else if m.code = 'M' then
    forLines (fun indexTwo =>
      if (fileData.cycleData indexTwo).componentName = Sim03.memoryName then
        .ok [metricsLine m (fileData.cycleData indexTwo)]
      else .ok []) Sim03.indices
  else if m.code = 'I' ∨ m.code = 'O' then
    forLines (fun indexTwo =>
      let length := m.description.length
      match compareIsZero (fileData.cycleData indexTwo).componentName 1 length
          m.description 1 length with
      | .error e => .error e
      | .ok true => .ok [metricsLine m (fileData.cycleData indexTwo)]
      | .ok false => .ok []) Sim03.indices
  else .ok []

/-- Lines 445-488: the loop over the instructions. -/
def metricsRun (fileData : configData) : List metaData → Except Fault (List (List Char))
  | [] => .ok []
  | m :: more =>
    match metricsStep fileData m with
    | .error e => .error e
    | .ok lines =>
      match metricsRun fileData more with
      | .error e => .error e
      | .ok lines2 => .ok (lines ++ lines2)

/-- Lines 422-443: the lines written before the metrics: the eight entries of the
table, where the data were logged, an empty line and the title. -/
def headerLines (fileData : configData) : List (List Char) :=
  Sim03.indices.map (fun index =>
      (fileData.cycleData index).componentName ++ " = ".toList ++
        Sim03.showInt false (fileData.cycleData index).time ++ " ms/cycle".toList) ++
    (if fileData.logData.logCriteria = "Both".toList then
      ["Logged to: monitor and ".toList ++ fileData.logData.logFilePath]
    else if fileData.logData.logCriteria = "File".toList then
      ["Logged to: ".toList ++ fileData.logData.logFilePath]
    else if fileData.logData.logCriteria = "Monitor".toList then
      ["Logged to: monitor".toList]
    else []) ++
    [[], "Meta-Data Metrics".toList]

/-- The function `printMetrics` of Sim01 (lines 416-490): the lines written to
`cout`. -/
def printMetrics (metaDataStream : List metaData) (fileData : configData) :
    Except Fault (List (List Char)) :=
  match metricsRun fileData metaDataStream with
  | .error e => .error e
  | .ok lines => .ok (headerLines fileData ++ lines)

/-- The indices of the table entries that give a metrics line for an instruction,
in table order: the entries named `Processor` for `P`, the entries named `Memory`
for `M`, the entries that match the description when the first character is ignored
for `I` and `O`, none for the other codes. -/
def metricsEntries (fileData : configData) (m : metaData) : List (Fin 8) :=
  if m.code = 'P' then
    Sim03.indices.filter (fun i =>
      decide ((fileData.cycleData i).componentName = Sim03.processorName))
  else if m.code = 'M' then
    Sim03.indices.filter (fun i =>
      decide ((fileData.cycleData i).componentName = Sim03.memoryName))
  else if m.code = 'I' ∨ m.code = 'O' then
    Sim03.indices.filter (fun i =>
      Sim03.matchesName (fileData.cycleData i).componentName m.description)
  else []

/-- An instruction on which `printMetrics` of Sim01 throws no exception: for an `I`
or `O` instruction the eight component names and the description are non-empty. -/
def Printable (fileData : configData) (m : metaData) : Prop :=
  (m.code = 'I' ∨ m.code = 'O') →
    (∀ i, (fileData.cycleData i).componentName ≠ []) ∧ m.description ≠ []

/-- The sample table as a table of Sim01, logged to the monitor. -/
def sampleTable : configData :=
  tableOf Sim03.sampleTable ⟨"Monitor".toList, "logfile_1.lgf".toList⟩

end Sim01

namespace Sim03

/-! ## Lemmas on the stream operations -/

theorem getWhile_ne (ch : Char) (c : Option Char) (s : IStream) (h : c ≠ some ch) :
    ∀ fuel, IStream.getWhile ch fuel c s = (c, s) := by
  intro fuel
  cases fuel <;> simp [IStream.getWhile, h]

theorem getWhile_run (ch c : Char) (hc : c ≠ ch) (rest : List Char) :
    ∀ (k fuel : Nat), k < fuel →
      IStream.getWhile ch fuel (some ch) ⟨List.replicate k ch ++ c :: rest, false, false⟩ =
        (some c, ⟨rest, false, false⟩) := by
  intro k
  induction k with
  | zero =>
    intro fuel hf
    obtain ⟨j, rfl⟩ : ∃ j, fuel = j + 1 := ⟨fuel - 1, by omega⟩
    have h : (some c : Option Char) ≠ some ch := by simpa using hc
    simp [IStream.getWhile, IStream.get, IStream.good, getWhile_ne ch _ _ h]
  | succ k ih =>
    intro fuel hf
    obtain ⟨j, rfl⟩ : ∃ j, fuel = j + 1 := ⟨fuel - 1, by omega⟩
    simp [IStream.getWhile, IStream.get, IStream.good, List.replicate_succ,
      ih j (by omega)]

/-- After a `get` that returned `ch`, the loop skips the run of `ch` and stops on
the first other character. -/
theorem get_getWhile_run (ch c : Char) (hc : c ≠ ch) (rest : List Char) (k fuel : Nat)
    (hf : k < fuel) :
    IStream.getWhile ch fuel
        (IStream.get ⟨List.replicate k ch ++ c :: rest, false, false⟩).1
        (IStream.get ⟨List.replicate k ch ++ c :: rest, false, false⟩).2 =
      (some c, ⟨rest, false, false⟩) := by
  cases k with
  | zero =>
    have h : (some c : Option Char) ≠ some ch := by simpa using hc
    simp [IStream.get, IStream.good, getWhile_ne ch _ _ h]
  | succ k =>
    simp only [List.replicate_succ, List.cons_append, IStream.get, IStream.good]
    simpa using getWhile_run ch c hc rest k fuel (by omega)

theorem getlineLoop_delim (delim : Char) (rest : List Char) :
    ∀ (d : List Char) (room : Nat), d.length ≤ room → delim ∉ d →
      IStream.getlineLoop delim room (d ++ delim :: rest) = ⟨d, rest, false, true, false⟩ := by
  intro d
  induction d with
  | nil =>
    intro room _ _
    cases room <;> simp [IStream.getlineLoop]
  | cons c cs ih =>
    intro room hr hd
    obtain ⟨k, rfl⟩ : ∃ k, room = k + 1 := ⟨room - 1, by simp at hr; omega⟩
    have hc : c ≠ delim := fun h => hd (by simp [h])
    have hcs : delim ∉ cs := fun h => hd (by simp [h])
    simp [IStream.getlineLoop, hc, ih k (by simp at hr; omega) hcs]

theorem getline_delim (d rest : List Char) (hlen : d.length ≤ 999) (hd : ')' ∉ d) :
    IStream.getline ⟨d ++ ')' :: rest, false, false⟩ 1000 ')' =
      (d, ⟨rest, false, false⟩) := by
  simp [IStream.getline, IStream.good, getlineLoop_delim ')' rest d 999 hlen hd]

theorem cstr_eq (d : List Char) (h : Char.ofNat 0 ∉ d) : cstr d = d := by
  unfold cstr
  rw [List.takeWhile_eq_self_iff]
  intro c hc
  have : c ≠ Char.ofNat 0 := fun h2 => h (h2 ▸ hc)
  simpa using this


theorem ignoreLoop_delim (d : Char) (rest : List Char) :
    ∀ (pre : List Char) (n : Nat), pre.length < n → d ∉ pre →
      IStream.ignoreLoop (some d) n (pre ++ d :: rest) = (rest, false) := by
  intro pre
  induction pre with
  | nil =>
    intro n hn _
    obtain ⟨k, rfl⟩ : ∃ k, n = k + 1 := ⟨n - 1, by simp at hn; omega⟩
    simp [IStream.ignoreLoop]
  | cons c cs ih =>
    intro n hn hd
    obtain ⟨k, rfl⟩ : ∃ k, n = k + 1 := ⟨n - 1, by simp at hn; omega⟩
    have hc : c ≠ d := fun h => hd (by simp [h])
    have hcs : d ∉ cs := fun h => hd (by simp [h])
    have hk : cs.length < k := by simp at hn; omega
    simp [IStream.ignoreLoop, hc, ih k hk hcs]

theorem ignoreLoop_eof_short :
    ∀ (t : List Char) (n : Nat), t.length < n → IStream.ignoreLoop none n t = ([], true) := by
  intro t
  induction t with
  | nil =>
    intro n hn
    obtain ⟨k, rfl⟩ : ∃ k, n = k + 1 := ⟨n - 1, by simp at hn; omega⟩
    simp [IStream.ignoreLoop]
  | cons c cs ih =>
    intro n hn
    obtain ⟨k, rfl⟩ : ∃ k, n = k + 1 := ⟨n - 1, by simp at hn; omega⟩
    have hk : cs.length < k := by simp at hn; omega
    simp [IStream.ignoreLoop, ih k hk]

theorem ignoreLoop_eof_long :
    ∀ (t : List Char) (n : Nat), n ≤ t.length →
      IStream.ignoreLoop none n t = (t.drop n, false) := by
  intro t
  induction t with
  | nil =>
    intro n hn
    have : n = 0 := by simpa using hn
    subst this
    simp [IStream.ignoreLoop]
  | cons c cs ih =>
    intro n hn
    cases n with
    | zero => simp [IStream.ignoreLoop]
    | succ k =>
      have hk : k ≤ cs.length := by simp at hn; omega
      simp [IStream.ignoreLoop, ih k hk]

/-! ## Lemmas on the validation of a description -/

theorem ioMatch_iff_drop (name d : List Char) :
    IoMatch name d ↔ name.length = d.length ∧ name.drop 1 = d.drop 1 := by
  unfold IoMatch
  constructor
  · rintro ⟨hl, h⟩
    refine ⟨hl, List.ext_getElem? ?_⟩
    intro n
    rw [List.getElem?_drop, List.getElem?_drop]
    exact h (1 + n) (by omega)
  · rintro ⟨hl, h⟩
    refine ⟨hl, ?_⟩
    intro j hj
    obtain ⟨n, rfl⟩ : ∃ n, j = 1 + n := ⟨j - 1, by omega⟩
    rw [← List.getElem?_drop, ← List.getElem?_drop, h]

theorem compareIsZero_eq (name d : List Char) (hn : 1 ≤ name.length) (hd : 1 ≤ d.length) :
    compareIsZero name 1 d.length d 1 d.length =
      .ok (decide (name.length = d.length ∧ name.drop 1 = d.drop 1)) := by
  unfold compareIsZero
  have hpos : ¬ (1 > name.length ∨ 1 > d.length) := by omega
  rw [if_neg hpos]
  congr 1
  have hd1 : (d.drop 1).take d.length = d.drop 1 :=
    List.take_of_length_le (by simp)
  rw [hd1]
  apply decide_eq_decide.mpr
  constructor
  · intro h
    have hlen := congrArg List.length h
    simp only [List.length_take, List.length_drop] at hlen
    have hl : name.length = d.length := by omega
    refine ⟨hl, ?_⟩
    rw [← h]
    exact (List.take_of_length_le (by simp; omega)).symm
  · rintro ⟨hl, h⟩
    rw [h]
    exact List.take_of_length_le (by simp)

theorem compareIsZero_ok (name d : List Char) (b : Bool)
    (h : compareIsZero name 1 d.length d 1 d.length = .ok b) :
    1 ≤ name.length ∧ 1 ≤ d.length ∧ (b = true ↔ IoMatch name d) := by
  have hpos : 1 ≤ name.length ∧ 1 ≤ d.length := by
    by_contra hc
    have : 1 > name.length ∨ 1 > d.length := by omega
    unfold compareIsZero at h
    rw [if_pos this] at h
    exact Except.noConfusion h
  refine ⟨hpos.1, hpos.2, ?_⟩
  rw [compareIsZero_eq name d hpos.1 hpos.2] at h
  have hb := Except.ok.inj h
  rw [ioMatch_iff_drop, ← hb]
  simp

theorem mem_indices (i : Fin 8) : i ∈ indices := by
  revert i
  decide

/-- The loop over the table: when it returns, no comparison threw, and the flag
is set exactly if it was set before or some scanned entry matches. -/
theorem ioScan_ok (fileData : configData) (d : List Char) :
    ∀ (l : List (Fin 8)) (flag b : Bool), ioScan fileData d l flag = .ok b →
      (b = true ↔ flag = true ∨ ∃ i ∈ l, IoMatch (fileData.cycleData i).componentName d) ∧
        (l ≠ [] → 1 ≤ d.length) ∧
        ∀ i ∈ l, 1 ≤ (fileData.cycleData i).componentName.length := by
  intro l
  induction l with
  | nil =>
    intro flag b h
    simp only [ioScan] at h
    have hb := Except.ok.inj h
    simp [hb]
  | cons i more ih =>
    intro flag b h
    simp only [ioScan] at h
    cases hc : compareIsZero (fileData.cycleData i).componentName 1 d.length d 1 d.length with
    | error e => simp [hc] at h
    | ok r =>
      obtain ⟨hn, hd, hr⟩ := compareIsZero_ok _ _ _ hc
      cases r with
      | true =>
        simp only [hc] at h
        obtain ⟨h1, _, h3⟩ := ih true b h
        have hm : IoMatch (fileData.cycleData i).componentName d := hr.mp rfl
        refine ⟨?_, fun _ => hd, ?_⟩
        · have hb : b = true := h1.mpr (Or.inl rfl)
          simp only [hb, true_iff]
          exact Or.inr ⟨i, by simp, hm⟩
        · intro j hj
          rcases List.mem_cons.mp hj with rfl | hj
          · exact hn
          · exact h3 j hj
      | false =>
        simp only [hc] at h
        obtain ⟨h1, _, h3⟩ := ih flag b h
        have hm : ¬ IoMatch (fileData.cycleData i).componentName d := by
          intro hm
          have := hr.mpr hm
          simp at this
        refine ⟨?_, fun _ => hd, ?_⟩
        · rw [h1]
          constructor
          · rintro (hf | ⟨j, hj, hjm⟩)
            · exact Or.inl hf
            · exact Or.inr ⟨j, by simp [hj], hjm⟩
          · rintro (hf | ⟨j, hj, hjm⟩)
            · exact Or.inl hf
            · rcases List.mem_cons.mp hj with rfl | hj
              · exact absurd hjm hm
              · exact Or.inr ⟨j, hj, hjm⟩
        · intro j hj
          rcases List.mem_cons.mp hj with rfl | hj
          · exact hn
          · exact h3 j hj

/-- With non-empty names and a non-empty description no comparison throws. -/
theorem ioScan_total (fileData : configData) (d : List Char) (hn : NamesNonEmpty fileData)
    (hd : d ≠ []) :
    ∀ (l : List (Fin 8)) (flag : Bool), ∃ b, ioScan fileData d l flag = .ok b := by
  have hd1 : 1 ≤ d.length := List.length_pos.mpr hd
  intro l
  induction l with
  | nil => intro flag; exact ⟨flag, rfl⟩
  | cons i more ih =>
    intro flag
    have hi : 1 ≤ (fileData.cycleData i).componentName.length := List.length_pos.mpr (hn i)
    simp only [ioScan, compareIsZero_eq _ _ hi hd1]
    by_cases hm : (fileData.cycleData i).componentName.length = d.length ∧
        (fileData.cycleData i).componentName.drop 1 = d.drop 1
    · simp only [hm, and_self, decide_True]
      exact ih true
    · simp only [hm, decide_False]
      exact ih flag

/-- The flag of the scan over the whole table. -/
theorem ioScan_indices (fileData : configData) (d : List Char) (hn : NamesNonEmpty fileData)
    (hd : d ≠ []) :
    ∃ b, ioScan fileData d indices false = .ok b ∧
      (b = true ↔ ∃ i, IoMatch (fileData.cycleData i).componentName d) := by
  obtain ⟨b, hb⟩ := ioScan_total fileData d hn hd indices false
  refine ⟨b, hb, ?_⟩
  rw [(ioScan_ok fileData d indices false b hb).1]
  constructor
  · rintro (h | ⟨i, _, hi⟩)
    · simp at h
    · exact ⟨i, hi⟩
  · rintro ⟨i, hi⟩
    exact Or.inr ⟨i, mem_indices i, hi⟩

theorem ioMatch_ne_nil (name d : List Char) (hn : name ≠ []) (h : IoMatch name d) :
    d ≠ [] := by
  intro hd
  have := h.1
  rw [hd] at this
  exact hn (List.length_eq_zero.mp this)

theorem whitelisted_code (fileData : configData) (code : Char) (d : List Char)
    (h : Whitelisted fileData code d) : code ∈ entryCodes := by
  rcases h with ⟨h | h, _⟩ | ⟨h, _⟩ | ⟨h, _⟩ | ⟨h | h, _⟩ <;> subst h <;> decide

theorem validate_accept (fileData : configData) (code : Char) (d : List Char) (st : Parse)
    (hw : Whitelisted fileData code d)
    (hn : code = 'I' ∨ code = 'O' → NamesNonEmpty fileData) :
    validate fileData code d st = .ok (true, st) := by
  rcases hw with ⟨hc, hd⟩ | ⟨hc, hd⟩ | ⟨hc, hd⟩ | ⟨hc, i, hm⟩
  · simp [validate, hc, hd]
  · subst hc
    simp [validate, hd]
  · subst hc
    simp [validate, hd]
  · have hne := hn hc
    have hd : d ≠ [] := ioMatch_ne_nil _ d (hne i) hm
    obtain ⟨b, hb, hiff⟩ := ioScan_indices fileData d hne hd
    have hbt : b = true := hiff.mpr ⟨i, hm⟩
    subst hbt
    rcases hc with hc | hc <;> subst hc <;> simp [validate, hb]

theorem validate_reject (fileData : configData) (code : Char) (d : List Char) (st : Parse)
    (hcode : code ∈ entryCodes) (hw : ¬ Whitelisted fileData code d)
    (hn : code = 'I' ∨ code = 'O' → NamesNonEmpty fileData ∧ d ≠ []) :
    validate fileData code d st = .ok (false, rejected st) := by
  have hcases : code = 'S' ∨ code = 'A' ∨ code = 'M' ∨ code = 'P' ∨ code = 'I' ∨ code = 'O' := by
    simpa [entryCodes] using hcode
  unfold Whitelisted at hw
  rcases hcases with hc | hc | hc | hc | hc | hc
  · subst hc
    have : ¬ (d = startText ∨ d = endText) := fun h => hw (Or.inl ⟨Or.inl rfl, h⟩)
    simp [validate, this, rejected]
  · subst hc
    have : ¬ (d = startText ∨ d = endText) := fun h => hw (Or.inl ⟨Or.inr rfl, h⟩)
    simp [validate, this, rejected]
  · subst hc
    have : ¬ (d = allocateText ∨ d = blockText) :=
      fun h => hw (Or.inr (Or.inr (Or.inl ⟨rfl, h⟩)))
    simp [validate, this, rejected]
  · subst hc
    have : ¬ (d = runText) := fun h => hw (Or.inr (Or.inl ⟨rfl, h⟩))
    simp [validate, this, rejected]
  · subst hc
    obtain ⟨hne, hd⟩ := hn (Or.inl rfl)
    obtain ⟨b, hb, hiff⟩ := ioScan_indices fileData d hne hd
    have hbf : b = false := by
      cases b with
      | false => rfl
      | true => exact absurd (hiff.mp rfl) (fun h => hw (Or.inr (Or.inr (Or.inr ⟨Or.inl rfl, h⟩))))
    subst hbf
    simp [validate, hb, rejected]
  · subst hc
    obtain ⟨hne, hd⟩ := hn (Or.inr rfl)
    obtain ⟨b, hb, hiff⟩ := ioScan_indices fileData d hne hd
    have hbf : b = false := by
      cases b with
      | false => rfl
      | true => exact absurd (hiff.mp rfl) (fun h => hw (Or.inr (Or.inr (Or.inr ⟨Or.inr rfl, h⟩))))
    subst hbf
    simp [validate, hb, rejected]

/-! ## Lemmas on one iteration of the main loop -/

/-- Lines 315-320: the newlines and then the blanks before a code are skipped. -/
theorem skip_lead (a b : Nat) (code : Char) (rest : List Char) (fuel : Nat)
    (hcn : code ≠ '\n') (hcs : code ≠ ' ') (hf : a + b < fuel) :
    IStream.getWhile ' ' fuel
        (IStream.getWhile '\n' fuel
          (IStream.get ⟨List.replicate a '\n' ++ (List.replicate b ' ' ++ code :: rest),
            false, false⟩).1
          (IStream.get ⟨List.replicate a '\n' ++ (List.replicate b ' ' ++ code :: rest),
            false, false⟩).2).1
        (IStream.getWhile '\n' fuel
          (IStream.get ⟨List.replicate a '\n' ++ (List.replicate b ' ' ++ code :: rest),
            false, false⟩).1
          (IStream.get ⟨List.replicate a '\n' ++ (List.replicate b ' ' ++ code :: rest),
            false, false⟩).2).2 =
      (some code, ⟨rest, false, false⟩) := by
  cases b with
  | zero =>
    simp only [List.replicate_zero, List.nil_append]
    rw [get_getWhile_run '\n' code hcn rest a fuel (by omega)]
    exact getWhile_ne ' ' _ _ (by simpa using hcs) fuel
  | succ b =>
    simp only [List.replicate_succ, List.cons_append]
    rw [get_getWhile_run '\n' ' ' (by decide) _ a fuel (by omega)]
    exact getWhile_run ' ' code hcs rest b fuel (by omega)

theorem entryCodes_ne (code : Char) (h : code ∈ entryCodes) :
    code ≠ '\n' ∧ code ≠ ' ' ∧ code ≠ 'E' := by
  have hcases : code = 'S' ∨ code = 'A' ∨ code = 'M' ∨ code = 'P' ∨ code = 'I' ∨ code = 'O' := by
    simpa [entryCodes] using h
  rcases hcases with h | h | h | h | h | h <;> subst h <;> decide

/-- An iteration that starts on an entry `<code>(<description>)`, after newlines and
blanks: the description is read and validated, and the cycle count is read when
the description is accepted. -/
theorem loopBody_entry (fileData : configData) (st : Parse) (a b : Nat) (code : Char)
    (d rest : List Char) (hcode : code ∈ entryCodes) (hd : IsDescription d)
    (hp : ')' ∉ d)
    (hfin : st.fin = ⟨List.replicate a '\n' ++
      (List.replicate b ' ' ++ code :: '(' :: (d ++ ')' :: rest)), false, false⟩) :
    loopBody fileData st =
      match validate fileData code d { st with fin := ⟨rest, false, false⟩ } with
      | .error e => .error e
      | .ok (true, st) => .ok (readCycles code d st)
      | .ok (false, st) => .ok st := by
  obtain ⟨hcn, hcs, hce⟩ := entryCodes_ne code hcode
  unfold loopBody
  simp only [hfin]
  rw [skip_lead a b code _ _ hcn hcs (by simp; omega)]
  have hig : IStream.ignore ⟨'(' :: (d ++ ')' :: rest), false, false⟩ 1000 (some '(') =
      ⟨d ++ ')' :: rest, false, false⟩ := by
    simp [IStream.ignore, IStream.good, IStream.ignoreLoop]
  simp only [hce, if_false, hcode, if_true, hig,
    getline_delim d rest (le_trans hd.1 (by decide)) hp, cstr_eq d hd.2]
  rw [if_neg (by have := hd.1; omega)]

theorem digitLoop_digits (c : Char) (rest : List Char) (hc : c ∉ digitChars) :
    ∀ (ds : List Char) (tempNum cycles : Int) (fuel : Nat),
      (∀ x ∈ ds, x ∈ digitChars) → ds.length < fuel →
      digitLoop fuel tempNum cycles (IStream.get ⟨ds ++ c :: rest, false, false⟩).1
          (IStream.get ⟨ds ++ c :: rest, false, false⟩).2 =
        (cyclesLoop tempNum cycles ds, ⟨rest, false, false⟩) := by
  intro ds
  induction ds with
  | nil =>
    intro tempNum cycles fuel _ hf
    obtain ⟨j, rfl⟩ : ∃ j, fuel = j + 1 := ⟨fuel - 1, by simp at hf; omega⟩
    simp [IStream.get, IStream.good, digitLoop, hc, cyclesLoop]
  | cons x xs ih =>
    intro tempNum cycles fuel hds hf
    obtain ⟨j, rfl⟩ : ∃ j, fuel = j + 1 := ⟨fuel - 1, by simp at hf; omega⟩
    have hx : x ∈ digitChars := hds x (by simp)
    have hxs : ∀ y ∈ xs, y ∈ digitChars := fun y hy => hds y (by simp [hy])
    have hj : xs.length < j := by simp at hf; omega
    have := ih (wrap32 (tempNum * 10)) (wrap32 (wrap32 (tempNum * 10) + digitValue x)) j hxs hj
    simp only [List.cons_append, IStream.get, IStream.good, Bool.not_false, Bool.and_self,
      if_true, digitLoop, hx, cyclesLoop] at this ⊢
    exact this

theorem digitChars_ne (c : Char) (h : c ∈ digitChars) : c ≠ ' ' ∧ c ≠ '-' := by
  have hcases : c = '0' ∨ c = '1' ∨ c = '2' ∨ c = '3' ∨ c = '4' ∨ c = '5' ∨ c = '6' ∨
      c = '7' ∨ c = '8' ∨ c = '9' := by
    simpa [digitChars] using h
  rcases hcases with h | h | h | h | h | h | h | h | h | h <;> subst h <;> decide

/-- Lines 398-459 on a run of digits that ends on a character that is no digit:
the entry is appended with the value computed by the digit loop, and the character
after the digits is consumed. -/
theorem readCycles_digits (code : Char) (d : List Char) (st : Parse) (k : Nat)
    (x : Char) (xs : List Char) (c : Char) (rest : List Char)
    (hds : ∀ y ∈ x :: xs, y ∈ digitChars) (hc : c ∉ digitChars)
    (hfin : st.fin = ⟨List.replicate k ' ' ++ x :: (xs ++ c :: rest), false, false⟩) :
    readCycles code d st =
      { st with
        metaDataStream := st.metaDataStream ++ [⟨code, d, parsedCycles (x :: xs)⟩],
        fin := skipSeparator ⟨rest, false, false⟩ } := by
  have hx : x ∈ digitChars := hds x (by simp)
  obtain ⟨hxs, hxm⟩ := digitChars_ne x hx
  unfold readCycles
  simp only [hfin]
  rw [get_getWhile_run ' ' x hxs _ k _ (by simp; omega)]
  simp only [hxm, if_false, hx, not_true_eq_false]
  rw [digitLoop_digits c rest hc xs _ _ _ (fun y hy => hds y (by simp [hy]))
    (by simp; omega)]
  simp [parsedCycles]

/-- Lines 405-409: a minus sign where the cycle count should start. -/
theorem readCycles_negative (code : Char) (d : List Char) (st : Parse) (k : Nat)
    (rest : List Char)
    (hfin : st.fin = ⟨List.replicate k ' ' ++ '-' :: rest, false, false⟩) :
    readCycles code d st =
      { st with
        cout := st.cout ++ [negativeMsg],
        fin := IStream.ignore ⟨rest, false, false⟩ 1000 none } := by
  unfold readCycles
  simp only [hfin]
  rw [get_getWhile_run ' ' '-' (by decide) _ k _ (by simp; omega)]
  simp

/-- Lines 410-423: a character that is neither a blank, nor a minus sign, nor a
digit where the cycle count should start. -/
theorem readCycles_missing (code : Char) (d : List Char) (st : Parse) (k : Nat)
    (c : Char) (rest : List Char) (hcs : c ≠ ' ') (hcm : c ≠ '-') (hc : c ∉ digitChars)
    (hfin : st.fin = ⟨List.replicate k ' ' ++ c :: rest, false, false⟩) :
    readCycles code d st =
      { st with
        cout := st.cout ++ [missingMsg],
        fin := IStream.ignore ⟨rest, false, false⟩ 1000 none } := by
  unfold readCycles
  simp only [hfin]
  rw [get_getWhile_run ' ' c hcs _ k _ (by simp; omega)]
  simp [hcm, hc]

/-- Lines 448-456 after an entry that is followed by one of the four separators
and then by a character that is neither a blank nor a newline: only the separator
made of a single newline is left in the stream. -/
theorem skipSeparator_sep (sep : List Char) (x : Char) (rest : List Char)
    (hsep : sep ∈ separators) (hxs : x ≠ ' ') (hxn : x ≠ '\n') :
    ∃ a, a ≤ 1 ∧ skipSeparator ⟨sep ++ x :: rest, false, false⟩ =
      ⟨List.replicate a '\n' ++ x :: rest, false, false⟩ := by
  have hcases : sep = [] ∨ sep = [' '] ∨ sep = ['\n'] ∨ sep = [' ', '\n'] := by
    simpa [separators] using hsep
  rcases hcases with h | h | h | h <;> subst h
  · refine ⟨0, by omega, ?_⟩
    simp [skipSeparator, IStream.peek, IStream.good, hxs]
  · refine ⟨0, by omega, ?_⟩
    simp [skipSeparator, IStream.peek, IStream.good, IStream.ignore, IStream.ignoreLoop, hxn]
  · refine ⟨1, by omega, ?_⟩
    simp [skipSeparator, IStream.peek, IStream.good]
  · refine ⟨0, by omega, ?_⟩
    simp [skipSeparator, IStream.peek, IStream.good, IStream.ignore, IStream.ignoreLoop]

theorem get_some_length (s : IStream) (y : Char) (h : (s.get).1 = some y) :
    (s.get).2.buf.length + 1 = s.buf.length := by
  obtain ⟨buf, e, f⟩ := s
  cases buf with
  | nil =>
    unfold IStream.get at h
    split at h <;> simp at h
  | cons c cs =>
    unfold IStream.get at h ⊢
    split
    · simp
    · rename_i hg
      simp [hg] at h

theorem getWhile_succ (ch : Char) (fuel : Nat) (s : IStream) :
    IStream.getWhile ch (fuel + 1) (some ch) s =
      IStream.getWhile ch fuel (s.get).1 (s.get).2 := by
  simp [IStream.getWhile]

/-- The fuel `s.buf.length + 1` is enough for the loop `while( c == ch )`: any
larger fuel gives the same result. -/
theorem getWhile_fuel (ch : Char) :
    ∀ (fuel : Nat) (c : Option Char) (s : IStream), s.buf.length + 1 ≤ fuel →
      IStream.getWhile ch (fuel + 1) c s = IStream.getWhile ch fuel c s := by
  intro fuel
  induction fuel with
  | zero => intro c s h; omega
  | succ j ih =>
    intro c s h
    by_cases hc : c = some ch
    · subst hc
      rw [getWhile_succ, getWhile_succ]
      by_cases hg : (s.get).1 = some ch
      · have := get_some_length s ch hg
        exact ih _ _ (by omega)
      · rw [getWhile_ne ch _ _ hg, getWhile_ne ch _ _ hg]
    · rw [getWhile_ne ch c s hc, getWhile_ne ch c s hc]

theorem digitLoop_succ (fuel : Nat) (tempNum cycles : Int) (x : Char) (fin : IStream)
    (hx : x ∈ digitChars) :
    digitLoop (fuel + 1) tempNum cycles (some x) fin =
      digitLoop fuel (wrap32 (tempNum * 10))
        (wrap32 (wrap32 (tempNum * 10) + digitValue x)) (fin.get).1 (fin.get).2 := by
  simp [digitLoop, hx]

theorem digitLoop_stop (fuel : Nat) (tempNum cycles : Int) (c : Option Char)
    (fin : IStream) (hc : ∀ x, c = some x → x ∉ digitChars) :
    digitLoop fuel tempNum cycles c fin = (cycles, fin) := by
  cases fuel with
  | zero => simp [digitLoop]
  | succ j =>
    cases c with
    | none => simp [digitLoop]
    | some x => simp [digitLoop, hc x rfl]

/-- The fuel `fin.buf.length + 1` is enough for the digit loop. -/
theorem digitLoop_fuel :
    ∀ (fuel : Nat) (tempNum cycles : Int) (c : Option Char) (fin : IStream),
      fin.buf.length + 1 ≤ fuel →
      digitLoop (fuel + 1) tempNum cycles c fin = digitLoop fuel tempNum cycles c fin := by
  intro fuel
  induction fuel with
  | zero => intro _ _ c fin h; omega
  | succ j ih =>
    intro tempNum cycles c fin h
    by_cases hc : ∃ x, c = some x ∧ x ∈ digitChars
    · obtain ⟨x, rfl, hx⟩ := hc
      rw [digitLoop_succ _ _ _ _ _ hx, digitLoop_succ _ _ _ _ _ hx]
      cases hg : (fin.get).1 with
      | none =>
        rw [digitLoop_stop _ _ _ none _ (by simp), digitLoop_stop _ _ _ none _ (by simp)]
      | some y =>
        have := get_some_length fin y hg
        rw [← hg]
        exact ih _ _ _ _ (by omega)
    · have hstop : ∀ x, c = some x → x ∉ digitChars := fun x hx hd => hc ⟨x, hx, hd⟩
      rw [digitLoop_stop _ _ _ c _ hstop, digitLoop_stop _ _ _ c _ hstop]

/-- An iteration that reads `E`, after newlines and blanks: nothing is appended or
written and `fin.ignore( 1000, EOF )` runs on what follows the `E`. -/
theorem loopBody_E (fileData : configData) (st : Parse) (a b : Nat) (rest : List Char)
    (hfin : st.fin = ⟨List.replicate a '\n' ++ (List.replicate b ' ' ++ 'E' :: rest),
      false, false⟩) :
    loopBody fileData st =
      .ok { st with fin := IStream.ignore ⟨rest, false, false⟩ 1000 none } := by
  unfold loopBody
  simp only [hfin]
  rw [skip_lead a b 'E' rest _ (by decide) (by decide) (by simp; omega)]
  simp

/-- An iteration that reads a character that is no code, after newlines and blanks:
the invalid-code message is written, nothing is appended and
`fin.ignore( 1000, EOF )` runs on what follows the character. -/
theorem loopBody_invalid (fileData : configData) (st : Parse) (a b : Nat) (x : Char)
    (rest : List Char) (hxn : x ≠ '\n') (hxs : x ≠ ' ') (hxe : x ≠ 'E')
    (hx : x ∉ entryCodes)
    (hfin : st.fin = ⟨List.replicate a '\n' ++ (List.replicate b ' ' ++ x :: rest),
      false, false⟩) :
    loopBody fileData st =
      .ok { st with
        cout := st.cout ++ [invalidCodeMsg],
        fin := IStream.ignore ⟨rest, false, false⟩ 1000 none } := by
  unfold loopBody
  simp only [hfin]
  rw [skip_lead a b x rest _ hxn hxs (by simp; omega)]
  simp [hxe, hx]

/-- An iteration that reads `E`, after newlines: with nothing behind the `E`,
`fin.ignore( 1000, EOF )` sets `eofbit`. -/
theorem loopBody_final_E (fileData : configData) (st : Parse) (a : Nat)
    (hfin : st.fin = ⟨List.replicate a '\n' ++ ['E'], false, false⟩) :
    loopBody fileData st = .ok { st with fin := ⟨[], true, false⟩ } := by
  unfold loopBody
  simp only [hfin]
  have h := skip_lead a 0 'E' [] ((List.replicate a '\n' ++ ['E']).length + 1)
    (by decide) (by decide) (by simp; omega)
  simp only [List.replicate_zero, List.nil_append] at h
  rw [h]
  simp [IStream.ignore, IStream.good, IStream.ignoreLoop]

/-- An iteration on a well-formed entry followed by a separator and then by a
character that is neither a blank nor a newline: the entry is appended, nothing is
written, and the stream is left on that character, after at most one newline. -/
theorem loopBody_wellFormed (fileData : configData) (hn : NamesNonEmpty fileData)
    (st : Parse) (a : Nat) (e : Entry) (sep : List Char) (x : Char) (rest : List Char)
    (hwf : e.WellFormed fileData) (hsep : sep ∈ separators)
    (hxs : x ≠ ' ') (hxn : x ≠ '\n')
    (hfin : st.fin = ⟨List.replicate a '\n' ++ (e.text ++ (sep ++ x :: rest)), false, false⟩) :
    ∃ a2, a2 ≤ 1 ∧ loopBody fileData st =
      .ok ⟨⟨List.replicate a2 '\n' ++ x :: rest, false, false⟩,
        st.metaDataStream ++ [e.parsed], st.cout⟩ := by
  obtain ⟨hw, hd, hp, hne, hds⟩ := hwf
  obtain ⟨y, ys, hdig⟩ : ∃ y ys, e.digits = y :: ys := by
    cases hq : e.digits with
    | nil => exact absurd hq hne
    | cons y ys => exact ⟨y, ys, rfl⟩
  have hcode := whitelisted_code fileData e.code e.description hw
  have hfin2 : st.fin = ⟨List.replicate a '\n' ++ (List.replicate 0 ' ' ++
      e.code :: '(' :: (e.description ++ ')' :: (y :: (ys ++ ';' :: (sep ++ x :: rest))))),
      false, false⟩ := by
    rw [hfin]
    simp [Entry.text, hdig]
  rw [loopBody_entry fileData st a 0 e.code e.description _ hcode hd hp hfin2,
    validate_accept fileData e.code e.description _ hw (fun _ => hn)]
  simp only
  obtain ⟨a2, ha2, hskip⟩ := skipSeparator_sep sep x rest hsep hxs hxn
  refine ⟨a2, ha2, ?_⟩
  rw [readCycles_digits e.code e.description _ 0 y ys ';' (sep ++ x :: rest)
    (by rw [← hdig]; exact hds) (by decide) (by simp), hskip]
  simp [Entry.parsed, hdig]

theorem entriesText_head (fileData : configData) (items : List (Entry × List Char))
    (hwf : ∀ it ∈ items, it.1.WellFormed fileData ∧ it.2 ∈ separators) :
    ∃ x rest, entriesText items ++ ['E'] = x :: rest ∧ x ≠ ' ' ∧ x ≠ '\n' := by
  cases items with
  | nil => exact ⟨'E', [], rfl, by decide, by decide⟩
  | cons it more =>
    obtain ⟨e, sep⟩ := it
    have hw := (hwf (e, sep) (by simp)).1.1
    obtain ⟨h1, h2, _⟩ := entryCodes_ne e.code (whitelisted_code fileData _ _ hw)
    refine ⟨e.code, '(' :: (e.description ++ ')' :: (e.digits ++ ';' ::
      (sep ++ (entriesText more ++ ['E'])))), ?_, h2, h1⟩
    simp [entriesText, Entry.text]

theorem entriesText_length (items : List (Entry × List Char)) :
    items.length ≤ (entriesText items).length := by
  induction items with
  | nil => simp
  | cons it more ih =>
    obtain ⟨e, sep⟩ := it
    simp only [entriesText, Entry.text, List.length_cons, List.length_append]
    omega

/-- The main loop on a sequence of well-formed entries that ends with `E`. -/
theorem mainLoop_entries (fileData : configData) (hn : NamesNonEmpty fileData) :
    ∀ (items : List (Entry × List Char)) (a : Nat) (acc : List metaData)
      (out : List String) (fuel : Nat),
      (∀ it ∈ items, it.1.WellFormed fileData ∧ it.2 ∈ separators) →
      items.length + 1 ≤ fuel →
      mainLoop fileData fuel
          ⟨⟨List.replicate a '\n' ++ (entriesText items ++ ['E']), false, false⟩, acc, out⟩ =
        .ok ⟨⟨[], true, false⟩, acc ++ items.map (fun it => it.1.parsed), out⟩ := by
  intro items
  induction items with
  | nil =>
    intro a acc out fuel _ hf
    obtain ⟨j, rfl⟩ : ∃ j, fuel = j + 1 := ⟨fuel - 1, by omega⟩
    unfold mainLoop
    simp only [IStream.eof, Bool.false_eq_true, if_false, entriesText, List.nil_append]
    rw [loopBody_final_E fileData _ a rfl]
    simp only
    unfold mainLoop
    simp [IStream.eof]
  | cons it more ih =>
    intro a acc out fuel hwf hf
    obtain ⟨e, sep⟩ := it
    obtain ⟨j, rfl⟩ : ∃ j, fuel = j + 1 := ⟨fuel - 1, by omega⟩
    have hmore : ∀ it ∈ more, it.1.WellFormed fileData ∧ it.2 ∈ separators :=
      fun it hit => hwf it (by simp [hit])
    obtain ⟨x, rest, hx, hxs, hxn⟩ := entriesText_head fileData more hmore
    obtain ⟨hwe, hse⟩ := hwf (e, sep) (by simp)
    have hbuf : List.replicate a '\n' ++ (entriesText ((e, sep) :: more) ++ ['E']) =
        List.replicate a '\n' ++ (e.text ++ (sep ++ x :: rest)) := by
      rw [← hx]
      simp [entriesText]
    obtain ⟨a2, _, hstep⟩ := loopBody_wellFormed fileData hn
      ⟨⟨List.replicate a '\n' ++ (entriesText ((e, sep) :: more) ++ ['E']), false, false⟩,
        acc, out⟩ a e sep x rest hwe hse hxs hxn (by rw [hbuf])
    unfold mainLoop
    simp only [IStream.eof, Bool.false_eq_true, if_false, hstep]
    rw [← hx, ih a2 (acc ++ [e.parsed]) out j hmore (by simp at hf; omega)]
    simp

theorem mainLoop_eof (fileData : configData) (fuel : Nat) (st : Parse)
    (h : st.fin.eofbit = true) : mainLoop fileData fuel st = .ok st := by
  unfold mainLoop
  simp [IStream.eof, h]

theorem mainLoop_step (fileData : configData) (fuel : Nat) (st st2 : Parse)
    (h : st.fin.eofbit = false) (hb : loopBody fileData st = .ok st2) :
    mainLoop fileData (fuel + 1) st = mainLoop fileData fuel st2 := by
  rw [mainLoop]
  simp [IStream.eof, h, hb]

theorem entriesText_then_head (fileData : configData) (items : List (Entry × List Char))
    (x : Char) (tail : List Char) (hxs : x ≠ ' ') (hxn : x ≠ '\n')
    (hwf : ∀ it ∈ items, it.1.WellFormed fileData ∧ it.2 ∈ separators) :
    ∃ y rest, entriesText items ++ x :: tail = y :: rest ∧ y ≠ ' ' ∧ y ≠ '\n' := by
  cases items with
  | nil => exact ⟨x, tail, rfl, hxs, hxn⟩
  | cons it more =>
    obtain ⟨e, sep⟩ := it
    have hw := (hwf (e, sep) (by simp)).1.1
    obtain ⟨h1, h2, _⟩ := entryCodes_ne e.code (whitelisted_code fileData _ _ hw)
    refine ⟨e.code, '(' :: (e.description ++ ')' :: (e.digits ++ ';' ::
      (sep ++ (entriesText more ++ x :: tail)))), ?_, h2, h1⟩
    simp [entriesText, Entry.text]

/-- The main loop on a sequence of well-formed entries followed by any text that
starts with a character that is neither a blank nor a newline: the entries are
appended in order, nothing is written, and the loop goes on with that text. -/
theorem mainLoop_entries_then (fileData : configData) (hn : NamesNonEmpty fileData)
    (x : Char) (tail : List Char) (hxs : x ≠ ' ') (hxn : x ≠ '\n') :
    ∀ (items : List (Entry × List Char)) (a : Nat) (acc : List metaData)
      (out : List String) (fuel : Nat),
      (∀ it ∈ items, it.1.WellFormed fileData ∧ it.2 ∈ separators) →
      ∃ a2, mainLoop fileData (items.length + fuel)
          ⟨⟨List.replicate a '\n' ++ (entriesText items ++ x :: tail), false, false⟩,
            acc, out⟩ =
        mainLoop fileData fuel
          ⟨⟨List.replicate a2 '\n' ++ x :: tail, false, false⟩,
            acc ++ items.map (fun it => it.1.parsed), out⟩ := by
  intro items
  induction items with
  | nil =>
    intro a acc out fuel _
    exact ⟨a, by simp [entriesText]⟩
  | cons it more ih =>
    intro a acc out fuel hwf
    obtain ⟨e, sep⟩ := it
    have hmore : ∀ it ∈ more, it.1.WellFormed fileData ∧ it.2 ∈ separators :=
      fun it hit => hwf it (by simp [hit])
    obtain ⟨y, rest, hy, hys, hyn⟩ :=
      entriesText_then_head fileData more x tail hxs hxn hmore
    obtain ⟨hwe, hse⟩ := hwf (e, sep) (by simp)
    have hbuf : List.replicate a '\n' ++ (entriesText ((e, sep) :: more) ++ x :: tail) =
        List.replicate a '\n' ++ (e.text ++ (sep ++ y :: rest)) := by
      rw [← hy]
      simp [entriesText]
    obtain ⟨a2, _, hstep⟩ := loopBody_wellFormed fileData hn
      ⟨⟨List.replicate a '\n' ++ (entriesText ((e, sep) :: more) ++ x :: tail),
        false, false⟩, acc, out⟩ a e sep y rest hwe hse hys hyn (by rw [hbuf])
    obtain ⟨a3, h3⟩ := ih a2 (acc ++ [e.parsed]) out fuel hmore
    refine ⟨a3, ?_⟩
    have hfuel : ((e, sep) :: more).length + fuel = (more.length + fuel) + 1 := by
      simp; omega
    rw [hfuel, mainLoop_step fileData _ _ _ rfl hstep, ← hy]
    simp only [List.map_cons]
    rw [h3]
    simp

/-- An iteration on an entry whose description is rejected: the typo message is
written, nothing is appended and `fin.ignore( 1000, EOF )` runs on what follows
the closing parenthesis. -/
theorem loopBody_rejected (fileData : configData) (st : Parse) (a b : Nat) (code : Char)
    (d rest : List Char) (hcode : code ∈ entryCodes) (hd : IsDescription d)
    (hp : ')' ∉ d) (hw : ¬ Whitelisted fileData code d)
    (hn : code = 'I' ∨ code = 'O' → NamesNonEmpty fileData ∧ d ≠ [])
    (hfin : st.fin = ⟨List.replicate a '\n' ++
      (List.replicate b ' ' ++ code :: '(' :: (d ++ ')' :: rest)), false, false⟩) :
    loopBody fileData st =
      .ok ⟨IStream.ignore ⟨rest, false, false⟩ 1000 none, st.metaDataStream,
        st.cout ++ [typoMsg]⟩ := by
  rw [loopBody_entry fileData st a b code d rest hcode hd hp hfin,
    validate_reject fileData code d _ hcode hw hn]
  simp [rejected]

theorem ignore_eof_short (rest : List Char) (h : rest.length < 1000) :
    IStream.ignore ⟨rest, false, false⟩ 1000 none = ⟨[], true, false⟩ := by
  simp [IStream.ignore, IStream.good, ignoreLoop_eof_short rest 1000 h]

theorem ignore_eof_long (rest : List Char) (h : 1000 ≤ rest.length) :
    IStream.ignore ⟨rest, false, false⟩ 1000 none = ⟨rest.drop 1000, false, false⟩ := by
  simp [IStream.ignore, IStream.good, ignoreLoop_eof_long rest 1000 h]

/-- More fuel does not change a result of the main loop. -/
theorem mainLoop_mono (fileData : configData) :
    ∀ (n : Nat) (st r : Parse), mainLoop fileData n st = .ok r →
      ∀ m, n ≤ m → mainLoop fileData m st = .ok r := by
  intro n
  induction n with
  | zero =>
    intro st r h m _
    unfold mainLoop at h ⊢
    by_cases he : st.fin.eof = true
    · simpa [he] using h
    · simp [he] at h
  | succ k ih =>
    intro st r h m hm
    obtain ⟨j, rfl⟩ : ∃ j, m = j + 1 := ⟨m - 1, by omega⟩
    unfold mainLoop at h ⊢
    by_cases he : st.fin.eof = true
    · simpa [he] using h
    · simp only [he] at h ⊢
      cases hb : loopBody fileData st with
      | error e => simp [hb] at h
      | ok st2 =>
        simp only [hb] at h ⊢
        exact ih st2 r h j (by omega)

/-- The start of `readMetaData` on a file whose banner line fits the 1000
characters of `fin.ignore( 1000, '\n' )`. -/
theorem readMetaData_banner (metaDataStream : List metaData) (fileData : configData)
    (filePath : String) (banner body : List Char)
    (hlen : banner.length < 1000) (hnl : '\n' ∉ banner) :
    readMetaData metaDataStream fileData filePath (banner ++ '\n' :: body) =
      match mainLoop fileData ((banner ++ '\n' :: body).length + 1)
          ⟨⟨body, false, false⟩, metaDataStream, []⟩ with
      | .error e => .error e
      | .ok st => .ok (st.metaDataStream, st.cout) := by
  have hpeek : ((IStream.ofFile (banner ++ '\n' :: body)).peek).1 ≠ none ∧
      ((IStream.ofFile (banner ++ '\n' :: body)).peek).2 =
        IStream.ofFile (banner ++ '\n' :: body) := by
    cases banner <;> simp [IStream.ofFile, IStream.peek, IStream.good]
  unfold readMetaData
  simp only [hpeek.1, hpeek.2, if_false]
  simp [IStream.ofFile, IStream.ignore, IStream.good, ignoreLoop_delim _ _ _ _ hlen hnl]

/-- A run of the main loop found with some fuel gives the result of `readMetaData`
on the file that starts with a banner line. -/
theorem readMetaData_of_mainLoop (metaDataStream : List metaData) (fileData : configData)
    (filePath : String) (banner body : List Char)
    (hlen : banner.length < 1000) (hnl : '\n' ∉ banner) (n : Nat) (r : Parse)
    (hn : n ≤ body.length + 2)
    (h : mainLoop fileData n ⟨⟨body, false, false⟩, metaDataStream, []⟩ = .ok r) :
    readMetaData metaDataStream fileData filePath (banner ++ '\n' :: body) =
      .ok (r.metaDataStream, r.cout) := by
  rw [readMetaData_banner _ _ _ _ _ hlen hnl,
    mainLoop_mono fileData n _ r h _ (by simp; omega)]

theorem sampleTable_namesNonEmpty : NamesNonEmpty sampleTable := by
  unfold NamesNonEmpty
  decide

theorem sampleItems_wellFormed :
    ∀ it ∈ sampleItems, it.1.WellFormed sampleTable ∧ it.2 ∈ separators := by
  intro it hit
  simp only [sampleItems, List.mem_cons, List.mem_singleton, List.not_mem_nil,
    or_false] at hit
  rcases hit with rfl | rfl | rfl
  · exact ⟨⟨Or.inl ⟨Or.inl rfl, Or.inl rfl⟩, by decide, by decide, by decide, by decide⟩,
      by decide⟩
  · exact ⟨⟨Or.inr (Or.inr (Or.inr ⟨Or.inl rfl, 2, (ioMatch_iff_drop _ _).mpr (by decide)⟩)),
      by decide, by decide, by decide, by decide⟩, by decide⟩
  · exact ⟨⟨Or.inr (Or.inl ⟨rfl, rfl⟩), by decide, by decide, by decide, by decide⟩,
      by decide⟩

/-- Lines 424-458 when the cycle count starts with a digit: nothing is written and
one instruction is appended, whatever follows the digit. -/
theorem readCycles_digit_first (code : Char) (d : List Char) (st : Parse) (k : Nat)
    (c : Char) (rest : List Char) (hc : c ∈ digitChars)
    (hfin : st.fin = ⟨List.replicate k ' ' ++ c :: rest, false, false⟩) :
    (readCycles code d st).cout = st.cout ∧
      ∃ n, (readCycles code d st).metaDataStream = st.metaDataStream ++ [⟨code, d, n⟩] := by
  obtain ⟨hcs, hcm⟩ := digitChars_ne c hc
  unfold readCycles
  simp only [hfin]
  rw [get_getWhile_run ' ' c hcs _ k _ (by simp; omega)]
  simp [hcm, hc]

/-! ## The value of a digit run -/

theorem wrap32_of_range (x : Int) (h0 : 0 ≤ x) (h1 : x < 2147483648) : wrap32 x = x := by
  unfold wrap32
  omega

theorem digitValue_range (c : Char) (h : c ∈ digitChars) :
    0 ≤ digitValue c ∧ digitValue c ≤ 9 := by
  have hcases : c = '0' ∨ c = '1' ∨ c = '2' ∨ c = '3' ∨ c = '4' ∨ c = '5' ∨ c = '6' ∨
      c = '7' ∨ c = '8' ∨ c = '9' := by
    simpa [digitChars] using h
  rcases hcases with h | h | h | h | h | h | h | h | h | h <;> subst h <;> decide

theorem cyclesLoop_nonneg :
    ∀ (ds : List Char) (tempNum cycles : Int), (∀ c ∈ ds, c ∈ digitChars) →
      0 ≤ tempNum → 0 ≤ cycles → tempNum * 10 ^ ds.length ≤ 900000000 →
      0 ≤ cyclesLoop tempNum cycles ds := by
  intro ds
  induction ds with
  | nil => intro _ cycles _ _ hc _; simpa [cyclesLoop] using hc
  | cons c cs ih =>
    intro tempNum cycles hds ht _ hb
    have hc := digitValue_range c (hds c (by simp))
    have hpow : (1 : Int) ≤ 10 ^ cs.length := one_le_pow₀ (by norm_num)
    have hb2 : tempNum * 10 * 10 ^ cs.length ≤ 900000000 := by
      have : tempNum * 10 ^ (c :: cs).length = tempNum * 10 * 10 ^ cs.length := by
        simp only [List.length_cons, pow_succ]
        ring
      rw [← this]
      exact hb
    have ht10 : tempNum * 10 ≤ 900000000 := by
      have h2 : tempNum * 10 * 1 ≤ tempNum * 10 * 10 ^ cs.length :=
        mul_le_mul_of_nonneg_left hpow (by omega)
      omega
    have hw : wrap32 (tempNum * 10) = tempNum * 10 :=
      wrap32_of_range _ (by omega) (by omega)
    have hw2 : wrap32 (tempNum * 10 + digitValue c) = tempNum * 10 + digitValue c :=
      wrap32_of_range _ (by omega) (by omega)
    simp only [cyclesLoop, hw, hw2]
    exact ih _ _ (fun y hy => hds y (by simp [hy])) (by omega) (by omega) hb2

/-- A run of at most nine digits is parsed to a value that is not negative. -/
theorem parsedCycles_nonneg (ds : List Char) (hds : ∀ c ∈ ds, c ∈ digitChars)
    (hlen : ds.length ≤ 9) : 0 ≤ parsedCycles ds := by
  cases ds with
  | nil => simp [parsedCycles]
  | cons c cs =>
    have hc := digitValue_range c (hds c (by simp))
    have hcs : cs.length ≤ 8 := by simp at hlen; omega
    have hpow : (10 : Int) ^ cs.length ≤ 10 ^ 8 :=
      pow_le_pow_right₀ (by norm_num) hcs
    have hpos : (0 : Int) ≤ 10 ^ cs.length := by positivity
    refine cyclesLoop_nonneg cs _ _ (fun y hy => hds y (by simp [hy])) hc.1 hc.1 ?_
    calc digitValue c * 10 ^ cs.length ≤ 9 * 10 ^ cs.length :=
          mul_le_mul_of_nonneg_right hc.2 hpos
      _ ≤ 9 * 10 ^ 8 := by omega
      _ = 900000000 := by norm_num

/-- A run of one or two digits is parsed to its base-10 value. -/
theorem parsedCycles_two_digits (c1 c2 : Char) (h1 : c1 ∈ digitChars)
    (h2 : c2 ∈ digitChars) :
    parsedCycles [c1] = decimalValue [c1] ∧
      parsedCycles [c1, c2] = decimalValue [c1, c2] := by
  have r1 := digitValue_range c1 h1
  have r2 := digitValue_range c2 h2
  refine ⟨by simp [parsedCycles, cyclesLoop, decimalValue], ?_⟩
  have hw : wrap32 (digitValue c1 * 10) = digitValue c1 * 10 :=
    wrap32_of_range _ (by omega) (by omega)
  simp only [parsedCycles, cyclesLoop, decimalValue, List.foldl, zero_mul, zero_add, hw]
  exact wrap32_of_range _ (by omega) (by omega)

/-! ## What the parser appends -/

theorem validate_ok (fileData : configData) (code : Char) (d : List Char) (st st2 : Parse)
    (flag : Bool) (hcode : code ∈ entryCodes)
    (h : validate fileData code d st = .ok (flag, st2)) :
    st2.metaDataStream = st.metaDataStream ∧ (flag = true → Whitelisted fileData code d) := by
  have hcases : code = 'S' ∨ code = 'A' ∨ code = 'M' ∨ code = 'P' ∨ code = 'I' ∨ code = 'O' := by
    simpa [entryCodes] using hcode
  unfold validate at h
  split at h
  · rename_i hc
    split at h
    · rename_i hd
      obtain ⟨rfl, rfl⟩ := Prod.mk.inj (Except.ok.inj h)
      exact ⟨rfl, fun _ => Or.inl ⟨hc, hd⟩⟩
    · obtain ⟨rfl, rfl⟩ := Prod.mk.inj (Except.ok.inj h)
      exact ⟨rfl, fun hf => by simp at hf⟩
  · split at h
    · rename_i hc
      split at h
      · rename_i hd
        obtain ⟨rfl, rfl⟩ := Prod.mk.inj (Except.ok.inj h)
        exact ⟨rfl, fun _ => Or.inr (Or.inl ⟨hc, hd⟩)⟩
      · obtain ⟨rfl, rfl⟩ := Prod.mk.inj (Except.ok.inj h)
        exact ⟨rfl, fun hf => by simp at hf⟩
    · split at h
      · rename_i hc
        split at h
        · rename_i hd
          obtain ⟨rfl, rfl⟩ := Prod.mk.inj (Except.ok.inj h)
          exact ⟨rfl, fun _ => Or.inr (Or.inr (Or.inl ⟨hc, hd⟩))⟩
        · obtain ⟨rfl, rfl⟩ := Prod.mk.inj (Except.ok.inj h)
          exact ⟨rfl, fun hf => by simp at hf⟩
      · rename_i h1 h2 h3
        have hio : code = 'I' ∨ code = 'O' := by
          rcases hcases with hc | hc | hc | hc | hc | hc
          · exact absurd (Or.inl hc) h1
          · exact absurd (Or.inr hc) h1
          · exact absurd hc h3
          · exact absurd hc h2
          · exact Or.inl hc
          · exact Or.inr hc
        split at h
        · exact Except.noConfusion h
        · rename_i hscan
          obtain ⟨rfl, rfl⟩ := Prod.mk.inj (Except.ok.inj h)
          refine ⟨rfl, fun _ => Or.inr (Or.inr (Or.inr ⟨hio, ?_⟩))⟩
          rcases ((ioScan_ok fileData d indices false true hscan).1).mp rfl with hf | ⟨i, _, hi⟩
          · simp at hf
          · exact ⟨i, hi⟩
        · obtain ⟨rfl, rfl⟩ := Prod.mk.inj (Except.ok.inj h)
          exact ⟨rfl, fun hf => by simp at hf⟩

theorem readCycles_stream (code : Char) (d : List Char) (st : Parse) :
    (readCycles code d st).metaDataStream = st.metaDataStream ∨
      ∃ n, (readCycles code d st).metaDataStream = st.metaDataStream ++ [⟨code, d, n⟩] := by
  unfold readCycles
  simp only
  split
  · exact Or.inl rfl
  · split
    · exact Or.inl rfl
    · split
      · exact Or.inl rfl
      · exact Or.inr ⟨_, rfl⟩

/-- One iteration of the main loop keeps the vector or appends one instruction whose
code is one of the six codes and whose description is whitelisted for it. -/
theorem loopBody_stream (fileData : configData) (st st2 : Parse)
    (h : loopBody fileData st = .ok st2) :
    st2.metaDataStream = st.metaDataStream ∨
      ∃ m, st2.metaDataStream = st.metaDataStream ++ [m] ∧ m.code ∈ entryCodes ∧
        Whitelisted fileData m.code m.description := by
  unfold loopBody at h
  simp only at h
  split at h
  · obtain rfl := Except.ok.inj h
    exact Or.inl rfl
  · rename_i code _
    split at h
    · obtain rfl := Except.ok.inj h
      exact Or.inl rfl
    · split at h
      · rename_i hcode
        split at h
        · exact Except.noConfusion h
        · split at h
          · exact Except.noConfusion h
          · rename_i st3 hv
            obtain rfl := Except.ok.inj h
            obtain ⟨hs, hw⟩ := validate_ok fileData code _ _ st3 true hcode hv
            rcases readCycles_stream code _ st3 with hr | ⟨n, hr⟩
            · left
              rw [hr, hs]
            · right
              exact ⟨_, by rw [hr, hs], hcode, hw rfl⟩
          · rename_i st3 hv
            obtain rfl := Except.ok.inj h
            left
            exact (validate_ok fileData code _ _ _ false hcode hv).1
      · obtain rfl := Except.ok.inj h
        exact Or.inl rfl

theorem mainLoop_stream (fileData : configData) :
    ∀ (fuel : Nat) (st st2 : Parse), mainLoop fileData fuel st = .ok st2 →
      (∀ m ∈ st.metaDataStream, m.code ∈ entryCodes ∧
        Whitelisted fileData m.code m.description) →
      ∀ m ∈ st2.metaDataStream, m.code ∈ entryCodes ∧
        Whitelisted fileData m.code m.description := by
  intro fuel
  induction fuel with
  | zero =>
    intro st st2 h hinv
    unfold mainLoop at h
    by_cases he : st.fin.eof = true
    · simp only [he, if_true] at h
      obtain rfl := Except.ok.inj h
      exact hinv
    · simp [he] at h
  | succ k ih =>
    intro st st2 h hinv
    unfold mainLoop at h
    by_cases he : st.fin.eof = true
    · simp only [he, if_true] at h
      obtain rfl := Except.ok.inj h
      exact hinv
    · simp only [he] at h
      cases hb : loopBody fileData st with
      | error e => simp [hb] at h
      | ok st3 =>
        simp only [hb] at h
        refine ih st3 st2 h ?_
        rcases loopBody_stream fileData st st3 hb with hs | ⟨m, hs, hm⟩
        · rw [hs]
          exact hinv
        · rw [hs]
          intro m2 hm2
          rcases List.mem_append.mp hm2 with h2 | h2
          · exact hinv m2 h2
          · rw [List.mem_singleton.mp h2]
            exact hm

/-- Every instruction that `readMetaData` returns has one of the six entry codes,
never `E`, and a description that is whitelisted for its code. -/
theorem readMetaData_whitelisted (fileData : configData) (filePath : String)
    (file : List Char) (instrs : List metaData) (out : List String)
    (h : readMetaData [] fileData filePath file = .ok (instrs, out)) :
    ∀ m ∈ instrs, m.code ∈ entryCodes ∧ m.code ≠ 'E' ∧
      Whitelisted fileData m.code m.description := by
  unfold readMetaData at h
  simp only at h
  split at h
  · obtain ⟨rfl, _⟩ := Prod.mk.inj (Except.ok.inj h)
    intro m hm
    simp at hm
  · split at h
    · exact Except.noConfusion h
    · rename_i st hst
      obtain ⟨rfl, _⟩ := Prod.mk.inj (Except.ok.inj h)
      intro m hm
      have := mainLoop_stream fileData _ _ st hst (by intro m hm; simp at hm) m hm
      exact ⟨this.1, (entryCodes_ne m.code this.1).2.2, this.2⟩

/-! ## The end of the parse within the 1000 characters of `ignore` -/

/-- Well-formed entries, then `E`, then fewer than 1000 characters: the entries are
returned and the text after the `E` is discarded. -/
theorem readMetaData_E_short_trailer (fileData : configData)
    (hn : NamesNonEmpty fileData) (filePath : String) (banner : List Char)
    (hlen : banner.length < 1000) (hnl : '\n' ∉ banner)
    (items : List (Entry × List Char))
    (hwf : ∀ it ∈ items, it.1.WellFormed fileData ∧ it.2 ∈ separators)
    (t : List Char) (ht : t.length < 1000) :
    readMetaData [] fileData filePath (banner ++ '\n' :: (entriesText items ++ 'E' :: t)) =
      .ok (items.map (fun it => it.1.parsed), []) := by
  obtain ⟨a2, h⟩ := mainLoop_entries_then fileData hn 'E' t (by decide) (by decide)
    items 0 [] [] 1 hwf
  have hstep := loopBody_E fileData
    ⟨⟨List.replicate a2 '\n' ++ 'E' :: t, false, false⟩,
      [] ++ items.map (fun it => it.1.parsed), []⟩ a2 0 t (by simp)
  rw [mainLoop_step fileData 0 _ _ rfl hstep, ignore_eof_short t ht,
    mainLoop_eof fileData 0 _ rfl] at h
  simp only [List.replicate_zero, List.nil_append] at h
  have hlen2 := entriesText_length items
  exact readMetaData_of_mainLoop [] fileData filePath banner _ hlen hnl _ _
    (by simp; omega) h

/-- Well-formed entries, then a character that is no code, then fewer than 1000
characters: the entries are returned, the invalid-code message is written once and
the text after the character is discarded. -/
theorem readMetaData_invalid_short_trailer (fileData : configData)
    (hn : NamesNonEmpty fileData) (filePath : String) (banner : List Char)
    (hlen : banner.length < 1000) (hnl : '\n' ∉ banner)
    (items : List (Entry × List Char))
    (hwf : ∀ it ∈ items, it.1.WellFormed fileData ∧ it.2 ∈ separators)
    (x : Char) (hxn : x ≠ '\n') (hxs : x ≠ ' ') (hxe : x ≠ 'E') (hx : x ∉ entryCodes)
    (t : List Char) (ht : t.length < 1000) :
    readMetaData [] fileData filePath (banner ++ '\n' :: (entriesText items ++ x :: t)) =
      .ok (items.map (fun it => it.1.parsed), [invalidCodeMsg]) := by
  obtain ⟨a2, h⟩ := mainLoop_entries_then fileData hn x t hxs hxn items 0 [] [] 1 hwf
  have hstep := loopBody_invalid fileData
    ⟨⟨List.replicate a2 '\n' ++ x :: t, false, false⟩,
      [] ++ items.map (fun it => it.1.parsed), []⟩ a2 0 x t hxn hxs hxe hx (by simp)
  rw [mainLoop_step fileData 0 _ _ rfl hstep, ignore_eof_short t ht,
    mainLoop_eof fileData 0 _ rfl] at h
  simp only [List.replicate_zero, List.nil_append] at h
  have hlen2 := entriesText_length items
  exact readMetaData_of_mainLoop [] fileData filePath banner _ hlen hnl _ _
    (by simp; omega) h

/-! ## C1: a script of well-formed entries -/

/-- C1, as stated, fails: with the component name `Hard drive(s)` in a table of
eight non-empty names, the description `hard drive(s)` is on the whitelist of `I`,
yet the script made of the banner line, the entry `I(hard drive(s))13;` and `E`
yields no instruction: the description read ends at the first closing parenthesis. -/
theorem readMetaData_parenthesis_in_description :
    NamesNonEmpty parenTable ∧
      Whitelisted parenTable 'I' "hard drive(s)".toList ∧
      readMetaData [] parenTable "Test_1.mdf"
          (script sampleBanner [(⟨'I', "hard drive(s)".toList, "13".toList⟩, [])]) =
        .ok ([], [typoMsg]) := by
  refine ⟨by unfold NamesNonEmpty; decide,
    Or.inr (Or.inr (Or.inr ⟨Or.inl rfl, 2, (ioMatch_iff_drop _ _).mpr (by decide)⟩)),
    by decide⟩

/-- C1, amended: for every cost table whose 8 component names are non-empty, every
banner line shorter than 1000 characters and every sequence of entries written
`<code>(<description>)<digits>;`, each with a whitelisted description that is a
value of the description field (at most 29 characters, no NUL) without a closing
parenthesis and with a non-empty digit run, each followed by nothing, one blank,
one newline, or one blank and one newline, and then the character `E`, the parse
returns exactly one instruction per entry, in the order of the entries, each with
the code and the description of its entry, and writes no diagnostic. -/
theorem readMetaData_wellFormed_script (fileData : configData)
    (hn : NamesNonEmpty fileData) (filePath : String) (banner : List Char)
    (hlen : banner.length < 1000) (hnl : '\n' ∉ banner)
    (items : List (Entry × List Char))
    (hwf : ∀ it ∈ items, it.1.WellFormed fileData ∧ it.2 ∈ separators) :
    readMetaData [] fileData filePath (script banner items) =
        .ok (items.map (fun it => it.1.parsed), []) ∧
      (items.map (fun it => it.1.parsed)).length = items.length ∧
      (items.map (fun it => it.1.parsed)).map (fun m => (m.code, m.description)) =
        items.map (fun it => (it.1.code, it.1.description)) := by
  refine ⟨?_, by simp, by simp [Entry.parsed, Function.comp_def]⟩
  have h := mainLoop_entries fileData hn items 0 [] [] (items.length + 1) hwf le_rfl
  simp only [List.replicate_zero, List.nil_append] at h
  have hlen2 := entriesText_length items
  exact readMetaData_of_mainLoop [] fileData filePath banner _ hlen hnl _ _
    (by simp; omega) h

/-- An instance: the three sample entries after the sample banner line, with the
sample table. -/
theorem readMetaData_wellFormed_script_witness :
    readMetaData [] sampleTable "Test_1.mdf" (script sampleBanner sampleItems) =
        .ok (sampleItems.map (fun it => it.1.parsed), []) ∧
      (sampleItems.map (fun it => it.1.parsed)).length = sampleItems.length ∧
      (sampleItems.map (fun it => it.1.parsed)).map (fun m => (m.code, m.description)) =
        sampleItems.map (fun it => (it.1.code, it.1.description)) :=
  readMetaData_wellFormed_script sampleTable sampleTable_namesNonEmpty "Test_1.mdf"
    sampleBanner (by decide) (by decide) sampleItems sampleItems_wellFormed

/-! ## C2: the entry `S(start), 10` -/

/-- C2, as stated, fails: on a banner line followed by `S(start), 10 E` the parser
finds the comma where it expects the cycle count, appends no instruction and writes
the missing-cycle diagnostic. -/
theorem readMetaData_comma_entry :
    readMetaData [] sampleTable "Test_1.mdf"
        (sampleBanner ++ "\nS(start), 10 E".toList) = .ok ([], [missingMsg]) ∧
      readMetaData [] sampleTable "Test_1.mdf"
        (sampleBanner ++ "\nS(start), 10 E".toList) ≠
          .ok ([⟨'S', startText, 10⟩], []) := by
  decide

/-- C2, amended: for every banner line of fewer than 1000 characters, every cost
table and file name, parsing the banner line followed by `S(start)10; E` (the cycle
count directly after the closing parenthesis) yields exactly the instruction with
code `S`, description `start` and 10 cycles, and writes no diagnostic. -/
theorem readMetaData_single_start_entry (fileData : configData) (filePath : String)
    (banner : List Char) (hlen : banner.length < 1000) (hnl : '\n' ∉ banner) :
    readMetaData [] fileData filePath (banner ++ '\n' :: "S(start)10; E".toList) =
      .ok ([⟨'S', startText, 10⟩], []) := by
  have h : mainLoop fileData 3 ⟨⟨"S(start)10; E".toList, false, false⟩, [], []⟩ =
      .ok ⟨⟨[], true, false⟩, [⟨'S', startText, 10⟩], []⟩ := by rfl
  exact readMetaData_of_mainLoop [] fileData filePath banner _ hlen hnl 3 _ (by decide) h

/-- An instance: the sample banner line and the sample table. -/
theorem readMetaData_single_start_entry_witness :
    readMetaData [] sampleTable "Test_1.mdf"
        (sampleBanner ++ '\n' :: "S(start)10; E".toList) =
      .ok ([⟨'S', startText, 10⟩], []) :=
  readMetaData_single_start_entry sampleTable "Test_1.mdf" sampleBanner
    (by decide) (by decide)

/-! ## C3: the value of the cycle count -/

/-- C3 fails on the code at the digit run `123`: the entry `P(run)123;` is appended
with 103 cycles, because the digit loop multiplies `tempNum` by ten without adding
the digit to it; the base-10 value of the run is 123. -/
theorem readMetaData_three_digits :
    readMetaData [] sampleTable "Test_1.mdf"
        (script sampleBanner [(⟨'P', runText, "123".toList⟩, [])]) =
        .ok ([⟨'P', runText, 103⟩], []) ∧
      decimalValue "123".toList = 123 := by
  decide

/-! ## C4: the instructions returned -/

/-- C4 fails on the code at the digit run `3000000000`: the product `tempNum * 10`
leaves the range of `int`, and the entry `P(run)3000000000;` is appended with a
negative cycle count. -/
theorem readMetaData_cycles_overflow :
    readMetaData [] sampleTable "Test_1.mdf"
        (script sampleBanner [(⟨'P', runText, "3000000000".toList⟩, [])]) =
        .ok ([⟨'P', runText, -1294967296⟩], []) ∧
      ¬ (0 : Int) ≤ -1294967296 := by
  decide

/-! ## C5: the check of an `I` or `O` description -/

/-- C5: for every non-empty description `d` and every table of 8 non-empty
component names, the validation of an `I` or `O` entry returns without throwing,
and it accepts `d` if and only if some component name has the length of `d` and
the characters of `d` at every position from 1 on. The characters at position 0
are not compared: the outcome is the same for every description and every table
that differ from `d` and from the table at position 0 only. -/
theorem validate_io_iff (fileData : configData) (hn : NamesNonEmpty fileData)
    (code : Char) (hcode : code = 'I' ∨ code = 'O') (d : List Char) (hd : d ≠ [])
    (st : Parse) :
    ∃ flag st2, validate fileData code d st = .ok (flag, st2) ∧
      (flag = true ↔
        ∃ i, (fileData.cycleData i).componentName.length = d.length ∧
          ∀ j, 1 ≤ j → (fileData.cycleData i).componentName[j]? = d[j]?) ∧
      ∀ (fileData2 : configData) (d2 : List Char),
        (∀ i, (fileData2.cycleData i).componentName.length =
            (fileData.cycleData i).componentName.length ∧
          ∀ j, 1 ≤ j → (fileData2.cycleData i).componentName[j]? =
            (fileData.cycleData i).componentName[j]?) →
        (d2.length = d.length ∧ ∀ j, 1 ≤ j → d2[j]? = d[j]?) →
        ∃ st3, validate fileData2 code d2 st = .ok (flag, st3) := by
  have key : ∀ (fd : configData) (e : List Char), NamesNonEmpty fd → e ≠ [] →
      ∃ flag st2, validate fd code e st = .ok (flag, st2) ∧
        (flag = true ↔ ∃ i, IoMatch (fd.cycleData i).componentName e) := by
    intro fd e hfd he
    obtain ⟨b, hb, hiff⟩ := ioScan_indices fd e hfd he
    cases b with
    | true =>
      refine ⟨true, st, ?_, hiff⟩
      rcases hcode with h | h <;> subst h <;> simp [validate, hb]
    | false =>
      refine ⟨false, rejected st, ?_, hiff⟩
      rcases hcode with h | h <;> subst h <;> simp [validate, hb, rejected]
  obtain ⟨flag, st2, hv, hiff⟩ := key fileData d hn hd
  refine ⟨flag, st2, hv, hiff, ?_⟩
  intro fileData2 d2 hnames hd2
  have hn2 : NamesNonEmpty fileData2 := by
    intro i hi
    have h1 := (hnames i).1
    rw [hi] at h1
    exact hn i (List.length_eq_zero.mp h1.symm)
  have hd2ne : d2 ≠ [] := by
    intro h
    have h1 := hd2.1
    rw [h] at h1
    exact hd (List.length_eq_zero.mp h1.symm)
  obtain ⟨flag2, st3, hv2, hiff2⟩ := key fileData2 d2 hn2 hd2ne
  have hsame : (∃ i, IoMatch (fileData2.cycleData i).componentName d2) ↔
      ∃ i, IoMatch (fileData.cycleData i).componentName d := by
    have hdd := (ioMatch_iff_drop d2 d).mp hd2
    constructor
    · rintro ⟨i, hi⟩
      have h1 := (ioMatch_iff_drop _ _).mp (hnames i)
      have h2 := (ioMatch_iff_drop _ _).mp hi
      exact ⟨i, (ioMatch_iff_drop _ _).mpr
        ⟨by rw [← h1.1, h2.1, hdd.1], by rw [← h1.2, h2.2, hdd.2]⟩⟩
    · rintro ⟨i, hi⟩
      have h1 := (ioMatch_iff_drop _ _).mp (hnames i)
      have h2 := (ioMatch_iff_drop _ _).mp hi
      exact ⟨i, (ioMatch_iff_drop _ _).mpr
        ⟨by rw [h1.1, h2.1, hdd.1], by rw [h1.2, h2.2, hdd.2]⟩⟩
  have hflag : flag2 = flag := by
    cases flag <;> cases flag2 <;> simp_all
  rw [hflag] at hv2
  exact ⟨st3, hv2⟩

/-- An instance: the description `hard drive` of an `I` entry and the sample table. -/
theorem validate_io_iff_witness :
    ∃ flag st2,
      validate sampleTable 'I' "hard drive".toList ⟨⟨[], false, false⟩, [], []⟩ =
        .ok (flag, st2) ∧
      (flag = true ↔
        ∃ i, (sampleTable.cycleData i).componentName.length = "hard drive".toList.length ∧
          ∀ j, 1 ≤ j →
            (sampleTable.cycleData i).componentName[j]? = "hard drive".toList[j]?) ∧
      ∀ (fileData2 : configData) (d2 : List Char),
        (∀ i, (fileData2.cycleData i).componentName.length =
            (sampleTable.cycleData i).componentName.length ∧
          ∀ j, 1 ≤ j → (fileData2.cycleData i).componentName[j]? =
            (sampleTable.cycleData i).componentName[j]?) →
        (d2.length = "hard drive".toList.length ∧
          ∀ j, 1 ≤ j → d2[j]? = "hard drive".toList[j]?) →
        ∃ st3, validate fileData2 'I' d2 ⟨⟨[], false, false⟩, [], []⟩ = .ok (flag, st3) :=
  validate_io_iff sampleTable sampleTable_namesNonEmpty 'I' (Or.inl rfl)
    "hard drive".toList (by decide) ⟨⟨[], false, false⟩, [], []⟩

/-! ## C6: the text after `E` -/

/-- C6 fails on the code for a trailing text of more than 1000 characters: after
`E` the call `fin.ignore( 1000, EOF )` drops 1000 characters only, and the entry
`A(start)0;` that stands behind 1000 blanks is parsed, while nothing is parsed when
no text follows the `E`. -/
theorem readMetaData_after_E_long_trailer :
    readMetaData [] sampleTable "Test_1.mdf" (sampleBanner ++ '\n' :: 'E' :: []) =
        .ok ([], []) ∧
      readMetaData [] sampleTable "Test_1.mdf"
          (sampleBanner ++ '\n' :: 'E' ::
            (List.replicate 1000 ' ' ++ "A(start)0;".toList)) =
        .ok ([⟨'A', startText, 0⟩], []) := by
  decide

/-! ## C7: an entry with a description that is not whitelisted -/

/-- C7, as stated, fails on its own example: on the banner line followed by
`S(begin)0; A(start)0; E` the parser writes the typo message and appends nothing,
the entry `A(start)0;` is not parsed. -/
theorem readMetaData_begin_then_start :
    readMetaData [] sampleTable "Test_1.mdf"
        (sampleBanner ++ "\nS(begin)0; A(start)0; E".toList) = .ok ([], [typoMsg]) ∧
      readMetaData [] sampleTable "Test_1.mdf"
        (sampleBanner ++ "\nS(begin)0; A(start)0; E".toList) ≠
          .ok ([⟨'A', startText, 0⟩], [typoMsg]) := by
  decide

/-- C7, amended: an entry whose description is not on the whitelist for its code
ends the parse. When fewer than 1000 characters follow its closing parenthesis,
the parse of a script made of a banner line, well-formed entries, and then that
entry returns the instructions of the well-formed entries before it, and writes
the typo diagnostic once: the entry and all that follows it are discarded. -/
theorem readMetaData_rejected_description (fileData : configData)
    (hn : NamesNonEmpty fileData) (filePath : String) (banner : List Char)
    (hlen : banner.length < 1000) (hnl : '\n' ∉ banner)
    (items : List (Entry × List Char))
    (hwf : ∀ it ∈ items, it.1.WellFormed fileData ∧ it.2 ∈ separators)
    (code : Char) (d rest : List Char) (hcode : code ∈ entryCodes)
    (hw : ¬ Whitelisted fileData code d) (hd : IsDescription d) (hp : ')' ∉ d)
    (hio : code = 'I' ∨ code = 'O' → d ≠ []) (hrest : rest.length < 1000) :
    readMetaData [] fileData filePath
        (banner ++ '\n' :: (entriesText items ++ code :: '(' :: (d ++ ')' :: rest))) =
      .ok (items.map (fun it => it.1.parsed), [typoMsg]) := by
  obtain ⟨hcn, hcs, _⟩ := entryCodes_ne code hcode
  obtain ⟨a2, h⟩ := mainLoop_entries_then fileData hn code ('(' :: (d ++ ')' :: rest))
    hcs hcn items 0 [] [] 1 hwf
  have hstep := loopBody_rejected fileData
    ⟨⟨List.replicate a2 '\n' ++ code :: '(' :: (d ++ ')' :: rest), false, false⟩,
      [] ++ items.map (fun it => it.1.parsed), []⟩ a2 0 code d rest hcode hd hp hw
    (fun hc => ⟨hn, hio hc⟩) (by simp)
  rw [mainLoop_step fileData 0 _ _ rfl hstep, ignore_eof_short rest hrest,
    mainLoop_eof fileData 0 _ rfl] at h
  simp only [List.replicate_zero, List.nil_append] at h
  have hlen2 := entriesText_length items
  exact readMetaData_of_mainLoop [] fileData filePath banner _ hlen hnl _ _
    (by simp; omega) h

/-- An instance: the three sample entries followed by `S(begin)0; A(start)0; E`. -/
theorem readMetaData_rejected_description_witness :
    readMetaData [] sampleTable "Test_1.mdf"
        (sampleBanner ++ '\n' :: (entriesText sampleItems ++
          'S' :: '(' :: ("begin".toList ++ ')' :: "0; A(start)0; E".toList))) =
      .ok (sampleItems.map (fun it => it.1.parsed), [typoMsg]) :=
  readMetaData_rejected_description sampleTable sampleTable_namesNonEmpty "Test_1.mdf"
    sampleBanner (by decide) (by decide) sampleItems sampleItems_wellFormed
    'S' "begin".toList "0; A(start)0; E".toList (by decide)
    (by
      rintro (⟨_, h⟩ | ⟨h, _⟩ | ⟨h, _⟩ | ⟨h, _⟩)
      · revert h; decide
      · revert h; decide
      · revert h; decide
      · revert h; decide)
    (by decide) (by decide) (by decide) (by decide)

/-! ## C8: a character that is no code -/

/-- C8 fails on the code for a text of more than 1000 characters after the invalid
code: after the diagnostic the call `fin.ignore( 1000, EOF )` drops 1000 characters
only, and the entry `A(start)0;` that stands behind 1000 blanks is parsed and
appended. -/
theorem readMetaData_invalid_code_long_trailer :
    readMetaData [] sampleTable "Test_1.mdf"
        (sampleBanner ++ '\n' :: 'X' ::
          (List.replicate 1000 ' ' ++ "A(start)0;".toList)) =
      .ok ([⟨'A', startText, 0⟩], [invalidCodeMsg]) := by
  decide


/-! ## C9: the character where the cycle count starts -/

/-- C9: for every entry with a whitelisted description `d` (the text between the
opening parenthesis and the first closing parenthesis, a value of the description
field), read at any point of the parse, let `c` be the first character after the
closing parenthesis that is no blank. If `c` is `-`, the iteration writes the negative-cycle diagnostic and appends
no instruction; if `c` is any other character that is no digit, it writes the
missing-cycle diagnostic and appends no instruction; if `c` is a digit, it writes
nothing and appends one instruction for the entry. The two diagnostics differ. -/
theorem loopBody_cycle_start (fileData : configData) (acc : List metaData)
    (out : List String) (a b k : Nat) (code : Char) (d : List Char) (c : Char)
    (rest : List Char) (hw : Whitelisted fileData code d)
    (hn : code = 'I' ∨ code = 'O' → NamesNonEmpty fileData)
    (hd : IsDescription d) (hp : ')' ∉ d) (hcs : c ≠ ' ') :
    (c = '-' →
      loopBody fileData (atEntry acc out a b code d (List.replicate k ' ' ++ c :: rest)) =
        .ok ⟨IStream.ignore ⟨rest, false, false⟩ 1000 none, acc, out ++ [negativeMsg]⟩) ∧
    (c ≠ '-' → c ∉ digitChars →
      loopBody fileData (atEntry acc out a b code d (List.replicate k ' ' ++ c :: rest)) =
        .ok ⟨IStream.ignore ⟨rest, false, false⟩ 1000 none, acc, out ++ [missingMsg]⟩) ∧
    (c ∈ digitChars →
      ∃ st2 n,
        loopBody fileData
            (atEntry acc out a b code d (List.replicate k ' ' ++ c :: rest)) = .ok st2 ∧
          st2.cout = out ∧ st2.metaDataStream = acc ++ [⟨code, d, n⟩]) ∧
    negativeMsg ≠ missingMsg := by
  have hcode := whitelisted_code fileData code d hw
  have hbody : loopBody fileData
      (atEntry acc out a b code d (List.replicate k ' ' ++ c :: rest)) =
      .ok (readCycles code d ⟨⟨List.replicate k ' ' ++ c :: rest, false, false⟩, acc, out⟩) := by
    rw [loopBody_entry fileData _ a b code d _ hcode hd hp rfl,
      validate_accept fileData code d _ hw hn]
    rfl
  refine ⟨?_, ?_, ?_, by decide⟩
  · intro hc
    subst hc
    rw [hbody, readCycles_negative code d _ k rest rfl]
  · intro hcm hcd
    rw [hbody, readCycles_missing code d _ k c rest hcs hcm hcd rfl]
  · intro hcd
    obtain ⟨h1, n, h2⟩ := readCycles_digit_first code d
      ⟨⟨List.replicate k ' ' ++ c :: rest, false, false⟩, acc, out⟩ k c rest hcd rfl
    exact ⟨_, n, hbody, h1, h2⟩

/-- An instance: the entry `P(run) -5;` behind one newline. -/
theorem loopBody_cycle_start_witness :
    ('-' = '-' →
      loopBody sampleTable
          (atEntry [] [] 1 0 'P' runText (List.replicate 1 ' ' ++ '-' :: "5;".toList)) =
        .ok ⟨IStream.ignore ⟨"5;".toList, false, false⟩ 1000 none, [], [] ++ [negativeMsg]⟩) ∧
    ('-' ≠ '-' → '-' ∉ digitChars →
      loopBody sampleTable
          (atEntry [] [] 1 0 'P' runText (List.replicate 1 ' ' ++ '-' :: "5;".toList)) =
        .ok ⟨IStream.ignore ⟨"5;".toList, false, false⟩ 1000 none, [], [] ++ [missingMsg]⟩) ∧
    ('-' ∈ digitChars →
      ∃ st2 n,
        loopBody sampleTable
            (atEntry [] [] 1 0 'P' runText (List.replicate 1 ' ' ++ '-' :: "5;".toList)) =
            .ok st2 ∧
          st2.cout = [] ∧ st2.metaDataStream = [] ++ [⟨'P', runText, n⟩]) ∧
    negativeMsg ≠ missingMsg :=
  loopBody_cycle_start sampleTable [] [] 1 0 1 'P' runText '-' "5;".toList
    (Or.inr (Or.inl ⟨rfl, rfl⟩)) (fun _ => sampleTable_namesNonEmpty)
    (by decide) (by decide) (by decide)

/-! ## C10: an `S` or `A` entry with another description -/

/-- C10: for every description `d` (a value of the description field: a C string
of at most 29 characters) other than `start` and `end` and without a closing
parenthesis, parsing a banner line followed by a single
`S` or `A` entry with description `d` and the text of a cycle count (any text of
fewer than 1000 characters, such as `, 10`) yields no instruction and exactly one
diagnostic, the typo message. -/
theorem readMetaData_bad_start_description (fileData : configData) (filePath : String)
    (banner : List Char) (hlen : banner.length < 1000) (hnl : '\n' ∉ banner)
    (code : Char) (hcode : code = 'S' ∨ code = 'A') (d : List Char)
    (hd : IsDescription d) (hp : ')' ∉ d) (hs : d ≠ startText) (he : d ≠ endText)
    (rest : List Char) (hrest : rest.length < 1000) :
    readMetaData [] fileData filePath (banner ++ '\n' :: code :: '(' :: (d ++ ')' :: rest)) =
      .ok ([], [typoMsg]) := by
  have hmem : code ∈ entryCodes := by
    rcases hcode with h | h <;> subst h <;> decide
  have hio : ¬ (code = 'I' ∨ code = 'O') := by
    rcases hcode with h | h <;> subst h <;> decide
  have hw : ¬ Whitelisted fileData code d := by
    rintro (⟨_, h | h⟩ | ⟨h, _⟩ | ⟨h, _⟩ | ⟨h, _⟩)
    · exact hs h
    · exact he h
    · rcases hcode with h2 | h2 <;> subst h2 <;> revert h <;> decide
    · rcases hcode with h2 | h2 <;> subst h2 <;> revert h <;> decide
    · exact hio h
  have hstep := loopBody_rejected fileData
    ⟨⟨code :: '(' :: (d ++ ')' :: rest), false, false⟩, [], []⟩ 0 0 code d rest hmem hd hp hw
    (fun hc => absurd hc hio) (by simp)
  have h : mainLoop fileData 1 ⟨⟨code :: '(' :: (d ++ ')' :: rest), false, false⟩, [], []⟩ =
      .ok ⟨⟨[], true, false⟩, [], [typoMsg]⟩ := by
    rw [mainLoop_step fileData 0 _ _ rfl hstep, ignore_eof_short rest hrest,
      mainLoop_eof fileData 0 _ rfl]
    rfl
  exact readMetaData_of_mainLoop [] fileData filePath banner _ hlen hnl 1 _
    (by simp) h

/-- An instance: the sample banner line followed by `S(begin), 10`. -/
theorem readMetaData_bad_start_description_witness :
    readMetaData [] sampleTable "Test_1.mdf"
        (sampleBanner ++ '\n' :: 'S' :: '(' :: ("begin".toList ++ ')' :: ", 10".toList)) =
      .ok ([], [typoMsg]) :=
  readMetaData_bad_start_description sampleTable "Test_1.mdf" sampleBanner
    (by decide) (by decide) 'S' (Or.inl rfl) "begin".toList (by decide) (by decide)
    (by decide) (by decide) ", 10".toList (by decide)


/-! ## C11: blanks and newlines between entries -/

/-- C11 fails on the code at the claim's own example: the script `S(start)0;A(start)0;E`
after a banner line yields both instructions and no diagnostic, but with two blanks
and a newline inserted between the two entries the second entry is lost and the
invalid-code diagnostic is written: line 452 drops one blank, the loop of line 316
finds no newline, the loop of line 319 drops the second blank, and the newline is
taken as a code. -/
theorem readMetaData_two_blanks_newline :
    readMetaData [] sampleTable "Test_1.mdf"
        (sampleBanner ++ "\nS(start)0;A(start)0;E".toList) =
        .ok ([⟨'S', startText, 0⟩, ⟨'A', startText, 0⟩], []) ∧
      readMetaData [] sampleTable "Test_1.mdf"
          (sampleBanner ++ "\nS(start)0;  \nA(start)0;E".toList) =
        .ok ([⟨'S', startText, 0⟩], [invalidCodeMsg]) := by
  decide

/-! ## C12: exceptions -/

/-- C12 fails on the code: with a table of seven configured names, whose eighth
name is empty, the entry `I(keyboard)5;` makes `compare( 1, ... )` throw
`std::out_of_range` on the empty name, and with the full sample table the entry
`I()0;` makes it throw on the empty description; nothing catches the exception. -/
theorem readMetaData_throws :
    readMetaData [] sevenNamesTable "Test_1.mdf"
        (sampleBanner ++ "\nI(keyboard)5;E".toList) = .error .outOfRange ∧
      readMetaData [] sampleTable "Test_1.mdf"
        (sampleBanner ++ "\nI()0;E".toList) = .error .outOfRange := by
  decide


/-! ## Lemmas on the loops of `printMetrics` -/

theorem forEntries_skip (body : Fin 8 → Sim → Except Fault (Sim × List Event))
    (l : List (Fin 8)) (s : Sim) (h : ∀ i ∈ l, ∀ s, body i s = .ok (s, [])) :
    forEntries body l s = .ok (s, []) := by
  induction l with
  | nil => rfl
  | cons i more ih =>
    have hi := h i (by simp) s
    have hm := ih (fun j hj => h j (by simp [hj]))
    simp [forEntries, hi, hm]

/-- A loop over the table in which only the entry `i0` runs a block. -/
theorem forEntries_single (body : Fin 8 → Sim → Except Fault (Sim × List Event))
    (i0 : Fin 8) (l : List (Fin 8)) (s : Sim) (hmem : i0 ∈ l) (hnd : l.Nodup)
    (h : ∀ i ∈ l, i ≠ i0 → ∀ s, body i s = .ok (s, [])) :
    forEntries body l s = body i0 s := by
  induction l generalizing s with
  | nil => simp at hmem
  | cons i more ih =>
    have hnd2 := List.nodup_cons.mp hnd
    by_cases hi : i = i0
    · subst hi
      have hskip : ∀ r : Sim, forEntries body more r = .ok (r, []) := fun r =>
        forEntries_skip body more r (fun j hj => h j (by simp [hj])
          (fun hji => hnd2.1 (hji ▸ hj)))
      cases hb : body i s with
      | error e => simp [forEntries, hb]
      | ok r => simp [forEntries, hb, hskip r.1]
    · have hmem2 : i0 ∈ more := by
        rcases List.mem_cons.mp hmem with h1 | h1
        · exact absurd h1.symm hi
        · exact h1
      have hb := h i (by simp) hi s
      have := ih s hmem2 hnd2.2 (fun j hj => h j (by simp [hj]))
      simp only [forEntries, hb, this]
      cases body i0 s with
      | error e => rfl
      | ok r => simp

theorem indices_nodup : indices.Nodup := by decide

theorem run_cons (allocateMemory : Nat → Int → Int → Nat) (fileData : configData)
    (m : metaData) (more : List metaData) (s : Sim) :
    run allocateMemory fileData (m :: more) s =
      match step allocateMemory fileData m s with
      | .error e => .error e
      | .ok r =>
        match run allocateMemory fileData more r.1 with
        | .error e => .error e
        | .ok r2 => .ok (r2.1, r.2 ++ r2.2) := rfl

theorem run_append (allocateMemory : Nat → Int → Int → Nat) (fileData : configData)
    (xs ys : List metaData) (s : Sim) :
    run allocateMemory fileData (xs ++ ys) s =
      match run allocateMemory fileData xs s with
      | .error e => .error e
      | .ok r =>
        match run allocateMemory fileData ys r.1 with
        | .error e => .error e
        | .ok r2 => .ok (r2.1, r.2 ++ r2.2) := by
  induction xs generalizing s with
  | nil =>
    simp only [List.nil_append, run]
    cases run allocateMemory fileData ys s with
    | error e => rfl
    | ok r => simp
  | cons m more ih =>
    rw [List.cons_append, run_cons, run_cons]
    cases hstep : step allocateMemory fileData m s with
    | error e => rfl
    | ok r =>
      simp only
      rw [ih]
      cases h1 : run allocateMemory fileData more r.1 with
      | error e => rfl
      | ok r2 =>
        simp only
        cases h2 : run allocateMemory fileData ys r2.1 with
        | error e => rfl
        | ok r3 => simp

/-! ## Lemmas on the instruction `P` -/

theorem processorBlock_events (m : metaData) (entry : cycleTime) (s : Sim) (v : Int) :
    (processorBlock m entry { s with processState := v }).2 = (processorBlock m entry s).2 :=
  rfl

/-- The loop of lines 584-598: every entry named `Processor` runs its block. -/
theorem forEntries_processor (m : metaData) (fileData : configData) :
    ∀ (l : List (Fin 8)) (s : Sim),
      forEntries (processorBody m fileData) l s =
        .ok (if l.filter (fun i => decide ((fileData.cycleData i).componentName =
              processorName)) = [] then s else { s with processState := WAITING },
          (l.filter (fun i => decide ((fileData.cycleData i).componentName =
              processorName))).flatMap
            (fun i => (processorBlock m (fileData.cycleData i) s).2)) := by
  intro l
  induction l with
  | nil => intro s; rfl
  | cons i more ih =>
    intro s
    by_cases hi : (fileData.cycleData i).componentName = processorName
    · simp only [forEntries, processorBody, hi, if_true, ih, List.filter_cons, decide_True,
        List.flatMap_cons]
      simp only [processorBlock, processLine]
      split <;> simp
    · simp only [forEntries, processorBody, hi, if_false, ih, List.filter_cons,
        decide_False]
      simp

theorem waits_append (a b : List Event) : waits (a ++ b) = waits a ++ waits b := by
  induction a with
  | nil => rfl
  | cons e more ih => cases e <;> simp [waits, ih]

theorem logLines_append (a b : List Event) :
    logLines (a ++ b) = logLines a ++ logLines b := by
  induction a with
  | nil => rfl
  | cons e more ih => cases e <;> simp [logLines, ih]

theorem states_append (a b : List Event) : states (a ++ b) = states a ++ states b := by
  induction a with
  | nil => rfl
  | cons e more ih => cases e <;> simp [states, ih]

theorem step_P (allocateMemory : Nat → Int → Int → Nat) (fileData : configData)
    (m : metaData) (s : Sim) (h : m.code = 'P') :
    step allocateMemory fileData m s =
      .ok (if processorEntries fileData = [] then s else { s with processState := WAITING },
        (processorEntries fileData).flatMap
          (fun i => (processorBlock m (fileData.cycleData i) s).2)) := by
  unfold step
  rw [if_pos h]
  exact forEntries_processor m fileData indices s

theorem step_M (allocateMemory : Nat → Int → Int → Nat) (fileData : configData)
    (m : metaData) (s : Sim) (h : m.code = 'M') :
    step allocateMemory fileData m s =
      forEntries (memoryBody allocateMemory m fileData) indices s := by
  unfold step
  have h1 : m.code ≠ 'P' := by rw [h]; decide
  have h2 : m.code ≠ 'A' := by rw [h]; decide
  rw [if_neg h1, if_neg h2, if_pos h]

/-- The loop of lines 623-655 for `M(allocate)` and `M(block)`: it returns, and
every entry named `Memory` calls `wait` once. -/
theorem forEntries_memory_waits (allocateMemory : Nat → Int → Int → Nat) (m : metaData)
    (fileData : configData) (hd : m.description = allocateText ∨ m.description = blockText) :
    ∀ (l : List (Fin 8)) (s : Sim),
      ∃ s2 evs, forEntries (memoryBody allocateMemory m fileData) l s = .ok (s2, evs) ∧
        waits evs = (l.filter (fun i => decide ((fileData.cycleData i).componentName =
          memoryName))).map (fun i => cyclesOf m (fileData.cycleData i)) := by
  intro l
  induction l with
  | nil => intro s; exact ⟨s, [], rfl, rfl⟩
  | cons i more ih =>
    intro s
    by_cases hi : (fileData.cycleData i).componentName = memoryName
    · rcases hd with hd | hd
      · obtain ⟨s2, evs, h1, h2⟩ := ih
          (allocateBlock allocateMemory m fileData (fileData.cycleData i) s).1
        refine ⟨s2, (allocateBlock allocateMemory m fileData (fileData.cycleData i) s).2
          ++ evs, ?_, ?_⟩
        · simp only [forEntries, memoryBody, hi, hd, if_true, h1]
        · simp [waits_append, h2, hi, allocateBlock, waits]
      · have hne : m.description ≠ allocateText := by rw [hd]; decide
        obtain ⟨s2, evs, h1, h2⟩ := ih (blockBlock m (fileData.cycleData i) s).1
        refine ⟨s2, (blockBlock m (fileData.cycleData i) s).2 ++ evs, ?_, ?_⟩
        · have hba : blockText ≠ allocateText := by decide
          simp only [forEntries, memoryBody, hi, hd, if_true, if_neg hba, h1]
        · simp [waits_append, h2, hi, blockBlock, waits]
    · obtain ⟨s2, evs, h1, h2⟩ := ih s
      refine ⟨s2, evs, ?_, ?_⟩
      · simp [forEntries, memoryBody, hi, h1]
      · simp [h2, hi]

theorem wrap32_of_int_range (x : Int) (h0 : -2147483648 ≤ x) (h1 : x < 2147483648) :
    wrap32 x = x := by
  unfold wrap32
  omega

theorem seconds_cyclesOf (m : metaData) (entry : cycleTime) :
    (cyclesOf m entry).seconds = ((wrap32 (m.cycles * entry.time) : Int) : ℚ) / 1000 := rfl

/-! ## C13: the duration of a wait -/

/-- C13: for every `P` instruction the loop over the table returns and calls `wait`
once per entry named `Processor`, in table order, each time with the duration
`(c * t) / 1000` seconds, an exact rational number, where `c` is the cycle count,
`t` the time of that entry and the product is the product of the two `int`, taken
before the division; likewise for `M(allocate)` and `M(block)` and the entries named
`Memory`. The `int` product is the product of the integers whenever that lies in
the range of `int`. A `P` instruction writes a start line and an end line per
entry; with the table `Processor: 20` and `P(run)` with 3 cycles the trace is the
register set to Waiting, the start line, a wait of 60/1000 = 0.06 s, the end
line. -/
theorem step_wait_durations (allocateMemory : Nat → Int → Int → Nat)
    (fileData : configData) (m : metaData) (s : Sim) :
    (m.code = 'P' →
      ∃ s2 evs, step allocateMemory fileData m s = .ok (s2, evs) ∧
        waits evs =
          (processorEntries fileData).map (fun i => cyclesOf m (fileData.cycleData i)) ∧
        logLines evs =
          (processorEntries fileData).flatMap (fun _ =>
            [processLine s ": start processing action",
             processLine s ": end processing action"])) ∧
    (m.code = 'M' → (m.description = allocateText ∨ m.description = blockText) →
      ∃ s2 evs, step allocateMemory fileData m s = .ok (s2, evs) ∧
        waits evs =
          (memoryEntries fileData).map (fun i => cyclesOf m (fileData.cycleData i))) ∧
    (∀ entry : cycleTime,
      (cyclesOf m entry).seconds = ((wrap32 (m.cycles * entry.time) : Int) : ℚ) / 1000) ∧
    (∀ entry : cycleTime, -2147483648 ≤ m.cycles * entry.time →
      m.cycles * entry.time < 2147483648 →
      (cyclesOf m entry).seconds = ((m.cycles * entry.time : Int) : ℚ) / 1000) ∧
    step allocateMemory processorOnlyTable ⟨'P', runText, 3⟩ s =
      .ok ({ s with processState := WAITING },
        [.state WAITING, .log (processLine s ": start processing action"),
         .wait ⟨60⟩, .log (processLine s ": end processing action")]) ∧
    (⟨60⟩ : Duration).seconds = 6 / 100 := by
  refine ⟨?_, ?_, fun _ => rfl, ?_, ?_, ?_⟩
  · intro h
    refine ⟨_, _, step_P allocateMemory fileData m s h, ?_, ?_⟩
    · generalize processorEntries fileData = l
      induction l with
      | nil => rfl
      | cons i more ih =>
        simp only [List.flatMap_cons, waits_append, ih, List.map_cons]
        simp [processorBlock, waits]
    · generalize processorEntries fileData = l
      induction l with
      | nil => rfl
      | cons i more ih =>
        simp only [List.flatMap_cons, logLines_append, ih]
        simp [processorBlock, logLines]
  · intro h hd
    rw [step_M allocateMemory fileData m s h]
    exact forEntries_memory_waits allocateMemory m fileData hd indices s
  · intro entry h1 h2
    rw [seconds_cyclesOf, wrap32_of_int_range _ h1 h2]
  · rw [step_P allocateMemory processorOnlyTable _ s rfl]
    have : processorEntries processorOnlyTable = [0] := by decide
    rw [this]
    rfl
  · unfold Duration.seconds
    norm_num

theorem step_wait_durations_witness :
    (⟨'P', runText, 3⟩ : metaData).code = 'P' ∧
      ∃ s2 evs, step sampleAllocate sampleConfig ⟨'P', runText, 3⟩ (fresh 0) = .ok (s2, evs) ∧
        waits evs = (processorEntries sampleConfig).map
          (fun i => cyclesOf ⟨'P', runText, 3⟩ (sampleConfig.cycleData i)) ∧
        logLines evs = (processorEntries sampleConfig).flatMap
          (fun _ => [processLine (fresh 0) ": start processing action",
            processLine (fresh 0) ": end processing action"]) :=
  ⟨rfl, (step_wait_durations sampleAllocate sampleConfig ⟨'P', runText, 3⟩ (fresh 0)).1 rfl⟩

/-! ## The variables after an instruction -/

theorem forEntries_memory_allocate (allocateMemory : Nat → Int → Int → Nat) (m : metaData)
    (fileData : configData) (hd : m.description = allocateText) :
    ∀ (l : List (Fin 8)) (s : Sim),
      ∃ evs, forEntries (memoryBody allocateMemory m fileData) l s =
        .ok ({ s with
            processState :=
              if l.filter (fun i => decide ((fileData.cycleData i).componentName =
                memoryName)) = [] then s.processState else RUNNING,
            hex := s.hex || decide (l.filter (fun i =>
              decide ((fileData.cycleData i).componentName = memoryName)) ≠ []),
            memoryNum := (nextCursor allocateMemory fileData)^[(l.filter (fun i =>
              decide ((fileData.cycleData i).componentName = memoryName))).length]
                s.memoryNum }, evs) := by
  intro l
  induction l with
  | nil => intro s; exact ⟨[], by cases s; simp [forEntries]⟩
  | cons i more ih =>
    intro s
    by_cases hi : (fileData.cycleData i).componentName = memoryName
    · obtain ⟨evs, h1⟩ := ih
        (allocateBlock allocateMemory m fileData (fileData.cycleData i) s).1
      refine ⟨(allocateBlock allocateMemory m fileData (fileData.cycleData i) s).2 ++ evs, ?_⟩
      simp only [forEntries, memoryBody, hi, hd, if_true, h1]
      cases s
      simp [allocateBlock, nextCursor, Function.iterate_succ_apply, hi]
    · obtain ⟨evs, h1⟩ := ih s
      refine ⟨evs, ?_⟩
      simp [forEntries, memoryBody, hi, h1]

theorem forEntries_memory_block (allocateMemory : Nat → Int → Int → Nat) (m : metaData)
    (fileData : configData) (hd : m.description = blockText) :
    ∀ (l : List (Fin 8)) (s : Sim),
      ∃ evs, forEntries (memoryBody allocateMemory m fileData) l s =
        .ok ({ s with
            processState :=
              if l.filter (fun i => decide ((fileData.cycleData i).componentName =
                memoryName)) = [] then s.processState else READY }, evs) := by
  have hba : blockText ≠ allocateText := by decide
  intro l
  induction l with
  | nil => intro s; exact ⟨[], by cases s; simp [forEntries]⟩
  | cons i more ih =>
    intro s
    by_cases hi : (fileData.cycleData i).componentName = memoryName
    · obtain ⟨evs, h1⟩ := ih (blockBlock m (fileData.cycleData i) s).1
      refine ⟨(blockBlock m (fileData.cycleData i) s).2 ++ evs, ?_⟩
      simp only [forEntries, memoryBody, hi, hd, if_true, if_neg hba, h1]
      cases s
      simp [blockBlock, hi]
    · obtain ⟨evs, h1⟩ := ih s
      refine ⟨evs, ?_⟩
      simp [forEntries, memoryBody, hi, h1]

theorem forEntries_memory_other (allocateMemory : Nat → Int → Int → Nat) (m : metaData)
    (fileData : configData) (h1 : m.description ≠ allocateText)
    (h2 : m.description ≠ blockText) (l : List (Fin 8)) (s : Sim) :
    forEntries (memoryBody allocateMemory m fileData) l s = .ok (s, []) := by
  apply forEntries_skip
  intro i _ s
  simp [memoryBody, h1, h2]

theorem hardDrive_ne_printer : hardDriveText ≠ printerText := by decide

/-- The block of lines 665-728 when the quantity of an indexed device is not zero. -/
theorem ioBlock_eq (m : metaData) (fileData : configData) (entry : cycleTime) (s : Sim)
    (h4 : m.description = hardDriveText → fileData.hardDriveQuantity ≠ 0)
    (h5 : m.description = printerText → fileData.printerQuantity ≠ 0) :
    ioBlock m fileData entry s =
      .ok (ioAfter m fileData s,
        [.state WAITING, .log (ioStartLine m s), .create (cyclesOf m entry), .state READY,
          .join, .log (ioEndLine m s)]) := by
  by_cases hd : m.description = hardDriveText
  · have hq := h4 hd
    simp only [ioBlock, advance, hd, hq, if_true, if_false, ioAfter, ioStartLine, ioEndLine]
    simp only [hardDrive_ne_printer, if_false]
    cases s
    simp [stepIndex]
  · by_cases hp : m.description = printerText
    · have hq := h5 hp
      have hph : printerText ≠ hardDriveText := by decide
      simp only [ioBlock, advance, hp, hq, if_true, if_false, ioAfter, ioStartLine,
        ioEndLine, hph]
      cases s
      simp [stepIndex]
    · simp only [ioBlock, hd, hp, if_false, ioAfter, ioStartLine, ioEndLine]
      cases s
      simp

theorem ioBody_eq (m : metaData) (fileData : configData) (i : Fin 8) (s : Sim)
    (hn : NamesNonEmpty fileData) (hd : m.description ≠ []) :
    ioBody m fileData i s =
      if matchesName (fileData.cycleData i).componentName m.description = true then
        ioBlock m fileData (fileData.cycleData i) s
      else .ok (s, []) := by
  have h1 : 1 ≤ (fileData.cycleData i).componentName.length := List.length_pos.mpr (hn i)
  have h2 : 1 ≤ m.description.length := List.length_pos.mpr hd
  unfold ioBody
  simp only [compareIsZero_eq _ _ h1 h2, matchesName]
  by_cases hm : (fileData.cycleData i).componentName.length = m.description.length ∧
      (fileData.cycleData i).componentName.drop 1 = m.description.drop 1
  · simp only [decide_eq_true hm, if_true]
  · simp only [decide_eq_false hm, Bool.false_eq_true, if_false]

theorem forEntries_cons_skip (body : Fin 8 → Sim → Except Fault (Sim × List Event))
    (i : Fin 8) (more : List (Fin 8)) (s : Sim) (h : body i s = .ok (s, [])) :
    forEntries body (i :: more) s = forEntries body more s := by
  simp only [forEntries, h]
  cases forEntries body more s with
  | error e => rfl
  | ok r => simp

theorem forEntries_cons_ok (body : Fin 8 → Sim → Except Fault (Sim × List Event))
    (i : Fin 8) (more : List (Fin 8)) (s s1 s2 : Sim) (e1 e2 : List Event)
    (h : body i s = .ok (s1, e1)) (h2 : forEntries body more s1 = .ok (s2, e2)) :
    forEntries body (i :: more) s = .ok (s2, e1 ++ e2) := by
  simp only [forEntries, h, h2]

/-- The loop of lines 659-730 when no comparison throws and no quantity of an
indexed device is zero: every matching entry runs the block once. -/
theorem forEntries_io (m : metaData) (fileData : configData)
    (hn : NamesNonEmpty fileData) (hd : m.description ≠ [])
    (h4 : m.description = hardDriveText → fileData.hardDriveQuantity ≠ 0)
    (h5 : m.description = printerText → fileData.printerQuantity ≠ 0) :
    ∀ (l : List (Fin 8)) (s : Sim),
      ∃ blocks : List (List Event),
        forEntries (ioBody m fileData) l s =
          .ok ({ s with
              processState :=
                if l.filter (fun i => matchesName (fileData.cycleData i).componentName
                  m.description) = [] then s.processState else READY,
              indexFour :=
                if m.description = hardDriveText then
                  (stepIndex fileData.hardDriveQuantity)^[(l.filter (fun i =>
                    matchesName (fileData.cycleData i).componentName
                      m.description)).length] s.indexFour
                else s.indexFour,
              indexFive :=
                if m.description = printerText then
                  (stepIndex fileData.printerQuantity)^[(l.filter (fun i =>
                    matchesName (fileData.cycleData i).componentName
                      m.description)).length] s.indexFive
                else s.indexFive }, blocks.flatten) ∧
        blocks.length = (l.filter (fun i =>
          matchesName (fileData.cycleData i).componentName m.description)).length ∧
        ∀ b ∈ blocks, IoBlockTrace b := by
  intro l
  induction l with
  | nil =>
    intro s
    refine ⟨[], ?_, rfl, by simp⟩
    cases s
    simp [forEntries]
  | cons i more ih =>
    intro s
    by_cases hi : matchesName (fileData.cycleData i).componentName m.description = true
    · obtain ⟨blocks, h1, h2, h3⟩ := ih (ioAfter m fileData s)
      have hf : List.filter (fun i => matchesName (fileData.cycleData i).componentName
          m.description) (i :: more) = i :: List.filter (fun i =>
            matchesName (fileData.cycleData i).componentName m.description) more :=
        List.filter_cons_of_pos hi
      have hb : ioBody m fileData i s = .ok (ioAfter m fileData s,
          [.state WAITING, .log (ioStartLine m s),
            .create (cyclesOf m (fileData.cycleData i)), .state READY, .join,
            .log (ioEndLine m s)]) := by
        rw [ioBody_eq m fileData i s hn hd, if_pos hi, ioBlock_eq m fileData _ s h4 h5]
      refine ⟨[.state WAITING, .log (ioStartLine m s),
        .create (cyclesOf m (fileData.cycleData i)), .state READY, .join,
        .log (ioEndLine m s)] :: blocks, ?_, ?_, ?_⟩
      · rw [forEntries_cons_ok _ i more s _ _ _ _ hb h1, hf]
        generalize List.filter (fun i => matchesName (fileData.cycleData i).componentName
          m.description) more = F
        cases s
        by_cases c4 : m.description = hardDriveText <;>
          by_cases c5 : m.description = printerText <;>
          simp [ioAfter, c4, c5, Function.iterate_succ_apply, hardDrive_ne_printer,
            hardDrive_ne_printer.symm]
      · rw [hf]
        simp [h2]
      · intro b hb
        rcases List.mem_cons.mp hb with rfl | hb
        · exact ⟨_, _, _, rfl⟩
        · exact h3 b hb
    · obtain ⟨blocks, h1, h2, h3⟩ := ih s
      have hf : List.filter (fun i => matchesName (fileData.cycleData i).componentName
          m.description) (i :: more) = List.filter (fun i =>
            matchesName (fileData.cycleData i).componentName m.description) more :=
        List.filter_cons_of_neg hi
      have hb : ioBody m fileData i s = .ok (s, []) := by
        rw [ioBody_eq m fileData i s hn hd, if_neg hi]
      refine ⟨blocks, ?_, ?_, h3⟩
      · rw [forEntries_cons_skip _ i more s hb, h1, hf]
      · rw [hf, h2]

/-- An instruction that is safe for the table is processed without a fault, and the
variables afterwards are those of `after`. -/
theorem step_after (allocateMemory : Nat → Int → Int → Nat) (fileData : configData)
    (m : metaData) (s : Sim) (hsafe : Safe fileData m) :
    ∃ evs, step allocateMemory fileData m s =
      .ok (after allocateMemory fileData m s, evs) := by
  by_cases hP : m.code = 'P'
  · have h1 : m.code ≠ 'A' := by rw [hP]; decide
    have h2 : m.code ≠ 'M' := by rw [hP]; decide
    have h3 : m.code ≠ 'I' := by rw [hP]; decide
    have h4 : m.code ≠ 'O' := by rw [hP]; decide
    refine ⟨(processorEntries fileData).flatMap
      (fun i => (processorBlock m (fileData.cycleData i) s).2), ?_⟩
    rw [step_P allocateMemory fileData m s hP]
    cases s
    by_cases he : processorEntries fileData = [] <;>
      simp [after, target, IsStart, IsAllocate, IsDevice, hP, h1, h2, h3, h4, he]
  · by_cases hA : m.code = 'A'
    · have h2 : m.code ≠ 'M' := by rw [hA]; decide
      have h3 : m.code ≠ 'I' := by rw [hA]; decide
      have h4 : m.code ≠ 'O' := by rw [hA]; decide
      have hse : startText ≠ endText := by decide
      by_cases hs : m.description = startText
      · refine ⟨(startBlock s).2, ?_⟩
        cases s
        simp [step, hP, hA, hs, startBlock, after, target, IsStart, IsAllocate, IsDevice,
          h2, h3, h4]
      · by_cases he : m.description = endText
        · refine ⟨(endBlock s).2, ?_⟩
          cases s
          simp [step, hP, hA, hs, he, endBlock, after, target, IsStart, IsAllocate,
            IsDevice, h2, h3, h4, hse.symm]
        · refine ⟨[], ?_⟩
          cases s
          simp [step, hP, hA, hs, he, after, target, IsStart, IsAllocate, IsDevice,
            h2, h3, h4]
    · by_cases hM : m.code = 'M'
      · have h3 : m.code ≠ 'I' := by rw [hM]; decide
        have h4 : m.code ≠ 'O' := by rw [hM]; decide
        have hab : allocateText ≠ blockText := by decide
        rw [step_M allocateMemory fileData m s hM]
        by_cases ha : m.description = allocateText
        · obtain ⟨evs, h⟩ := forEntries_memory_allocate allocateMemory m fileData ha indices s
          refine ⟨evs, ?_⟩
          rw [h]
          cases s
          by_cases hme : memoryEntries fileData = []
          · have hme2 := hme
            unfold memoryEntries at hme2
            simp [after, target, IsStart, IsAllocate, IsDevice, hP, hA, hM, h3, h4, ha,
              hme, hme2]
          · have hme2 := hme
            unfold memoryEntries at hme2
            simp only [after, target, IsStart, IsAllocate, IsDevice, hP, hA, hM, h3, h4, ha,
              hme, hme2, memoryEntries]
            simp
        · by_cases hb : m.description = blockText
          · obtain ⟨evs, h⟩ := forEntries_memory_block allocateMemory m fileData hb indices s
            refine ⟨evs, ?_⟩
            rw [h]
            cases s
            by_cases hme : memoryEntries fileData = []
            · have hme2 := hme
              unfold memoryEntries at hme2
              simp [after, target, IsStart, IsAllocate, IsDevice, hP, hA, hM, h3, h4, ha,
                hb, hme, hme2, hab.symm]
            · have hme2 := hme
              unfold memoryEntries at hme2
              simp [after, target, IsStart, IsAllocate, IsDevice, hP, hA, hM, h3, h4, ha,
                hb, hme, hme2, hab.symm]
          · refine ⟨[], ?_⟩
            rw [forEntries_memory_other allocateMemory m fileData ha hb indices s]
            cases s
            simp [after, target, IsStart, IsAllocate, IsDevice, hP, hA, hM, h3, h4, ha, hb]
      · by_cases hIO : m.code = 'I' ∨ m.code = 'O'
        · obtain ⟨hn, hd, hq4, hq5⟩ := hsafe hIO
          obtain ⟨blocks, h, _, _⟩ := forEntries_io m fileData hn hd hq4 hq5 indices s
          refine ⟨blocks.flatten, ?_⟩
          have hstep : step allocateMemory fileData m s =
              forEntries (ioBody m fileData) indices s := by
            unfold step
            rw [if_neg hP, if_neg hA, if_neg hM, if_pos hIO]
          rw [hstep, h]
          have hG : ∀ d, List.filter (fun i => matchesName
              (fileData.cycleData i).componentName d) indices = matchingEntries fileData d :=
            fun _ => rfl
          simp only [hG, after, target, IsStart, IsAllocate, IsDevice, hP, hA, hM, hIO,
            if_true, if_false, false_and, true_and, decide_False, Bool.or_false]
          generalize m.description = d
          cases s
          by_cases c4 : d = hardDriveText
          · subst c4
            by_cases hme : matchingEntries fileData hardDriveText = [] <;>
              simp [hme, hardDrive_ne_printer]
          · by_cases c5 : d = printerText
            · subst c5
              by_cases hme : matchingEntries fileData printerText = [] <;>
                simp [hme, hardDrive_ne_printer.symm]
            · by_cases hme : matchingEntries fileData d = [] <;>
                simp [hme, c4, c5]
        · refine ⟨[], ?_⟩
          have hI : m.code ≠ 'I' := fun h => hIO (Or.inl h)
          have hO : m.code ≠ 'O' := fun h => hIO (Or.inr h)
          cases s
          simp [step, hP, hA, hM, hI, hO, after, target, IsStart, IsAllocate, IsDevice]

/-! ## The run of a sequence of instructions -/

theorem runAfter_cons (allocateMemory : Nat → Int → Int → Nat) (fileData : configData)
    (m : metaData) (xs : List metaData) (s : Sim) :
    runAfter allocateMemory fileData (m :: xs) s =
      runAfter allocateMemory fileData xs (after allocateMemory fileData m s) := rfl

theorem runAfter_append (allocateMemory : Nat → Int → Int → Nat) (fileData : configData)
    (xs ys : List metaData) (s : Sim) :
    runAfter allocateMemory fileData (xs ++ ys) s =
      runAfter allocateMemory fileData ys (runAfter allocateMemory fileData xs s) := by
  simp [runAfter, List.foldl_append]

/-- A sequence of safe instructions runs to its end, and the variables are then
those given by `after`. -/
theorem run_after (allocateMemory : Nat → Int → Int → Nat) (fileData : configData) :
    ∀ (xs : List metaData) (s : Sim), (∀ m ∈ xs, Safe fileData m) →
      ∃ evs, run allocateMemory fileData xs s =
        .ok (runAfter allocateMemory fileData xs s, evs) := by
  intro xs
  induction xs with
  | nil => intro s _; exact ⟨[], rfl⟩
  | cons m more ih =>
    intro s h
    obtain ⟨e1, h1⟩ := step_after allocateMemory fileData m s (h m (by simp))
    obtain ⟨e2, h2⟩ := ih (after allocateMemory fileData m s) (fun x hx => h x (by simp [hx]))
    exact ⟨e1 ++ e2, by rw [run_cons, h1]; simp only []; rw [h2]; rfl⟩

/-- The run of a sequence of safe instructions, cut at one of its instructions. -/
theorem run_split (allocateMemory : Nat → Int → Int → Nat) (fileData : configData)
    (pre : List metaData) (m : metaData) (post : List metaData) (s : Sim)
    (h : ∀ x ∈ pre ++ m :: post, Safe fileData x) :
    ∃ e1 e2 e3,
      run allocateMemory fileData pre s =
        .ok (runAfter allocateMemory fileData pre s, e1) ∧
      step allocateMemory fileData m (runAfter allocateMemory fileData pre s) =
        .ok (after allocateMemory fileData m (runAfter allocateMemory fileData pre s), e2) ∧
      run allocateMemory fileData post
          (after allocateMemory fileData m (runAfter allocateMemory fileData pre s)) =
        .ok (runAfter allocateMemory fileData (pre ++ m :: post) s, e3) ∧
      run allocateMemory fileData (pre ++ m :: post) s =
        .ok (runAfter allocateMemory fileData (pre ++ m :: post) s, e1 ++ (e2 ++ e3)) := by
  obtain ⟨e1, h1⟩ := run_after allocateMemory fileData pre s
    (fun x hx => h x (by simp [hx]))
  obtain ⟨e2, h2⟩ := step_after allocateMemory fileData m
    (runAfter allocateMemory fileData pre s) (h m (by simp))
  obtain ⟨e3, h3⟩ := run_after allocateMemory fileData post
    (after allocateMemory fileData m (runAfter allocateMemory fileData pre s))
    (fun x hx => h x (by simp [hx]))
  have hra : runAfter allocateMemory fileData (pre ++ m :: post) s =
      runAfter allocateMemory fileData post
        (after allocateMemory fileData m (runAfter allocateMemory fileData pre s)) := by
    rw [runAfter_append, runAfter_cons]
  refine ⟨e1, e2, e3, h1, h2, by rw [hra]; exact h3, ?_⟩
  rw [run_append, h1]
  simp only []
  rw [run_cons, h2]
  simp only []
  rw [h3, hra]

/-! ## The counters along a run -/

theorem numStarts_cons (m : metaData) (xs : List metaData) :
    numStarts (m :: xs) = numStarts xs + (if IsStart m then 1 else 0) := by
  simp [numStarts, List.countP_cons]

theorem numAllocates_cons (m : metaData) (xs : List metaData) :
    numAllocates (m :: xs) = numAllocates xs + (if IsAllocate m then 1 else 0) := by
  simp [numAllocates, List.countP_cons]

theorem numDevice_cons (d : List Char) (m : metaData) (xs : List metaData) :
    numDevice d (m :: xs) = numDevice d xs + (if IsDevice d m then 1 else 0) := by
  simp [numDevice, List.countP_cons]

theorem numStarts_append (xs ys : List metaData) :
    numStarts (xs ++ ys) = numStarts xs + numStarts ys := by
  simp [numStarts, List.countP_append]

/-- The process number after a run is the number it had before plus the number of
instructions `A(start)`, as long as that stays in the range of `int`. -/
theorem processID_runAfter (allocateMemory : Nat → Int → Int → Nat) (fileData : configData) :
    ∀ (xs : List metaData) (s : Sim), 0 ≤ s.processID →
      s.processID + numStarts xs < 2147483648 →
      (runAfter allocateMemory fileData xs s).processID = s.processID + numStarts xs := by
  intro xs
  induction xs with
  | nil => intro s _ _; simp [runAfter, numStarts]
  | cons m more ih =>
    intro s h0 h1
    rw [runAfter_cons]
    rw [numStarts_cons] at h1 ⊢
    by_cases hm : IsStart m
    · simp only [hm, if_true] at h1 ⊢
      have hw : wrap32 (s.processID + 1) = s.processID + 1 :=
        wrap32_of_range _ (by omega) (by push_cast at h1; omega)
      have ha : (after allocateMemory fileData m s).processID = s.processID + 1 := by
        simp [after, hm, hw]
      rw [ih _ (by rw [ha]; omega) (by rw [ha]; push_cast at h1 ⊢; omega), ha]
      push_cast
      omega
    · simp only [hm, if_false, Nat.add_zero] at h1 ⊢
      have ha : (after allocateMemory fileData m s).processID = s.processID := by
        simp [after, hm]
      rw [ih _ (by rw [ha]; exact h0) (by rw [ha]; exact h1), ha]

/-- With exactly one entry named `Memory`, the cursor after a run is the result of
one call of the allocator per instruction `M(allocate)`. -/
theorem memoryNum_runAfter (allocateMemory : Nat → Int → Int → Nat) (fileData : configData)
    (hone : (memoryEntries fileData).length = 1) :
    ∀ (xs : List metaData) (s : Sim),
      (runAfter allocateMemory fileData xs s).memoryNum =
        (nextCursor allocateMemory fileData)^[numAllocates xs] s.memoryNum := by
  intro xs
  induction xs with
  | nil => intro s; simp [runAfter, numAllocates]
  | cons m more ih =>
    intro s
    rw [runAfter_cons, ih, numAllocates_cons]
    by_cases hm : IsAllocate m
    · simp [after, hm, hone, Function.iterate_succ_apply]
    · simp [after, hm]

theorem stepIndex_eq (quantity index : Int) (h0 : 0 ≤ index) (h1 : index < quantity)
    (h2 : quantity < 2147483648) : stepIndex quantity index = (index + 1) % quantity := by
  unfold stepIndex
  rw [wrap32_of_range _ (by omega) (by omega)]
  exact Int.tmod_eq_emod (by omega) (by omega)

/-- The index of a device along a run, with exactly one matching entry: it advances
by one, modulo the quantity, at each instruction on the device. -/
theorem indexFour_runAfter (allocateMemory : Nat → Int → Int → Nat) (fileData : configData)
    (hH : 1 ≤ fileData.hardDriveQuantity) (hH2 : fileData.hardDriveQuantity < 2147483648)
    (hone : (matchingEntries fileData hardDriveText).length = 1) :
    ∀ (xs : List metaData) (s : Sim), 0 ≤ s.indexFour →
      s.indexFour < fileData.hardDriveQuantity →
      (runAfter allocateMemory fileData xs s).indexFour =
        (s.indexFour + numDevice hardDriveText xs) % fileData.hardDriveQuantity := by
  intro xs
  induction xs with
  | nil =>
    intro s h0 h1
    simp [runAfter, numDevice, Int.emod_eq_of_lt h0 h1]
  | cons m more ih =>
    intro s h0 h1
    rw [runAfter_cons, numDevice_cons]
    by_cases hm : IsDevice hardDriveText m
    · have ha : (after allocateMemory fileData m s).indexFour =
          (s.indexFour + 1) % fileData.hardDriveQuantity := by
        simp [after, hm, hone, stepIndex_eq _ _ h0 h1 hH2]
      rw [ih _ (by rw [ha]; exact Int.emod_nonneg _ (by omega))
        (by rw [ha]; exact Int.emod_lt_of_pos _ (by omega)), ha]
      simp only [hm, if_true]
      push_cast
      rw [Int.emod_add_emod]
      congr 1
      omega
    · have ha : (after allocateMemory fileData m s).indexFour = s.indexFour := by
        simp [after, hm]
      rw [ih _ (by rw [ha]; exact h0) (by rw [ha]; exact h1), ha]
      simp [hm]

/-- The index of the printers along a run, as `indexFour_runAfter`. -/
theorem indexFive_runAfter (allocateMemory : Nat → Int → Int → Nat) (fileData : configData)
    (hH : 1 ≤ fileData.printerQuantity) (hH2 : fileData.printerQuantity < 2147483648)
    (hone : (matchingEntries fileData printerText).length = 1) :
    ∀ (xs : List metaData) (s : Sim), 0 ≤ s.indexFive →
      s.indexFive < fileData.printerQuantity →
      (runAfter allocateMemory fileData xs s).indexFive =
        (s.indexFive + numDevice printerText xs) % fileData.printerQuantity := by
  intro xs
  induction xs with
  | nil =>
    intro s h0 h1
    simp [runAfter, numDevice, Int.emod_eq_of_lt h0 h1]
  | cons m more ih =>
    intro s h0 h1
    rw [runAfter_cons, numDevice_cons]
    by_cases hm : IsDevice printerText m
    · have ha : (after allocateMemory fileData m s).indexFive =
          (s.indexFive + 1) % fileData.printerQuantity := by
        simp [after, hm, hone, stepIndex_eq _ _ h0 h1 hH2]
      rw [ih _ (by rw [ha]; exact Int.emod_nonneg _ (by omega))
        (by rw [ha]; exact Int.emod_lt_of_pos _ (by omega)), ha]
      simp only [hm, if_true]
      push_cast
      rw [Int.emod_add_emod]
      congr 1
      omega
    · have ha : (after allocateMemory fileData m s).indexFive = s.indexFive := by
        simp [after, hm]
      rw [ih _ (by rw [ha]; exact h0) (by rw [ha]; exact h1), ha]
      simp [hm]

theorem hex_runAfter (allocateMemory : Nat → Int → Int → Nat) (fileData : configData) :
    ∀ (xs : List metaData) (s : Sim), numAllocates xs = 0 →
      (runAfter allocateMemory fileData xs s).hex = s.hex := by
  intro xs
  induction xs with
  | nil => intro s _; rfl
  | cons m more ih =>
    intro s h
    rw [numAllocates_cons] at h
    have hm : ¬ IsAllocate m := by
      intro hm
      simp [hm] at h
    rw [runAfter_cons, ih _ (by omega)]
    simp [after, hm]

/-! ## Instructions with exactly one matching entry -/

theorem filter_singleton (p : Fin 8 → Bool) (i0 : Fin 8) (h : indices.filter p = [i0]) :
    p i0 = true ∧ ∀ i, i ≠ i0 → p i = false := by
  constructor
  · have : i0 ∈ indices.filter p := by rw [h]; simp
    exact (List.mem_filter.mp this).2
  · intro i hi
    by_contra hp
    have : i ∈ indices.filter p :=
      List.mem_filter.mpr ⟨mem_indices i, by simpa using hp⟩
    rw [h] at this
    simp at this
    exact hi this

theorem length_one (l : List (Fin 8)) (h : l.length = 1) : ∃ i0, l = [i0] := by
  match l, h with
  | [i0], _ => exact ⟨i0, rfl⟩

/-- The instruction `M(allocate)` when `i0` is the only entry named `Memory`. -/
theorem step_allocate_single (allocateMemory : Nat → Int → Int → Nat)
    (fileData : configData) (m : metaData) (s : Sim) (i0 : Fin 8)
    (hone : memoryEntries fileData = [i0]) (hm : IsAllocate m) :
    step allocateMemory fileData m s =
      .ok (allocateBlock allocateMemory m fileData (fileData.cycleData i0) s) := by
  obtain ⟨h1, h2⟩ := filter_singleton _ i0 hone
  rw [step_M allocateMemory fileData m s hm.1]
  rw [forEntries_single _ i0 indices s (mem_indices i0) indices_nodup]
  · simp only [decide_eq_true_eq] at h1
    simp [memoryBody, h1, hm.2]
  · intro i _ hi s
    have := h2 i hi
    simp only [decide_eq_false_iff_not] at this
    simp [memoryBody, this]

/-- An `I` or `O` instruction when `i0` is the only matching entry. -/
theorem step_io_single (allocateMemory : Nat → Int → Int → Nat)
    (fileData : configData) (m : metaData) (s : Sim) (i0 : Fin 8)
    (hio : m.code = 'I' ∨ m.code = 'O') (hsafe : Safe fileData m)
    (hone : matchingEntries fileData m.description = [i0]) :
    step allocateMemory fileData m s =
      .ok (ioAfter m fileData s,
        [.state WAITING, .log (ioStartLine m s), .create (cyclesOf m (fileData.cycleData i0)),
          .state READY, .join, .log (ioEndLine m s)]) := by
  obtain ⟨hn, hd, h4, h5⟩ := hsafe hio
  obtain ⟨h1, h2⟩ := filter_singleton _ i0 hone
  have hP : m.code ≠ 'P' := by rcases hio with h | h <;> rw [h] <;> decide
  have hA : m.code ≠ 'A' := by rcases hio with h | h <;> rw [h] <;> decide
  have hM : m.code ≠ 'M' := by rcases hio with h | h <;> rw [h] <;> decide
  have hstep : step allocateMemory fileData m s =
      forEntries (ioBody m fileData) indices s := by
    simp [step, hP, hA, hM, hio]
  rw [hstep, forEntries_single _ i0 indices s (mem_indices i0) indices_nodup]
  · rw [ioBody_eq m fileData i0 s hn hd, if_pos h1, ioBlock_eq m fileData _ s h4 h5]
  · intro i _ hi s
    rw [ioBody_eq m fileData i s hn hd, if_neg (by rw [h2 i hi]; simp)]

/-! ## The calls of the allocator -/

theorem allocations_append (a b : List Event) :
    allocations (a ++ b) = allocations a ++ allocations b := by
  induction a with
  | nil => rfl
  | cons e more ih => cases e <;> simp [allocations, ih]

theorem forEntries_allocations (body : Fin 8 → Sim → Except Fault (Sim × List Event))
    (h : ∀ i s r, body i s = .ok r → allocations r.2 = []) :
    ∀ (l : List (Fin 8)) (s : Sim) (r : Sim × List Event),
      forEntries body l s = .ok r → allocations r.2 = [] := by
  intro l
  induction l with
  | nil =>
    intro s r hr
    simp only [forEntries, Except.ok.injEq] at hr
    rw [← hr]
    rfl
  | cons i more ih =>
    intro s r hr
    simp only [forEntries] at hr
    cases hb : body i s with
    | error e => rw [hb] at hr; simp at hr
    | ok r1 =>
      rw [hb] at hr
      simp only at hr
      cases hf : forEntries body more r1.1 with
      | error e => rw [hf] at hr; simp at hr
      | ok r2 =>
        rw [hf] at hr
        simp only [Except.ok.injEq] at hr
        rw [← hr]
        simp only [allocations_append, h i s r1 hb, ih r1.1 r2 hf, List.append_nil]

theorem ioBlock_allocations (m : metaData) (fileData : configData) (entry : cycleTime)
    (s : Sim) (r : Sim × List Event) (h : ioBlock m fileData entry s = .ok r) :
    allocations r.2 = [] := by
  by_cases h4 : m.description = hardDriveText → fileData.hardDriveQuantity ≠ 0
  · by_cases h5 : m.description = printerText → fileData.printerQuantity ≠ 0
    · rw [ioBlock_eq m fileData entry s h4 h5] at h
      simp only [Except.ok.injEq] at h
      rw [← h]
      rfl
    · have hp : m.description = printerText := by
        by_contra hp
        exact h5 (fun h => absurd h hp)
      have hq : fileData.printerQuantity = 0 := by
        by_contra hq
        exact h5 (fun _ => hq)
      have hph : printerText ≠ hardDriveText := by decide
      simp [ioBlock, advance, hp, hq, hph] at h
  · have hp : m.description = hardDriveText := by
      by_contra hp
      exact h4 (fun h => absurd h hp)
    have hq : fileData.hardDriveQuantity = 0 := by
      by_contra hq
      exact h4 (fun _ => hq)
    simp [ioBlock, advance, hp, hq] at h

/-- Only the instruction `M(allocate)` calls the allocator. -/
theorem step_allocations (allocateMemory : Nat → Int → Int → Nat) (fileData : configData)
    (m : metaData) (s : Sim) (r : Sim × List Event) (hm : ¬ IsAllocate m)
    (h : step allocateMemory fileData m s = .ok r) : allocations r.2 = [] := by
  unfold step at h
  split_ifs at h with hP hA hs he hM hio
  · refine forEntries_allocations _ ?_ indices s r h
    intro i s r hr
    unfold processorBody at hr
    split_ifs at hr <;> simp only [Except.ok.injEq] at hr <;> rw [← hr] <;> rfl
  · simp only [Except.ok.injEq] at h; rw [← h]; rfl
  · simp only [Except.ok.injEq] at h; rw [← h]; rfl
  · simp only [Except.ok.injEq] at h; rw [← h]; rfl
  · refine forEntries_allocations _ ?_ indices s r h
    intro i s r hr
    unfold memoryBody at hr
    split_ifs at hr with h1 h2 h3
    · exact absurd ⟨hM, h2⟩ hm
    all_goals (simp only [Except.ok.injEq] at hr; rw [← hr]; rfl)
  · refine forEntries_allocations _ ?_ indices s r h
    intro i s r hr
    simp only [ioBody] at hr
    rcases hc : compareIsZero (fileData.cycleData i).componentName 1 m.description.length
      m.description 1 m.description.length with e | b
    · rw [hc] at hr; simp at hr
    · rw [hc] at hr
      cases b with
      | false => simp only [Except.ok.injEq] at hr; rw [← hr]; rfl
      | true => exact ioBlock_allocations m fileData _ s r hr
  · simp only [Except.ok.injEq] at h; rw [← h]; rfl

/-! ## C14: the register after an instruction -/

theorem memoryEntries_ne_nil (fileData : configData)
    (h : ∃ i, (fileData.cycleData i).componentName = memoryName) :
    memoryEntries fileData ≠ [] := by
  obtain ⟨i, hi⟩ := h
  have : i ∈ memoryEntries fileData :=
    List.mem_filter.mpr ⟨mem_indices i, by simpa using hi⟩
  exact List.ne_nil_of_mem this

theorem processorEntries_ne_nil (fileData : configData)
    (h : ∃ i, (fileData.cycleData i).componentName = processorName) :
    processorEntries fileData ≠ [] := by
  obtain ⟨i, hi⟩ := h
  have : i ∈ processorEntries fileData :=
    List.mem_filter.mpr ⟨mem_indices i, by simpa using hi⟩
  exact List.ne_nil_of_mem this

theorem matchingEntries_ne_nil (fileData : configData) (d : List Char)
    (h : ∃ i, IoMatch (fileData.cycleData i).componentName d) :
    matchingEntries fileData d ≠ [] := by
  obtain ⟨i, hi⟩ := h
  have : i ∈ matchingEntries fileData d :=
    List.mem_filter.mpr ⟨mem_indices i, by
      simpa [matchesName] using (ioMatch_iff_drop _ _).mp hi⟩
  exact List.ne_nil_of_mem this

/-- C14: a safe instruction is processed without a fault, and afterwards the
process-state register holds Start after `A(start)`, Exit after `A(end)`, Running
after `M(allocate)` and Ready after `M(block)` when the table has an entry named
`Memory`, and Ready after an `I` or `O` instruction when some entry matches its
description; the trace of such an instruction is one block per matching entry, in
which the register is set to Waiting before the thread is created and to Ready
before the end line is written. -/
theorem step_target_state (allocateMemory : Nat → Int → Int → Nat) (fileData : configData)
    (m : metaData) (s : Sim) (hsafe : Safe fileData m) :
    ∃ s2 evs, step allocateMemory fileData m s = .ok (s2, evs) ∧
      (IsStart m → s2.processState = START) ∧
      (IsEnd m → s2.processState = EXIT) ∧
      ((∃ i, (fileData.cycleData i).componentName = memoryName) →
        (IsAllocate m → s2.processState = RUNNING) ∧
        (m.code = 'M' → m.description = blockText → s2.processState = READY)) ∧
      ((m.code = 'I' ∨ m.code = 'O') →
        (∃ i, IoMatch (fileData.cycleData i).componentName m.description) →
        s2.processState = READY ∧
        ∃ blocks : List (List Event),
          blocks ≠ [] ∧ evs = blocks.flatten ∧ ∀ b ∈ blocks, IoBlockTrace b) := by
  obtain ⟨evs, h⟩ := step_after allocateMemory fileData m s hsafe
  have hAP : ('A' : Char) ≠ 'P' := by decide
  have hMP : ('M' : Char) ≠ 'P' := by decide
  have hMA : ('M' : Char) ≠ 'A' := by decide
  refine ⟨_, evs, h, ?_, ?_, ?_, ?_⟩
  · intro hm
    simp [after, target, hm.1, hm.2, hAP]
  · intro hm
    have hes : endText ≠ startText := by decide
    simp [after, target, hm.1, hm.2, hAP, hes]
  · intro hmem
    have hne := memoryEntries_ne_nil fileData hmem
    constructor
    · intro hm
      simp [after, target, hm.1, hm.2, hMP, hMA, hne]
    · intro hc hd
      have hba : blockText ≠ allocateText := by decide
      simp [after, target, hc, hd, hMP, hMA, hne, hba]
  · intro hio hmatch
    have hne := matchingEntries_ne_nil fileData m.description hmatch
    have hP : m.code ≠ 'P' := by rcases hio with h | h <;> rw [h] <;> decide
    have hA : m.code ≠ 'A' := by rcases hio with h | h <;> rw [h] <;> decide
    have hM : m.code ≠ 'M' := by rcases hio with h | h <;> rw [h] <;> decide
    constructor
    · simp [after, target, hP, hA, hM, hio, hne]
    · obtain ⟨hn, hd, h4, h5⟩ := hsafe hio
      obtain ⟨blocks, hb1, hb2, hb3⟩ := forEntries_io m fileData hn hd h4 h5 indices s
      have hstep : step allocateMemory fileData m s =
          forEntries (ioBody m fileData) indices s := by
        simp [step, hP, hA, hM, hio]
      rw [hstep, hb1] at h
      simp only [Except.ok.injEq, Prod.mk.injEq] at h
      refine ⟨blocks, ?_, h.2.symm, hb3⟩
      intro hnil
      rw [hnil] at hb2
      exact hne (List.length_eq_zero.mp hb2.symm)

theorem step_target_state_witness :
    Safe sampleConfig ⟨'O', hardDriveText, 2⟩ ∧
      ∃ s2 evs, step sampleAllocate sampleConfig ⟨'O', hardDriveText, 2⟩ (fresh START) =
          .ok (s2, evs) ∧
        s2.processState = READY ∧
        ∃ blocks : List (List Event),
          blocks ≠ [] ∧ evs = blocks.flatten ∧ ∀ b ∈ blocks, IoBlockTrace b := by
  have hs : Safe sampleConfig ⟨'O', hardDriveText, 2⟩ := fun _ =>
    ⟨by intro i; revert i; decide, by decide, fun _ => by decide, fun _ => by decide⟩
  obtain ⟨s2, evs, h, _, _, _, hio⟩ :=
    step_target_state sampleAllocate sampleConfig ⟨'O', hardDriveText, 2⟩ (fresh START) hs
  exact ⟨hs, s2, evs, h,
    hio (Or.inr rfl) ⟨2, (ioMatch_iff_drop _ _).mpr (by decide)⟩⟩

/-! ## C15: the register after `P(run)` -/

/-- C15 fails on the code: after `A(start)` the register holds Start, and after a
following `P(run)` with 3 cycles, on the sample table with its entry `Processor`,
it holds Waiting, not Start. The only assignment of the instruction is the one to
Waiting before the wait. -/
theorem step_P_run_not_restored :
    (run sampleAllocate sampleConfig [⟨'A', startText, 0⟩] (fresh 0)).map
        (fun r => r.1.processState) = .ok START ∧
      (run sampleAllocate sampleConfig [⟨'A', startText, 0⟩, ⟨'P', runText, 3⟩]
        (fresh 0)).map (fun r => r.1.processState) = .ok WAITING ∧
      (printMetrics sampleAllocate [⟨'A', startText, 0⟩, ⟨'P', runText, 3⟩] sampleConfig
        ⟨0⟩).map (fun r => r.1) = .ok ⟨WAITING⟩ ∧
      (step sampleAllocate sampleConfig ⟨'P', runText, 3⟩
        { fresh START with processID := 1 }).map (fun r => states r.2) = .ok [WAITING] ∧
      WAITING ≠ START := by decide

/-- C15 amended: processing a `P` instruction, with an entry named `Processor` in
the table, sets the register to Waiting before each wait and never sets it back:
after the instruction the register holds Waiting whatever it held before, the other
variables are unchanged, and the trace is, for each entry named `Processor`, the
assignment of Waiting, the start line, the wait and the end line. -/
theorem step_P_waiting (allocateMemory : Nat → Int → Int → Nat) (fileData : configData)
    (m : metaData) (s : Sim) (hP : m.code = 'P')
    (hproc : ∃ i, (fileData.cycleData i).componentName = processorName) :
    step allocateMemory fileData m s =
      .ok ({ s with processState := WAITING },
        (processorEntries fileData).flatMap (fun i =>
          [.state WAITING,
           .log (processLine s ": start processing action"),
           .wait (cyclesOf m (fileData.cycleData i)),
           .log (processLine s ": end processing action")])) ∧
      processorEntries fileData ≠ [] := by
  have hne := processorEntries_ne_nil fileData hproc
  refine ⟨?_, hne⟩
  rw [step_P allocateMemory fileData m s hP, if_neg hne]
  rfl

theorem step_P_waiting_witness :
    (⟨'P', runText, 3⟩ : metaData).code = 'P' ∧
      (∃ i, (sampleConfig.cycleData i).componentName = processorName) ∧
      step sampleAllocate sampleConfig ⟨'P', runText, 3⟩ (fresh START) =
        .ok ({ fresh START with processState := WAITING },
          (processorEntries sampleConfig).flatMap (fun i =>
            [.state WAITING,
             .log (processLine (fresh START) ": start processing action"),
             .wait (cyclesOf ⟨'P', runText, 3⟩ (sampleConfig.cycleData i)),
             .log (processLine (fresh START) ": end processing action")])) ∧
      processorEntries sampleConfig ≠ [] :=
  ⟨rfl, ⟨0, by decide⟩,
    step_P_waiting sampleAllocate sampleConfig ⟨'P', runText, 3⟩ (fresh START) rfl
      ⟨0, by decide⟩⟩

/-! ## C16: the state Exit -/

/-- The run of `printMetrics` on a sequence of safe instructions, cut at one of its
instructions. -/
theorem printMetrics_split (allocateMemory : Nat → Int → Int → Nat) (fileData : configData)
    (processObj : PCB) (pre : List metaData) (m : metaData) (post : List metaData)
    (h : ∀ x ∈ pre ++ m :: post, Safe fileData x) :
    ∃ e1 e2 e3,
      run allocateMemory fileData pre (fresh processObj.processState) =
        .ok (runAfter allocateMemory fileData pre (fresh processObj.processState), e1) ∧
      step allocateMemory fileData m
          (runAfter allocateMemory fileData pre (fresh processObj.processState)) =
        .ok (after allocateMemory fileData m
          (runAfter allocateMemory fileData pre (fresh processObj.processState)), e2) ∧
      run allocateMemory fileData post
          (after allocateMemory fileData m
            (runAfter allocateMemory fileData pre (fresh processObj.processState))) =
        .ok (runAfter allocateMemory fileData (pre ++ m :: post)
          (fresh processObj.processState), e3) ∧
      printMetrics allocateMemory (pre ++ m :: post) fileData processObj =
        .ok (⟨(runAfter allocateMemory fileData (pre ++ m :: post)
            (fresh processObj.processState)).processState⟩,
          Event.log startingLine :: (e1 ++ (e2 ++ e3))) := by
  obtain ⟨e1, e2, e3, h1, h2, h3, h4⟩ :=
    run_split allocateMemory fileData pre m post (fresh processObj.processState) h
  refine ⟨e1, e2, e3, h1, h2, h3, ?_⟩
  simp only [printMetrics, h4]

/-- The process numbers as the values passed to `cout`: in a sequence of safe
instructions run by `printMetrics`, with fewer than 2^31 instructions `A(start)` up to the instruction `m`, the process number before
`m` is the number of `A(start)` before it; if `m` is `A(start)` it writes
`OS: preparing process ` and then `OS: starting process `, both with that number
plus one; if `m` is `A(end)` it writes `OS: removing process ` with that number;
an instruction that is not `A(start)` leaves the process number unchanged. The
numbers are written in base 10 as long as no `M(allocate)` came before. -/
theorem printMetrics_process_numbers (allocateMemory : Nat → Int → Int → Nat)
    (fileData : configData) (processObj : PCB) (pre : List metaData) (m : metaData)
    (post : List metaData) (hsafe : ∀ x ∈ pre ++ m :: post, Safe fileData x)
    (hcount : numStarts (pre ++ [m]) < 2147483648) :
    ∃ s1 e1 s2 e2 s3 e3,
      run allocateMemory fileData pre (fresh processObj.processState) = .ok (s1, e1) ∧
      step allocateMemory fileData m s1 = .ok (s2, e2) ∧
      run allocateMemory fileData post s2 = .ok (s3, e3) ∧
      printMetrics allocateMemory (pre ++ m :: post) fileData processObj =
        .ok (⟨s3.processState⟩, Event.log startingLine :: (e1 ++ (e2 ++ e3))) ∧
      s1.processID = numStarts pre ∧
      (IsStart m →
        e2 = [.state START,
          .log [.str "OS: preparing process ".toList, .int s1.hex (numStarts pre + 1)],
          .log [.str "OS: starting process ".toList, .int s1.hex (numStarts pre + 1)]] ∧
        s2.processID = numStarts pre + 1) ∧
      (IsEnd m →
        e2 = [.state EXIT,
          .log [.str "OS: removing process ".toList, .int s1.hex (numStarts pre)]]) ∧
      (¬ IsStart m → s2.processID = s1.processID) ∧
      (numAllocates pre = 0 → s1.hex = false) := by
  obtain ⟨e1, e2, e3, h1, h2, h3, h4⟩ :=
    printMetrics_split allocateMemory fileData processObj pre m post hsafe
  rw [numStarts_append] at hcount
  have hpid : (runAfter allocateMemory fileData pre (fresh processObj.processState)).processID
      = numStarts pre := by
    have := processID_runAfter allocateMemory fileData pre (fresh processObj.processState)
      (by simp [fresh]) (by simp only [fresh]; omega)
    rw [this]
    simp [fresh]
  have hAP : ('A' : Char) ≠ 'P' := by decide
  refine ⟨_, e1, _, e2, _, e3, h1, h2, h3, h4, hpid, ?_, ?_, ?_, ?_⟩
  · intro hm
    have h1m : numStarts [m] = 1 := by simp [numStarts, hm]
    have hw : wrap32 ((numStarts pre : Int) + 1) = numStarts pre + 1 :=
      wrap32_of_range _ (by omega) (by omega)
    have hstep : step allocateMemory fileData m
        (runAfter allocateMemory fileData pre (fresh processObj.processState)) =
        .ok (startBlock (runAfter allocateMemory fileData pre
          (fresh processObj.processState))) := by
      simp [step, hm.1, hm.2, hAP]
    rw [hstep] at h2
    simp only [Except.ok.injEq] at h2
    have he := congrArg Prod.snd h2
    simp only [startBlock, hpid, hw] at he
    exact ⟨he.symm, by simp [after, hm, hpid, hw]⟩
  · intro hm
    have hes : endText ≠ startText := by decide
    have hstep : step allocateMemory fileData m
        (runAfter allocateMemory fileData pre (fresh processObj.processState)) =
        .ok (endBlock (runAfter allocateMemory fileData pre
          (fresh processObj.processState))) := by
      simp [step, hm.1, hm.2, hAP, hes]
    rw [hstep] at h2
    simp only [Except.ok.injEq] at h2
    have he := congrArg Prod.snd h2
    simp only [endBlock, hpid] at he
    exact he.symm
  · intro hm
    simp [after, hm]
  · intro h0
    rw [hex_runAfter allocateMemory fileData pre _ h0]
    rfl

theorem printMetrics_process_numbers_witness :
    (∀ x ∈ [⟨'A', startText, 0⟩, ⟨'P', runText, 3⟩] ++
        (⟨'A', startText, 0⟩ : metaData) :: [⟨'A', endText, 0⟩], Safe sampleConfig x) ∧
      numStarts ([⟨'A', startText, 0⟩, ⟨'P', runText, 3⟩] ++ [⟨'A', startText, 0⟩]) <
        2147483648 ∧
      ∃ s1 e1 s2 e2 s3 e3,
        run sampleAllocate sampleConfig [⟨'A', startText, 0⟩, ⟨'P', runText, 3⟩]
          (fresh 0) = .ok (s1, e1) ∧
        step sampleAllocate sampleConfig ⟨'A', startText, 0⟩ s1 = .ok (s2, e2) ∧
        run sampleAllocate sampleConfig [⟨'A', endText, 0⟩] s2 = .ok (s3, e3) ∧
        e2 = [.state START,
          .log [.str "OS: preparing process ".toList, .int s1.hex 2],
          .log [.str "OS: starting process ".toList, .int s1.hex 2]] ∧
        s1.hex = false := by
  have hs : ∀ x ∈ [⟨'A', startText, 0⟩, ⟨'P', runText, 3⟩] ++
      (⟨'A', startText, 0⟩ : metaData) :: [⟨'A', endText, 0⟩], Safe sampleConfig x := by
    intro x hx h
    simp only [List.cons_append, List.nil_append, List.mem_cons, List.mem_singleton,
      List.not_mem_nil, or_false] at hx
    rcases hx with hx | hx | hx | hx <;> subst hx <;>
      rcases h with h | h <;> exact absurd h (by decide)
  have hc : numStarts ([⟨'A', startText, 0⟩, ⟨'P', runText, 3⟩] ++ [⟨'A', startText, 0⟩]) <
      2147483648 := by decide
  obtain ⟨s1, e1, s2, e2, s3, e3, h1, h2, h3, _, _, h6, _, _, h9⟩ :=
    printMetrics_process_numbers sampleAllocate sampleConfig ⟨0⟩
      [⟨'A', startText, 0⟩, ⟨'P', runText, 3⟩] ⟨'A', startText, 0⟩ [⟨'A', endText, 0⟩] hs hc
  exact ⟨hs, hc, s1, e1, s2, e2, s3, e3, h1, h2, h3, (h6 ⟨rfl, rfl⟩).1, h9 (by decide)⟩

/-- C17 fails on the code, by the defect of C27: after an `M(allocate)` the stream
`cout` stays in base 16, so the tenth `A(start)` of a sequence that starts with
`M(allocate)` writes `OS: preparing process a` and `OS: starting process a`, not
`... process 10`, and the following `A(end)` writes `OS: removing process a`; the
nine `A(start)` before it write the numbers 1 to 9. -/
theorem printMetrics_process_number_hex :
    (printMetrics sampleAllocate
        (⟨'M', allocateText, 1⟩ :: (List.replicate 10 ⟨'A', startText, 0⟩ ++
          [⟨'A', endText, 0⟩]))
        sampleConfig ⟨0⟩).map (fun r => ((logLines r.2).map lineText).drop 19) =
      .ok ["OS: preparing process 9".toList, "OS: starting process 9".toList,
        "OS: preparing process a".toList, "OS: starting process a".toList,
        "OS: removing process a".toList] := by
  decide

/-! ## C18: the allocation cursor -/

/-- C18: with exactly one table entry named `Memory` and an arbitrary function
`allocateMemory`, in a sequence of safe instructions run by `printMetrics` the
cursor before the instruction `m` is the result of applying
`allocateMemory(., blockMemorySize, systemMemorySize)`, converted to `unsigned int`,
to 0 once per `M(allocate)` before `m`; if `m` is `M(allocate)` it writes that
address in its second line and then calls the allocator once, with that address;
an instruction that is not `M(allocate)` does not call the allocator and leaves the
cursor unchanged. When the values of the allocator are below 2^32 the conversion is
the identity. -/
theorem printMetrics_allocate_addresses (allocateMemory : Nat → Int → Int → Nat)
    (fileData : configData) (processObj : PCB) (pre : List metaData) (m : metaData)
    (post : List metaData) (hsafe : ∀ x ∈ pre ++ m :: post, Safe fileData x)
    (hone : (memoryEntries fileData).length = 1) :
    ∃ s1 e1 s2 e2 s3 e3,
      run allocateMemory fileData pre (fresh processObj.processState) = .ok (s1, e1) ∧
      step allocateMemory fileData m s1 = .ok (s2, e2) ∧
      run allocateMemory fileData post s2 = .ok (s3, e3) ∧
      printMetrics allocateMemory (pre ++ m :: post) fileData processObj =
        .ok (⟨s3.processState⟩, Event.log startingLine :: (e1 ++ (e2 ++ e3))) ∧
      s1.memoryNum = (nextCursor allocateMemory fileData)^[numAllocates pre] 0 ∧
      (IsAllocate m →
        (∃ cycles, e2 = [.state RUNNING, .wait cycles,
          .log (processLine s1 ": allocating memory"),
          .log (processLine s1 ": memory allocated at " ++ [.str "0x".toList,
            .address ((nextCursor allocateMemory fileData)^[numAllocates pre] 0)]),
          .allocate ((nextCursor allocateMemory fileData)^[numAllocates pre] 0)]) ∧
        s2.memoryNum = (nextCursor allocateMemory fileData)^[numAllocates pre + 1] 0) ∧
      (¬ IsAllocate m → allocations e2 = [] ∧ s2.memoryNum = s1.memoryNum) ∧
      ((∀ c, allocateMemory c fileData.blockMemorySize fileData.systemMemorySize <
          4294967296) →
        ∀ c, nextCursor allocateMemory fileData c =
          allocateMemory c fileData.blockMemorySize fileData.systemMemorySize) := by
  obtain ⟨e1, e2, e3, h1, h2, h3, h4⟩ :=
    printMetrics_split allocateMemory fileData processObj pre m post hsafe
  have hmem := memoryNum_runAfter allocateMemory fileData hone pre
    (fresh processObj.processState)
  have hmem0 : (fresh processObj.processState).memoryNum = 0 := rfl
  rw [hmem0] at hmem
  refine ⟨_, e1, _, e2, _, e3, h1, h2, h3, h4, hmem, ?_, ?_, ?_⟩
  · intro hm
    obtain ⟨i0, hi0⟩ := length_one _ hone
    have hstep := step_allocate_single allocateMemory fileData m
      (runAfter allocateMemory fileData pre (fresh processObj.processState)) i0 hi0 hm
    rw [hstep] at h2
    simp only [Except.ok.injEq] at h2
    have he := congrArg Prod.snd h2
    simp only [allocateBlock, hmem] at he
    refine ⟨⟨cyclesOf m (fileData.cycleData i0), he.symm⟩, ?_⟩
    simp [after, hm, hone, hmem, Function.iterate_succ_apply']
  · intro hm
    exact ⟨step_allocations allocateMemory fileData m _ _ hm h2, by simp [after, hm]⟩
  · intro hlt c
    exact Nat.mod_eq_of_lt (hlt c)

theorem printMetrics_allocate_addresses_witness :
    (∀ x ∈ [⟨'A', startText, 0⟩, ⟨'M', allocateText, 2⟩] ++
        (⟨'M', allocateText, 1⟩ : metaData) :: [⟨'A', endText, 0⟩], Safe sampleConfig x) ∧
      (memoryEntries sampleConfig).length = 1 ∧
      ∃ s1 e1 s2 e2 s3 e3,
        run sampleAllocate sampleConfig [⟨'A', startText, 0⟩, ⟨'M', allocateText, 2⟩]
          (fresh 0) = .ok (s1, e1) ∧
        step sampleAllocate sampleConfig ⟨'M', allocateText, 1⟩ s1 = .ok (s2, e2) ∧
        run sampleAllocate sampleConfig [⟨'A', endText, 0⟩] s2 = .ok (s3, e3) ∧
        s1.memoryNum = 128 ∧
        (∃ cycles, e2 = [.state RUNNING, .wait cycles,
          .log (processLine s1 ": allocating memory"),
          .log (processLine s1 ": memory allocated at " ++ [.str "0x".toList,
            .address 128]),
          .allocate 128]) ∧
        s2.memoryNum = 256 := by
  have hs : ∀ x ∈ [⟨'A', startText, 0⟩, ⟨'M', allocateText, 2⟩] ++
      (⟨'M', allocateText, 1⟩ : metaData) :: [⟨'A', endText, 0⟩], Safe sampleConfig x := by
    intro x hx h
    simp only [List.cons_append, List.nil_append, List.mem_cons, List.mem_singleton,
      List.not_mem_nil, or_false] at hx
    rcases hx with hx | hx | hx | hx <;> subst hx <;>
      rcases h with h | h <;> exact absurd h (by decide)
  have hone : (memoryEntries sampleConfig).length = 1 := by decide
  obtain ⟨s1, e1, s2, e2, s3, e3, h1, h2, h3, _, h5, h6, _, _⟩ :=
    printMetrics_allocate_addresses sampleAllocate sampleConfig ⟨0⟩
      [⟨'A', startText, 0⟩, ⟨'M', allocateText, 2⟩] ⟨'M', allocateText, 1⟩
      [⟨'A', endText, 0⟩] hs hone
  have hv1 : (nextCursor sampleAllocate sampleConfig)^[numAllocates
      [⟨'A', startText, 0⟩, ⟨'M', allocateText, 2⟩]] 0 = 128 := by decide
  have hv2 : (nextCursor sampleAllocate sampleConfig)^[numAllocates
      [⟨'A', startText, 0⟩, ⟨'M', allocateText, 2⟩] + 1] 0 = 256 := by decide
  rw [hv1] at h5
  have h6 := h6 ⟨rfl, rfl⟩
  rw [hv1, hv2] at h6
  exact ⟨hs, hone, s1, e1, s2, e2, s3, e3, h1, h2, h3, h5, h6.1, h6.2⟩

/-! ## C19: the text of an address -/

theorem digitChar_hex : ∀ k, k < 16 →
    Nat.digitChar k ∈ hexChars ∧ hexChars.indexOf (Nat.digitChar k) = k := by decide

/-- The digits that `Nat.toDigitsCore` puts in front of its accumulator, for base
16 and enough fuel: they are digits of base 16 and their value is the number. -/
theorem toDigitsCore_hex :
    ∀ (fuel n : Nat) (ds : List Char), n < fuel →
      ∃ front, Nat.toDigitsCore 16 fuel n ds = front ++ ds ∧
        (∀ c ∈ front, c ∈ hexChars) ∧
        ∀ acc, front.foldl (fun a c => a * 16 + hexChars.indexOf c) acc =
          acc * 16 ^ front.length + n := by
  intro fuel
  induction fuel with
  | zero => intro n ds h; omega
  | succ fuel ih =>
    intro n ds h
    have hd := digitChar_hex (n % 16) (Nat.mod_lt _ (by decide))
    by_cases h0 : n / 16 = 0
    · refine ⟨[Nat.digitChar (n % 16)], by simp [Nat.toDigitsCore, h0], ?_, ?_⟩
      · intro c hc
        rw [List.mem_singleton.mp hc]
        exact hd.1
      · intro acc
        have hn : n % 16 = n := Nat.mod_eq_of_lt (by omega)
        simp only [List.foldl_cons, List.foldl_nil, hd.2, List.length_singleton, pow_one]
        omega
    · obtain ⟨front, h1, h2, h3⟩ := ih (n / 16) (Nat.digitChar (n % 16) :: ds) (by omega)
      refine ⟨front ++ [Nat.digitChar (n % 16)], by simp [Nat.toDigitsCore, h0, h1], ?_, ?_⟩
      · intro c hc
        rcases List.mem_append.mp hc with hc | hc
        · exact h2 c hc
        · rw [List.mem_singleton.mp hc]
          exact hd.1
      · intro acc
        rw [List.foldl_append, h3 acc]
        simp only [List.foldl_cons, List.foldl_nil, hd.2, List.length_append,
          List.length_singleton, pow_succ]
        have := Nat.div_add_mod n 16
        nlinarith [this]

theorem toDigits_hex (n : Nat) :
    (∀ c ∈ Nat.toDigits 16 n, c ∈ hexChars) ∧ hexValue (Nat.toDigits 16 n) = n := by
  obtain ⟨front, h1, h2, h3⟩ := toDigitsCore_hex (n + 1) n [] (by omega)
  have h : Nat.toDigits 16 n = front := by
    simp [Nat.toDigits, h1]
  rw [h]
  exact ⟨h2, by simpa [hexValue] using h3 0⟩

theorem toDigits_hex_length (n : Nat) (h : n < 4294967296) :
    (Nat.toDigits 16 n).length ≤ 8 :=
  Nat.toDigitsCore_length 16 (by decide) (n + 1) n 8 (by simpa using h) (by decide)

theorem hexValue_pad (k : Nat) (ds : List Char) :
    hexValue (List.replicate k '0' ++ ds) = hexValue ds := by
  have h0 : ∀ k, (List.replicate k '0').foldl
      (fun a c => a * 16 + hexChars.indexOf c) 0 = 0 := by
    intro k
    induction k with
    | zero => rfl
    | succ k ih =>
      rw [List.replicate_succ, List.foldl_cons]
      have : (0 * 16 + hexChars.indexOf '0') = 0 := by decide
      rw [this, ih]
  simp only [hexValue, List.foldl_append, h0]

/-- C19: for every value of the cursor below 2^32, the second line of `M(allocate)`
ends with `0x` and the text of the address, which has exactly 8 characters, all
digits of base 16, the first ones being the fill character `0` in front of the
digits of the number, and whose value in base 16 is the cursor. -/
theorem allocateBlock_address_text (allocateMemory : Nat → Int → Int → Nat) (m : metaData)
    (fileData : configData) (entry : cycleTime) (s : Sim)
    (h : s.memoryNum < 4294967296) :
    (logLines (allocateBlock allocateMemory m fileData entry s).2).map lineText =
        [lineText (processLine s ": allocating memory"),
          lineText (processLine s ": memory allocated at ") ++
            ("0x".toList ++ showAddress s.memoryNum)] ∧
      (showAddress s.memoryNum).length = 8 ∧
      (∀ c ∈ showAddress s.memoryNum, c ∈ hexChars) ∧
      (∃ k, showAddress s.memoryNum =
        List.replicate k '0' ++ Nat.toDigits 16 s.memoryNum) ∧
      hexValue (showAddress s.memoryNum) = s.memoryNum := by
  have hlen := toDigits_hex_length s.memoryNum h
  have hhex := toDigits_hex s.memoryNum
  refine ⟨?_, ?_, ?_, ⟨_, rfl⟩, ?_⟩
  · simp [allocateBlock, logLines, lineText, processLine, Token.text]
  · simp only [showAddress, List.length_append, List.length_replicate]
    omega
  · intro c hc
    simp only [showAddress, List.mem_append, List.mem_replicate] at hc
    rcases hc with hc | hc
    · rw [hc.2]
      decide
    · exact hhex.1 c hc
  · rw [showAddress, hexValue_pad]
    exact hhex.2

theorem allocateBlock_address_text_witness :
    ({ fresh 0 with memoryNum := 128 } : Sim).memoryNum < 4294967296 ∧
      (logLines (allocateBlock sampleAllocate ⟨'M', allocateText, 1⟩ sampleConfig
          ⟨memoryName, 30⟩ { fresh 0 with memoryNum := 128 }).2).map lineText =
        ["Process0: allocating memory".toList,
          "Process0: memory allocated at 0x00000080".toList] ∧
      showAddress 128 = "00000080".toList ∧
      hexValue (showAddress 128) = 128 := by
  have h := allocateBlock_address_text sampleAllocate ⟨'M', allocateText, 1⟩ sampleConfig
    ⟨memoryName, 30⟩ { fresh 0 with memoryNum := 128 } (by decide)
  exact ⟨by decide, h.1.trans (by decide), by decide, h.2.2.2.2⟩

/-! ## C20: the device indices -/

/-- The device indices as the values passed to `cout`: with quantities `1 ≤ H` and
`1 ≤ P` (values of `int`), a table in which exactly one entry matches `hard drive` and exactly one matches `printer`, and a
sequence of safe instructions run by `printMetrics`, the index of the hard drives
before the instruction `m` is `j mod H` for the number `j` of `I` and `O`
instructions on `hard drive` before `m`, and an `I` or `O` instruction on
`hard drive` writes it after ` on HDD ` in its end line; the same holds for
`printer`, `P` and ` on PRNTR `. With `H = 2`, three output instructions on
`hard drive` write `HDD 0`, `HDD 1`, `HDD 0`. -/
theorem printMetrics_device_indices (allocateMemory : Nat → Int → Int → Nat)
    (fileData : configData) (processObj : PCB) (pre : List metaData) (m : metaData)
    (post : List metaData) (hsafe : ∀ x ∈ pre ++ m :: post, Safe fileData x)
    (hH : 1 ≤ fileData.hardDriveQuantity) (hH2 : fileData.hardDriveQuantity < 2147483648)
    (hP : 1 ≤ fileData.printerQuantity) (hP2 : fileData.printerQuantity < 2147483648)
    (hone4 : (matchingEntries fileData hardDriveText).length = 1)
    (hone5 : (matchingEntries fileData printerText).length = 1) :
    (∃ s1 e1 s2 e2 s3 e3,
      run allocateMemory fileData pre (fresh processObj.processState) = .ok (s1, e1) ∧
      step allocateMemory fileData m s1 = .ok (s2, e2) ∧
      run allocateMemory fileData post s2 = .ok (s3, e3) ∧
      printMetrics allocateMemory (pre ++ m :: post) fileData processObj =
        .ok (⟨s3.processState⟩, Event.log startingLine :: (e1 ++ (e2 ++ e3))) ∧
      s1.indexFour = (numDevice hardDriveText pre : Int) % fileData.hardDriveQuantity ∧
      s1.indexFive = (numDevice printerText pre : Int) % fileData.printerQuantity ∧
      (IsDevice hardDriveText m →
        ∃ startLine cycles, e2 = [.state WAITING, .log startLine, .create cycles,
          .state READY, .join,
          .log (processLine s1 ": end " ++ [.str hardDriveText] ++ directionItems m ++
            [.str " on HDD ".toList, .int s1.hex
              ((numDevice hardDriveText pre : Int) % fileData.hardDriveQuantity)])]) ∧
      (IsDevice printerText m →
        ∃ startLine cycles, e2 = [.state WAITING, .log startLine, .create cycles,
          .state READY, .join,
          .log (processLine s1 ": end " ++ [.str printerText] ++ directionItems m ++
            [.str " on PRNTR ".toList, .int s1.hex
              ((numDevice printerText pre : Int) % fileData.printerQuantity)])])) ∧
    (printMetrics sampleAllocate
        [⟨'O', hardDriveText, 1⟩, ⟨'O', hardDriveText, 1⟩, ⟨'O', hardDriveText, 1⟩]
        sampleConfig ⟨0⟩).map (fun r => (logLines r.2).map lineText) =
      .ok ["Simulator program starting".toList,
        "Process0: start hard drive output".toList,
        "Process0: end hard drive output on HDD 0".toList,
        "Process0: start hard drive output".toList,
        "Process0: end hard drive output on HDD 1".toList,
        "Process0: start hard drive output".toList,
        "Process0: end hard drive output on HDD 0".toList] := by
  refine ⟨?_, by decide⟩
  obtain ⟨e1, e2, e3, h1, h2, h3, h4⟩ :=
    printMetrics_split allocateMemory fileData processObj pre m post hsafe
  have h40 : (fresh processObj.processState).indexFour = 0 := rfl
  have h50 : (fresh processObj.processState).indexFive = 0 := rfl
  have hi4 := indexFour_runAfter allocateMemory fileData hH hH2 hone4 pre
    (fresh processObj.processState) (by rw [h40]) (by rw [h40]; omega)
  have hi5 := indexFive_runAfter allocateMemory fileData hP hP2 hone5 pre
    (fresh processObj.processState) (by rw [h50]) (by rw [h50]; omega)
  rw [h40, Int.zero_add] at hi4
  rw [h50, Int.zero_add] at hi5
  refine ⟨_, e1, _, e2, _, e3, h1, h2, h3, h4, hi4, hi5, ?_, ?_⟩
  · intro hm
    obtain ⟨i0, hi0⟩ := length_one _ hone4
    rw [← hm.2] at hi0
    have hstep := step_io_single allocateMemory fileData m
      (runAfter allocateMemory fileData pre (fresh processObj.processState)) i0 hm.1
      (hsafe m (by simp)) hi0
    rw [hstep] at h2
    simp only [Except.ok.injEq] at h2
    have he := congrArg Prod.snd h2
    simp only [ioEndLine, hm.2, hardDrive_ne_printer, if_true, if_false, List.append_nil,
      hi4] at he
    exact ⟨_, _, he.symm⟩
  · intro hm
    obtain ⟨i0, hi0⟩ := length_one _ hone5
    rw [← hm.2] at hi0
    have hph : printerText ≠ hardDriveText := by decide
    have hstep := step_io_single allocateMemory fileData m
      (runAfter allocateMemory fileData pre (fresh processObj.processState)) i0 hm.1
      (hsafe m (by simp)) hi0
    rw [hstep] at h2
    simp only [Except.ok.injEq] at h2
    have he := congrArg Prod.snd h2
    simp only [ioEndLine, hm.2, hph, if_true, if_false, List.append_nil,
      hi5] at he
    exact ⟨_, _, he.symm⟩

theorem printMetrics_device_indices_witness :
    (∀ x ∈ [⟨'O', hardDriveText, 1⟩, ⟨'I', printerText, 1⟩] ++
        (⟨'O', hardDriveText, 4⟩ : metaData) :: [], Safe sampleConfig x) ∧
      (matchingEntries sampleConfig hardDriveText).length = 1 ∧
      (matchingEntries sampleConfig printerText).length = 1 ∧
      ∃ s1 e1 s2 e2,
        run sampleAllocate sampleConfig [⟨'O', hardDriveText, 1⟩, ⟨'I', printerText, 1⟩]
          (fresh 0) = .ok (s1, e1) ∧
        step sampleAllocate sampleConfig ⟨'O', hardDriveText, 4⟩ s1 = .ok (s2, e2) ∧
        s1.indexFour = 1 ∧ s1.indexFive = 1 ∧
        ∃ startLine cycles, e2 = [.state WAITING, .log startLine, .create cycles,
          .state READY, .join,
          .log (processLine s1 ": end " ++ [.str hardDriveText] ++
            [.str " output".toList] ++ [.str " on HDD ".toList, .int s1.hex 1])] := by
  have hn : NamesNonEmpty sampleConfig := by intro i; revert i; decide
  have hs : ∀ x ∈ [⟨'O', hardDriveText, 1⟩, ⟨'I', printerText, 1⟩] ++
      (⟨'O', hardDriveText, 4⟩ : metaData) :: [], Safe sampleConfig x := by
    intro x hx _
    simp only [List.cons_append, List.nil_append, List.mem_cons, List.mem_singleton,
      List.not_mem_nil, or_false] at hx
    rcases hx with hx | hx | hx <;> subst hx <;>
      exact ⟨hn, by decide, fun _ => by decide, fun _ => by decide⟩
  have h4 : (matchingEntries sampleConfig hardDriveText).length = 1 := by decide
  have h5 : (matchingEntries sampleConfig printerText).length = 1 := by decide
  obtain ⟨⟨s1, e1, s2, e2, s3, e3, r1, r2, _, _, i4, i5, hd, _⟩, _⟩ :=
    printMetrics_device_indices sampleAllocate sampleConfig ⟨0⟩
      [⟨'O', hardDriveText, 1⟩, ⟨'I', printerText, 1⟩] ⟨'O', hardDriveText, 4⟩ [] hs
      (by decide) (by decide) (by decide) (by decide) h4 h5
  exact ⟨hs, h4, h5, s1, e1, s2, e2, r1, r2, i4.trans (by decide), i5.trans (by decide),
    hd ⟨Or.inr rfl, rfl⟩⟩

/-- C20 fails on the code, by the defect of C27: with 11 hard drives, the eleventh
`I` instruction on `hard drive` (`j = 10`) writes ` on HDD a`, not ` on HDD 10`, when
an `M(allocate)` is interleaved before it; the tenth, before the allocation, writes
` on HDD 9`. -/
theorem printMetrics_device_index_hex :
    (printMetrics sampleAllocate
        (List.replicate 10 ⟨'I', hardDriveText, 1⟩ ++
          [⟨'M', allocateText, 1⟩, ⟨'I', hardDriveText, 1⟩])
        { sampleConfig with hardDriveQuantity := 11 } ⟨0⟩).map
        (fun r => ((logLines r.2).map lineText).drop 19) =
      .ok ["Process0: start hard drive input".toList,
        "Process0: end hard drive input on HDD 9".toList,
        "Process0: allocating memory".toList,
        "Process0: memory allocated at 0x00000000".toList,
        "Process0: start hard drive input".toList,
        "Process0: end hard drive input on HDD a".toList] := by
  decide

theorem sameEffects_of_eq (a b : Except Fault (Sim × List Event)) (h : b = a) :
    SameEffects a b := by
  subst h
  cases b with
  | error e => exact Or.inl ⟨e, rfl, rfl⟩
  | ok r => exact Or.inr ⟨r, r.1.processState, rfl, rfl⟩

theorem sameEffects_skip (s : Sim) (v : Int) :
    SameEffects (.ok (s, [])) (.ok ({ s with processState := v }, [])) :=
  Or.inr ⟨(s, []), v, rfl, rfl⟩

theorem forEntries_sameEffects (body : Fin 8 → Sim → Except Fault (Sim × List Event))
    (h : ∀ i s v, SameEffects (body i s) (body i { s with processState := v })) :
    ∀ (l : List (Fin 8)) (s : Sim) (v : Int),
      SameEffects (forEntries body l s) (forEntries body l { s with processState := v }) := by
  intro l
  induction l with
  | nil => intro s v; exact sameEffects_skip s v
  | cons i more ih =>
    intro s v
    rcases h i s v with ⟨e, h1, h2⟩ | ⟨r, w, h1, h2⟩
    · exact Or.inl ⟨e, by simp [forEntries, h1], by simp [forEntries, h2]⟩
    · rcases ih r.1 w with ⟨e, h3, h4⟩ | ⟨r2, w2, h3, h4⟩
      · exact Or.inl ⟨e, by simp [forEntries, h1, h3], by simp [forEntries, h2, h4]⟩
      · exact Or.inr ⟨(r2.1, r.2 ++ r2.2), w2, by simp [forEntries, h1, h3],
          by simp [forEntries, h2, h4]⟩

theorem step_sameEffects (allocateMemory : Nat → Int → Int → Nat) (fileData : configData)
    (m : metaData) (s : Sim) (v : Int) :
    SameEffects (step allocateMemory fileData m s)
      (step allocateMemory fileData m { s with processState := v }) := by
  unfold step
  by_cases hP : m.code = 'P'
  · rw [if_pos hP, if_pos hP]
    apply forEntries_sameEffects
    intro i s v
    unfold processorBody
    split
    · exact sameEffects_of_eq _ _ rfl
    · exact sameEffects_skip s v
  · rw [if_neg hP, if_neg hP]
    by_cases hA : m.code = 'A'
    · rw [if_pos hA, if_pos hA]
      split
      · exact sameEffects_of_eq _ _ rfl
      · split
        · exact sameEffects_of_eq _ _ rfl
        · exact sameEffects_skip s v
    · rw [if_neg hA, if_neg hA]
      by_cases hM : m.code = 'M'
      · rw [if_pos hM, if_pos hM]
        apply forEntries_sameEffects
        intro i s v
        unfold memoryBody
        split
        · split
          · exact sameEffects_of_eq _ _ rfl
          · split
            · exact sameEffects_of_eq _ _ rfl
            · exact sameEffects_skip s v
        · exact sameEffects_skip s v
      · rw [if_neg hM, if_neg hM]
        by_cases hio : m.code = 'I' ∨ m.code = 'O'
        · rw [if_pos hio, if_pos hio]
          apply forEntries_sameEffects
          intro i s v
          simp only [ioBody]
          cases compareIsZero (fileData.cycleData i).componentName 1 m.description.length
            m.description 1 m.description.length with
          | error e => exact Or.inl ⟨e, rfl, rfl⟩
          | ok b =>
            cases b with
            | false => exact sameEffects_skip s v
            | true => exact sameEffects_of_eq _ _ rfl
        · rw [if_neg hio, if_neg hio]
          exact sameEffects_skip s v

theorem run_sameEffects (allocateMemory : Nat → Int → Int → Nat) (fileData : configData) :
    ∀ (xs : List metaData) (s : Sim) (v : Int),
      SameEffects (run allocateMemory fileData xs s)
        (run allocateMemory fileData xs { s with processState := v }) := by
  intro xs
  induction xs with
  | nil => intro s v; exact sameEffects_skip s v
  | cons m more ih =>
    intro s v
    rcases step_sameEffects allocateMemory fileData m s v with ⟨e, h1, h2⟩ | ⟨r, w, h1, h2⟩
    · exact Or.inl ⟨e, by simp [run, h1], by simp [run, h2]⟩
    · rcases ih r.1 w with ⟨e, h3, h4⟩ | ⟨r2, w2, h3, h4⟩
      · exact Or.inl ⟨e, by simp [run, h1, h3], by simp [run, h2, h4]⟩
      · exact Or.inr ⟨(r2.1, r.2 ++ r2.2), w2, by simp [run, h1, h3],
          by simp [run, h2, h4]⟩

/-- The trace of a run does not depend on the value of the register at its start. -/
theorem run_fresh_trace (allocateMemory : Nat → Int → Int → Nat) (fileData : configData)
    (xs : List metaData) (a b : Int) :
    (run allocateMemory fileData xs (fresh a)).map (fun r => r.2) =
      (run allocateMemory fileData xs (fresh b)).map (fun r => r.2) := by
  rcases run_sameEffects allocateMemory fileData xs (fresh a) b with
    ⟨e, h1, h2⟩ | ⟨r, w, h1, h2⟩
  · have h2 : run allocateMemory fileData xs (fresh b) = .error e := h2
    rw [h1, h2]
  · have h2 : run allocateMemory fileData xs (fresh b) = .ok (_, r.2) := h2
    rw [h1, h2]
    rfl

/-! ## C23: the log file and the monitor -/

/-- A loop over the table whose body runs a block on the entries that pass a test
and does nothing on the others. -/
theorem forEntries_runBlocks (body : Fin 8 → Sim → Except Fault (Sim × List Event))
    (p : Fin 8 → Bool) (block : Fin 8 → Sim → Sim × List Event)
    (h : ∀ i s, body i s = if p i = true then .ok (block i s) else .ok (s, [])) :
    ∀ (l : List (Fin 8)) (s : Sim),
      forEntries body l s = .ok (runBlocks block (l.filter p) s) := by
  intro l
  induction l with
  | nil => intro s; rfl
  | cons i more ih =>
    intro s
    by_cases hp : p i = true
    · have hb : body i s = .ok (block i s) := by rw [h, if_pos hp]
      rw [List.filter_cons_of_pos hp]
      simp only [forEntries, hb, ih, runBlocks]
    · have hb : body i s = .ok (s, []) := by rw [h, if_neg hp]
      rw [List.filter_cons_of_neg hp, forEntries_cons_skip _ i more s hb, ih]

theorem step_P_blocks (allocateMemory : Nat → Int → Int → Nat) (fileData : configData)
    (m : metaData) (s : Sim) (hP : m.code = 'P') :
    step allocateMemory fileData m s =
      .ok (runBlocks (fun i s => processorBlock m (fileData.cycleData i) s)
        (processorEntries fileData) s) := by
  unfold step
  rw [if_pos hP]
  apply forEntries_runBlocks
  intro i s
  by_cases h : (fileData.cycleData i).componentName = processorName <;>
    simp [processorBody, h]

theorem step_allocate_blocks (allocateMemory : Nat → Int → Int → Nat)
    (fileData : configData) (m : metaData) (s : Sim) (hm : IsAllocate m) :
    step allocateMemory fileData m s =
      .ok (runBlocks (fun i s => allocateBlock allocateMemory m fileData
        (fileData.cycleData i) s) (memoryEntries fileData) s) := by
  rw [step_M allocateMemory fileData m s hm.1]
  apply forEntries_runBlocks
  intro i s
  by_cases h : (fileData.cycleData i).componentName = memoryName <;>
    simp [memoryBody, h, hm.2]

theorem step_block_blocks (allocateMemory : Nat → Int → Int → Nat)
    (fileData : configData) (m : metaData) (s : Sim) (hM : m.code = 'M')
    (hd : m.description = blockText) :
    step allocateMemory fileData m s =
      .ok (runBlocks (fun i s => blockBlock m (fileData.cycleData i) s)
        (memoryEntries fileData) s) := by
  have hba : blockText ≠ allocateText := by decide
  rw [step_M allocateMemory fileData m s hM]
  apply forEntries_runBlocks
  intro i s
  by_cases h : (fileData.cycleData i).componentName = memoryName <;>
    simp [memoryBody, h, hd, hba]

theorem step_io_blocks (allocateMemory : Nat → Int → Int → Nat)
    (fileData : configData) (m : metaData) (s : Sim)
    (hio : m.code = 'I' ∨ m.code = 'O') (hsafe : Safe fileData m) :
    step allocateMemory fileData m s =
      .ok (runBlocks (ioBlockOf m fileData) (matchingEntries fileData m.description) s) := by
  obtain ⟨hn, hd, h4, h5⟩ := hsafe hio
  have hP : m.code ≠ 'P' := by rcases hio with h | h <;> rw [h] <;> decide
  have hA : m.code ≠ 'A' := by rcases hio with h | h <;> rw [h] <;> decide
  have hM : m.code ≠ 'M' := by rcases hio with h | h <;> rw [h] <;> decide
  unfold step
  rw [if_neg hP, if_neg hA, if_neg hM, if_pos hio]
  apply forEntries_runBlocks
  intro i s
  rw [ioBody_eq m fileData i s hn hd, ioBlock_eq m fileData _ s h4 h5]
  rfl

/-- The trace and the counters of the blocks of an `I` or `O` instruction. -/
theorem runBlocks_io (m : metaData) (fileData : configData) :
    ∀ (l : List (Fin 8)) (s : Sim),
      (logLines (runBlocks (ioBlockOf m fileData) l s).2).length = 2 * l.length ∧
      creates (runBlocks (ioBlockOf m fileData) l s).2 =
        l.map (fun i => cyclesOf m (fileData.cycleData i)) ∧
      (runBlocks (ioBlockOf m fileData) l s).1.indexFour =
        (if m.description = hardDriveText then
          (stepIndex fileData.hardDriveQuantity)^[l.length] s.indexFour
        else s.indexFour) ∧
      (runBlocks (ioBlockOf m fileData) l s).1.indexFive =
        (if m.description = printerText then
          (stepIndex fileData.printerQuantity)^[l.length] s.indexFive
        else s.indexFive) ∧
      (runBlocks (ioBlockOf m fileData) l s).1.processID = s.processID ∧
      (runBlocks (ioBlockOf m fileData) l s).1.memoryNum = s.memoryNum ∧
      (runBlocks (ioBlockOf m fileData) l s).1.hex = s.hex := by
  intro l
  induction l with
  | nil => intro s; simp [runBlocks, logLines, creates]
  | cons i more ih =>
    intro s
    obtain ⟨h1, h2, h3, h4, h5, h6, h7⟩ := ih (ioAfter m fileData s)
    have hl : ∀ evs, logLines ((ioBlockOf m fileData i s).2 ++ evs) =
        ioStartLine m s :: ioEndLine m s :: logLines evs := fun evs => rfl
    have hc : ∀ evs, creates ((ioBlockOf m fileData i s).2 ++ evs) =
        cyclesOf m (fileData.cycleData i) :: creates evs := fun evs => rfl
    have hs : (ioBlockOf m fileData i s).1 = ioAfter m fileData s := rfl
    simp only [runBlocks, hl, hc, hs, h1, h2, h3, h4, h5, h6, h7, List.length_cons,
      List.map_cons, Function.iterate_succ_apply]
    refine ⟨by omega, trivial, ?_, ?_, rfl, rfl, rfl⟩
    · by_cases hd : m.description = hardDriveText <;> simp [ioAfter, hd]
    · by_cases hd : m.description = printerText <;> simp [ioAfter, hd]

theorem runBlocks_logLines_length (block : Fin 8 → Sim → Sim × List Event)
    (h : ∀ i s, (logLines (block i s).2).length = 2) :
    ∀ (l : List (Fin 8)) (s : Sim),
      (logLines (runBlocks block l s).2).length = 2 * l.length := by
  intro l
  induction l with
  | nil => intro s; rfl
  | cons i more ih =>
    intro s
    simp only [runBlocks, logLines_append, List.length_append, h, ih, List.length_cons]
    omega

theorem runBlocks_waits (block : Fin 8 → Sim → Sim × List Event) (d : Fin 8 → Duration)
    (h : ∀ i s, waits (block i s).2 = [d i]) :
    ∀ (l : List (Fin 8)) (s : Sim), waits (runBlocks block l s).2 = l.map d := by
  intro l
  induction l with
  | nil => intro s; rfl
  | cons i more ih =>
    intro s
    simp only [runBlocks, waits_append, h, ih, List.map_cons, List.singleton_append]

/-! ## C21: the device suffix of an end line -/

/-- C21: for an `I` or `O` instruction that is safe for the table, the trace is the
blocks of the matching entries, and the last event of each block is the end line
`Process<n>: end <description><direction>` followed by a suffix: the suffix is
` on HDD ` with the hard-drive index exactly when the description is `hard drive`,
` on PRNTR ` with the printer index exactly when it is `printer`, and for any other
description it is empty and neither index changes, in the block and in the whole
instruction. -/
theorem ioBlock_device_suffix (allocateMemory : Nat → Int → Int → Nat)
    (fileData : configData) (m : metaData) (s : Sim)
    (hio : m.code = 'I' ∨ m.code = 'O') (hsafe : Safe fileData m) :
    step allocateMemory fileData m s =
        .ok (runBlocks (ioBlockOf m fileData) (matchingEntries fileData m.description) s) ∧
      (∀ (i : Fin 8) (t : Sim), ∃ suffix : List Token,
        ioBlock m fileData (fileData.cycleData i) t = .ok (ioBlockOf m fileData i t) ∧
        (ioBlockOf m fileData i t).2 =
          [.state WAITING, .log (ioStartLine m t),
           .create (cyclesOf m (fileData.cycleData i)), .state READY, .join,
           .log (processLine t ": end " ++ [.str m.description] ++ directionItems m ++
              suffix)] ∧
        ((∃ k, suffix = [.str " on HDD ".toList, .int t.hex k]) ↔
          m.description = hardDriveText) ∧
        ((∃ k, suffix = [.str " on PRNTR ".toList, .int t.hex k]) ↔
          m.description = printerText) ∧
        (m.description = hardDriveText →
          suffix = [.str " on HDD ".toList, .int t.hex t.indexFour]) ∧
        (m.description = printerText →
          suffix = [.str " on PRNTR ".toList, .int t.hex t.indexFive]) ∧
        (m.description ≠ hardDriveText → m.description ≠ printerText →
          suffix = [] ∧ (ioBlockOf m fileData i t).1.indexFour = t.indexFour ∧
            (ioBlockOf m fileData i t).1.indexFive = t.indexFive)) ∧
      (m.description ≠ hardDriveText → m.description ≠ printerText →
        (runBlocks (ioBlockOf m fileData) (matchingEntries fileData m.description)
            s).1.indexFour = s.indexFour ∧
          (runBlocks (ioBlockOf m fileData) (matchingEntries fileData m.description)
            s).1.indexFive = s.indexFive) := by
  obtain ⟨hn, hd, h4, h5⟩ := hsafe hio
  have hph : printerText ≠ hardDriveText := by decide
  refine ⟨step_io_blocks allocateMemory fileData m s hio hsafe, ?_, ?_⟩
  · intro i t
    have hs1 : m.description = hardDriveText →
        deviceSuffix m t = [.str " on HDD ".toList, .int t.hex t.indexFour] := by
      intro h1
      unfold deviceSuffix
      rw [if_pos h1]
    have hs2 : m.description = printerText →
        deviceSuffix m t = [.str " on PRNTR ".toList, .int t.hex t.indexFive] := by
      intro h2
      have h1 : m.description ≠ hardDriveText := by rw [h2]; exact hph
      unfold deviceSuffix
      rw [if_neg h1, if_pos h2]
    have hs3 : m.description ≠ hardDriveText → m.description ≠ printerText →
        deviceSuffix m t = [] := by
      intro h1 h2
      unfold deviceSuffix
      rw [if_neg h1, if_neg h2]
    have hne : (Token.str " on PRNTR ".toList) ≠ Token.str " on HDD ".toList := by decide
    refine ⟨deviceSuffix m t, ioBlock_eq m fileData _ t h4 h5, ?_, ?_, ?_, hs1, hs2, ?_⟩
    · by_cases h1 : m.description = hardDriveText
      · have h2 : m.description ≠ printerText := by rw [h1]; exact hardDrive_ne_printer
        rw [hs1 h1]
        simp only [ioBlockOf, ioEndLine, if_pos h1, if_neg h2, List.append_nil]
      · by_cases h2 : m.description = printerText
        · rw [hs2 h2]
          simp only [ioBlockOf, ioEndLine, if_neg h1, if_pos h2, List.append_nil]
        · rw [hs3 h1 h2]
          simp only [ioBlockOf, ioEndLine, if_neg h1, if_neg h2, List.append_nil]
    · constructor
      · rintro ⟨k, hk⟩
        by_contra h1
        by_cases h2 : m.description = printerText
        · rw [hs2 h2] at hk
          exact hne (List.cons.inj hk).1
        · rw [hs3 h1 h2] at hk
          exact List.noConfusion hk
      · intro h1
        exact ⟨t.indexFour, hs1 h1⟩
    · constructor
      · rintro ⟨k, hk⟩
        by_contra h2
        by_cases h1 : m.description = hardDriveText
        · rw [hs1 h1] at hk
          exact hne (List.cons.inj hk).1.symm
        · rw [hs3 h1 h2] at hk
          exact List.noConfusion hk
      · intro h2
        exact ⟨t.indexFive, hs2 h2⟩
    · intro h1 h2
      refine ⟨hs3 h1 h2, ?_, ?_⟩
      · simp only [ioBlockOf, ioAfter, if_neg h1]
      · simp only [ioBlockOf, ioAfter, if_neg h2]
  · intro h1 h2
    obtain ⟨_, _, h3, h4, _⟩ :=
      runBlocks_io m fileData (matchingEntries fileData m.description) s
    rw [h3, h4]
    simp [h1, h2]

theorem ioBlock_device_suffix_witness :
    ((⟨'I', hardDriveText, 3⟩ : metaData).code = 'I' ∨
        (⟨'I', hardDriveText, 3⟩ : metaData).code = 'O') ∧
      Safe sampleConfig ⟨'I', hardDriveText, 3⟩ ∧
      step sampleAllocate sampleConfig ⟨'I', hardDriveText, 3⟩ (fresh 0) =
        .ok (runBlocks (ioBlockOf ⟨'I', hardDriveText, 3⟩ sampleConfig)
          (matchingEntries sampleConfig hardDriveText) (fresh 0)) := by
  have hs : Safe sampleConfig ⟨'I', hardDriveText, 3⟩ := fun _ =>
    ⟨by intro i; revert i; decide, by decide, fun _ => by decide, fun _ => by decide⟩
  exact ⟨Or.inl rfl, hs,
    (ioBlock_device_suffix sampleAllocate sampleConfig ⟨'I', hardDriveText, 3⟩ (fresh 0)
      (Or.inl rfl) hs).1⟩

/-! ## C22: the two lines of an `I` or `O` instruction -/

theorem lineText_append (a b : List Token) : lineText (a ++ b) = lineText a ++ lineText b := by
  induction a with
  | nil => rfl
  | cons t more ih => simp [lineText, ih]

/-- C22: an `I` or `O` instruction that is safe for the table and whose description
is matched by exactly one entry writes exactly two lines, the start line and then
the end line; their texts are `Process<n>: start <d> input` and
`Process<n>: end <d> input` followed by the device suffix for the code `I`, and the
same with `output` for the code `O`. -/
theorem step_io_two_lines (allocateMemory : Nat → Int → Int → Nat)
    (fileData : configData) (m : metaData) (s : Sim)
    (hio : m.code = 'I' ∨ m.code = 'O') (hsafe : Safe fileData m)
    (hone : (matchingEntries fileData m.description).length = 1) :
    ∃ s2 evs, step allocateMemory fileData m s = .ok (s2, evs) ∧
      logLines evs = [ioStartLine m s, ioEndLine m s] ∧
      lineText (ioStartLine m s) =
        "Process".toList ++ showInt s.hex s.processID ++ ": start ".toList ++
          m.description ++ (if m.code = 'I' then " input".toList else " output".toList) ∧
      lineText (ioEndLine m s) =
        "Process".toList ++ showInt s.hex s.processID ++ ": end ".toList ++
          m.description ++ (if m.code = 'I' then " input".toList else " output".toList) ++
          lineText (deviceSuffix m s) := by
  obtain ⟨i0, hi0⟩ := length_one _ hone
  have hstep := step_io_single allocateMemory fileData m s i0 hio hsafe hi0
  have hIO : ('I' : Char) ≠ 'O' := by decide
  have hph : printerText ≠ hardDriveText := by decide
  have hdir : lineText (directionItems m) =
      (if m.code = 'I' then " input".toList else " output".toList) := by
    rcases hio with h | h
    · simp [directionItems, h, hIO, lineText, Token.text]
    · simp [directionItems, h, hIO.symm, lineText, Token.text]
  refine ⟨_, _, hstep, rfl, ?_, ?_⟩
  · simp only [ioStartLine, lineText_append, hdir, processLine]
    simp [lineText, Token.text]
  · have hsuf : ioEndLine m s = processLine s ": end " ++ [.str m.description] ++
        directionItems m ++ deviceSuffix m s := by
      by_cases h1 : m.description = hardDriveText
      · simp [ioEndLine, deviceSuffix, h1, hardDrive_ne_printer]
      · by_cases h2 : m.description = printerText
        · simp [ioEndLine, deviceSuffix, h2, hph]
        · simp [ioEndLine, deviceSuffix, h1, h2]
    rw [hsuf]
    simp only [lineText_append, hdir, processLine]
    simp [lineText, Token.text]

theorem step_io_two_lines_witness :
    ((⟨'O', hardDriveText, 3⟩ : metaData).code = 'I' ∨
        (⟨'O', hardDriveText, 3⟩ : metaData).code = 'O') ∧
      Safe sampleConfig ⟨'O', hardDriveText, 3⟩ ∧
      (matchingEntries sampleConfig
        (⟨'O', hardDriveText, 3⟩ : metaData).description).length = 1 ∧
      ∃ s2 evs, step sampleAllocate sampleConfig ⟨'O', hardDriveText, 3⟩ (fresh 0) =
          .ok (s2, evs) ∧
        (logLines evs).map lineText =
          ["Process0: start hard drive output".toList,
            "Process0: end hard drive output on HDD 0".toList] := by
  have hs : Safe sampleConfig ⟨'O', hardDriveText, 3⟩ := fun _ =>
    ⟨by intro i; revert i; decide, by decide, fun _ => by decide, fun _ => by decide⟩
  have h1 : (matchingEntries sampleConfig
      (⟨'O', hardDriveText, 3⟩ : metaData).description).length = 1 := by decide
  obtain ⟨s2, evs, h, hl, _, _⟩ :=
    step_io_two_lines sampleAllocate sampleConfig ⟨'O', hardDriveText, 3⟩ (fresh 0)
      (Or.inr rfl) hs h1
  refine ⟨Or.inr rfl, hs, h1, s2, evs, h, ?_⟩
  rw [hl]
  decide

/-! ## C24: instructions are processed in sequence -/

/-- C24: the run of `xs ++ ys` is the run of `xs` followed by the run of `ys` from
the variables left by `xs` (register, process number, cursor, device indices and
number base of the stream): it fails where the first of them fails, and otherwise
its trace is the two traces in order, hence also its lines; the same holds for
`printMetrics` after its first line. -/
theorem run_sequence (allocateMemory : Nat → Int → Int → Nat) (fileData : configData)
    (xs ys : List metaData) (s : Sim) (processObj : PCB) :
    (run allocateMemory fileData (xs ++ ys) s =
      match run allocateMemory fileData xs s with
      | .error e => .error e
      | .ok r =>
        match run allocateMemory fileData ys r.1 with
        | .error e => .error e
        | .ok r2 => .ok (r2.1, r.2 ++ r2.2)) ∧
    (∀ s1 e1 s2 e2, run allocateMemory fileData xs s = .ok (s1, e1) →
      run allocateMemory fileData ys s1 = .ok (s2, e2) →
      run allocateMemory fileData (xs ++ ys) s = .ok (s2, e1 ++ e2) ∧
      (logLines (e1 ++ e2)).map lineText =
        (logLines e1).map lineText ++ (logLines e2).map lineText) ∧
    (printMetrics allocateMemory (xs ++ ys) fileData processObj =
      match run allocateMemory fileData xs (fresh processObj.processState) with
      | .error e => .error e
      | .ok r =>
        match run allocateMemory fileData ys r.1 with
        | .error e => .error e
        | .ok r2 => .ok (⟨r2.1.processState⟩, Event.log startingLine :: (r.2 ++ r2.2))) := by
  refine ⟨run_append allocateMemory fileData xs ys s, ?_, ?_⟩
  · intro s1 e1 s2 e2 h1 h2
    refine ⟨?_, by rw [logLines_append, List.map_append]⟩
    rw [run_append, h1]
    simp only []
    rw [h2]
  · unfold printMetrics
    rw [run_append]
    cases run allocateMemory fileData xs (fresh processObj.processState) with
    | error e => rfl
    | ok r =>
      simp only []
      cases run allocateMemory fileData ys r.1 with
      | error e => rfl
      | ok r2 => rfl

theorem run_sequence_witness :
    run sampleAllocate sampleConfig [⟨'A', startText, 0⟩] (fresh 0) =
        .ok ((startBlock (fresh 0)).1, (startBlock (fresh 0)).2) ∧
      run sampleAllocate sampleConfig [⟨'O', hardDriveText, 1⟩] (startBlock (fresh 0)).1 =
        .ok ((ioBlockOf ⟨'O', hardDriveText, 1⟩ sampleConfig 2 (startBlock (fresh 0)).1).1,
          (ioBlockOf ⟨'O', hardDriveText, 1⟩ sampleConfig 2 (startBlock (fresh 0)).1).2) ∧
      run sampleAllocate sampleConfig ([⟨'A', startText, 0⟩] ++ [⟨'O', hardDriveText, 1⟩])
          (fresh 0) =
        .ok ((ioBlockOf ⟨'O', hardDriveText, 1⟩ sampleConfig 2 (startBlock (fresh 0)).1).1,
          (startBlock (fresh 0)).2 ++
            (ioBlockOf ⟨'O', hardDriveText, 1⟩ sampleConfig 2 (startBlock (fresh 0)).1).2) :=
  have h1 : run sampleAllocate sampleConfig [⟨'A', startText, 0⟩] (fresh 0) =
      .ok ((startBlock (fresh 0)).1, (startBlock (fresh 0)).2) := by decide
  have h2 : run sampleAllocate sampleConfig [⟨'O', hardDriveText, 1⟩]
      (startBlock (fresh 0)).1 =
      .ok ((ioBlockOf ⟨'O', hardDriveText, 1⟩ sampleConfig 2 (startBlock (fresh 0)).1).1,
        (ioBlockOf ⟨'O', hardDriveText, 1⟩ sampleConfig 2 (startBlock (fresh 0)).1).2) := by
    decide
  ⟨h1, h2, ((run_sequence sampleAllocate sampleConfig [⟨'A', startText, 0⟩]
    [⟨'O', hardDriveText, 1⟩] (fresh 0) ⟨0⟩).2.1 _ _ _ _ h1 h2).1⟩

/-! ## C26: a table with several matching entries -/

/-- C26: an instruction runs its block once for each table entry that matches it,
in table order: a `P` instruction for the entries named `Processor`, `M(allocate)`
and `M(block)` for the entries named `Memory`, and an `I` or `O` instruction that is
safe for the table for the entries that match its description when the first
character is ignored. With `k` such entries there are `2 k` lines; the waits, or the
durations given to the threads, are those of the `k` entries in table order; and for
`hard drive` and `printer` the index of the device is advanced `k` times. -/
theorem step_once_per_entry (allocateMemory : Nat → Int → Int → Nat)
    (fileData : configData) (m : metaData) (s : Sim) :
    (m.code = 'P' →
      ∃ s2 evs, step allocateMemory fileData m s = .ok (s2, evs) ∧
        (s2, evs) = runBlocks (fun i s => processorBlock m (fileData.cycleData i) s)
          (processorEntries fileData) s ∧
        (logLines evs).length = 2 * (processorEntries fileData).length ∧
        waits evs = (processorEntries fileData).map
          (fun i => cyclesOf m (fileData.cycleData i))) ∧
    (m.code = 'M' → (m.description = allocateText ∨ m.description = blockText) →
      ∃ s2 evs, step allocateMemory fileData m s = .ok (s2, evs) ∧
        (s2, evs) = runBlocks
          (fun i s =>
            if m.description = allocateText then
              allocateBlock allocateMemory m fileData (fileData.cycleData i) s
            else blockBlock m (fileData.cycleData i) s)
          (memoryEntries fileData) s ∧
        (logLines evs).length = 2 * (memoryEntries fileData).length ∧
        waits evs = (memoryEntries fileData).map
          (fun i => cyclesOf m (fileData.cycleData i))) ∧
    ((m.code = 'I' ∨ m.code = 'O') → Safe fileData m →
      ∃ s2 evs, step allocateMemory fileData m s = .ok (s2, evs) ∧
        (s2, evs) = runBlocks (ioBlockOf m fileData)
          (matchingEntries fileData m.description) s ∧
        (logLines evs).length = 2 * (matchingEntries fileData m.description).length ∧
        creates evs = (matchingEntries fileData m.description).map
          (fun i => cyclesOf m (fileData.cycleData i)) ∧
        (m.description = hardDriveText →
          s2.indexFour = (stepIndex fileData.hardDriveQuantity)^[(matchingEntries fileData
            m.description).length] s.indexFour) ∧
        (m.description = printerText →
          s2.indexFive = (stepIndex fileData.printerQuantity)^[(matchingEntries fileData
            m.description).length] s.indexFive)) := by
  refine ⟨?_, ?_, ?_⟩
  · intro hP
    refine ⟨_, _, step_P_blocks allocateMemory fileData m s hP, rfl, ?_, ?_⟩
    · exact runBlocks_logLines_length
          (fun i s => processorBlock m (fileData.cycleData i) s)
          (fun _ _ => rfl) _ s
    · exact runBlocks_waits
          (fun i s => processorBlock m (fileData.cycleData i) s)
          (fun i => cyclesOf m (fileData.cycleData i))
          (fun _ _ => rfl) _ s
  · intro hM hd
    rcases hd with hd | hd
    · have hb : (fun (i : Fin 8) (s : Sim) =>
          if m.description = allocateText then
            allocateBlock allocateMemory m fileData (fileData.cycleData i) s
          else blockBlock m (fileData.cycleData i) s) =
          fun i s => allocateBlock allocateMemory m fileData (fileData.cycleData i) s := by
        funext i s
        rw [if_pos hd]
      rw [hb]
      refine ⟨_, _, step_allocate_blocks allocateMemory fileData m s ⟨hM, hd⟩, rfl, ?_, ?_⟩
      · exact runBlocks_logLines_length
          (fun i s => allocateBlock allocateMemory m fileData (fileData.cycleData i) s)
          (fun _ _ => rfl) _ s
      · exact runBlocks_waits
          (fun i s => allocateBlock allocateMemory m fileData (fileData.cycleData i) s)
          (fun i => cyclesOf m (fileData.cycleData i))
          (fun _ _ => rfl) _ s
    · have hba : m.description ≠ allocateText := by
        rw [hd]
        decide
      have hb : (fun (i : Fin 8) (s : Sim) =>
          if m.description = allocateText then
            allocateBlock allocateMemory m fileData (fileData.cycleData i) s
          else blockBlock m (fileData.cycleData i) s) =
          fun i s => blockBlock m (fileData.cycleData i) s := by
        funext i s
        rw [if_neg hba]
      rw [hb]
      refine ⟨_, _, step_block_blocks allocateMemory fileData m s hM hd, rfl, ?_, ?_⟩
      · exact runBlocks_logLines_length
          (fun i s => blockBlock m (fileData.cycleData i) s)
          (fun _ _ => rfl) _ s
      · exact runBlocks_waits
          (fun i s => blockBlock m (fileData.cycleData i) s)
          (fun i => cyclesOf m (fileData.cycleData i))
          (fun _ _ => rfl) _ s
  · intro hio hsafe
    obtain ⟨h1, h2, h3, h4, _⟩ :=
      runBlocks_io m fileData (matchingEntries fileData m.description) s
    refine ⟨_, _, step_io_blocks allocateMemory fileData m s hio hsafe, rfl, h1, h2, ?_, ?_⟩
    · intro hd
      rw [h3, if_pos hd]
    · intro hd
      rw [h4, if_pos hd]

theorem step_once_per_entry_witness :
    ((⟨'O', hardDriveText, 2⟩ : metaData).code = 'I' ∨
        (⟨'O', hardDriveText, 2⟩ : metaData).code = 'O') ∧
      Safe ambiguousConfig ⟨'O', hardDriveText, 2⟩ ∧
      matchingEntries ambiguousConfig hardDriveText = [1, 2] ∧
      ∃ s2 evs, step sampleAllocate ambiguousConfig ⟨'O', hardDriveText, 2⟩ (fresh 0) =
          .ok (s2, evs) ∧
        (logLines evs).length = 2 * 2 ∧
        creates evs = [⟨14⟩, ⟨30⟩] ∧
        s2.indexFour = 0 := by
  have hs : Safe ambiguousConfig ⟨'O', hardDriveText, 2⟩ := fun _ =>
    ⟨by intro i; revert i; decide, by decide, fun _ => by decide, fun _ => by decide⟩
  obtain ⟨s2, evs, h, _, h1, h2, h3, _⟩ :=
    (step_once_per_entry sampleAllocate ambiguousConfig ⟨'O', hardDriveText, 2⟩
      (fresh 0)).2.2 (Or.inr rfl) hs
  exact ⟨Or.inr rfl, hs, by decide, s2, evs, h, h1.trans (by decide),
    h2.trans (by decide), (h3 rfl).trans (by decide)⟩

/-! ## C27: the number base of the integers -/

/-- C27 fails on the code: the manipulator `hex` of line 639 stays in force on
`cout`. After one `M(allocate)`, the tenth `A(start)` writes
`OS: starting process a`, where the same ten `A(start)` without the allocation write
`OS: starting process 10`; and with 11 hard drives the eleventh output on
`hard drive` after an allocation writes ` on HDD a`. -/
theorem printMetrics_hex_stays :
    (printMetrics sampleAllocate
        (⟨'M', allocateText, 1⟩ :: List.replicate 10 ⟨'A', startText, 0⟩)
        sampleConfig ⟨0⟩).map (fun r => ((logLines r.2).map lineText).getLast?) =
      .ok (some "OS: starting process a".toList) ∧
    (printMetrics sampleAllocate (List.replicate 10 ⟨'A', startText, 0⟩)
        sampleConfig ⟨0⟩).map (fun r => ((logLines r.2).map lineText).getLast?) =
      .ok (some "OS: starting process 10".toList) ∧
    (printMetrics sampleAllocate
        (⟨'M', allocateText, 1⟩ :: List.replicate 11 ⟨'O', hardDriveText, 1⟩)
        { sampleConfig with hardDriveQuantity := 11 } ⟨0⟩).map
        (fun r => ((logLines r.2).map lineText).getLast?) =
      .ok (some "Process0: end hard drive output on HDD a".toList) := by
  decide

/-! ## C28: instructions that match nothing -/

/-- C28: an instruction with the code `S`, a `P` instruction when no table entry is
named `Processor`, an `M` instruction when no entry is named `Memory`, an `A`
instruction whose description is neither `start` nor `end` and an `M` instruction
whose description is neither `allocate` nor `block` return with an empty trace and
with all the variables unchanged. -/
theorem step_skips (allocateMemory : Nat → Int → Int → Nat) (fileData : configData)
    (m : metaData) (s : Sim) :
    (m.code = 'S' → step allocateMemory fileData m s = .ok (s, [])) ∧
    (m.code = 'P' → (∀ i, (fileData.cycleData i).componentName ≠ processorName) →
      step allocateMemory fileData m s = .ok (s, [])) ∧
    (m.code = 'M' → (∀ i, (fileData.cycleData i).componentName ≠ memoryName) →
      step allocateMemory fileData m s = .ok (s, [])) ∧
    (m.code = 'A' → m.description ≠ startText → m.description ≠ endText →
      step allocateMemory fileData m s = .ok (s, [])) ∧
    (m.code = 'M' → m.description ≠ allocateText → m.description ≠ blockText →
      step allocateMemory fileData m s = .ok (s, [])) := by
  refine ⟨?_, ?_, ?_, ?_, ?_⟩
  · intro h
    have h1 : m.code ≠ 'P' := by rw [h]; decide
    have h2 : m.code ≠ 'A' := by rw [h]; decide
    have h3 : m.code ≠ 'M' := by rw [h]; decide
    have h4 : ¬ (m.code = 'I' ∨ m.code = 'O') := by rw [h]; decide
    unfold step
    rw [if_neg h1, if_neg h2, if_neg h3, if_neg h4]
  · intro h hnone
    unfold step
    rw [if_pos h]
    apply forEntries_skip
    intro i _ s
    simp [processorBody, hnone i]
  · intro h hnone
    rw [step_M allocateMemory fileData m s h]
    apply forEntries_skip
    intro i _ s
    simp [memoryBody, hnone i]
  · intro h h1 h2
    have hP : m.code ≠ 'P' := by rw [h]; decide
    unfold step
    rw [if_neg hP, if_pos h, if_neg h1, if_neg h2]
  · intro h h1 h2
    rw [step_M allocateMemory fileData m s h]
    exact forEntries_memory_other allocateMemory m fileData h1 h2 indices s

theorem step_skips_witness :
    (⟨'S', startText, 0⟩ : metaData).code = 'S' ∧
      step sampleAllocate sampleConfig ⟨'S', startText, 0⟩ (fresh READY) =
        .ok (fresh READY, []) :=
  ⟨rfl, (step_skips sampleAllocate sampleConfig ⟨'S', startText, 0⟩ (fresh READY)).1 rfl⟩

/-! ## C29: the parser and the simulator on `I` and `O` -/

theorem matchingEntries_iff (fileData : configData) (d : List Char) :
    matchingEntries fileData d ≠ [] ↔
      ∃ i, IoMatch (fileData.cycleData i).componentName d := by
  constructor
  · intro h
    obtain ⟨i, hi⟩ := List.exists_mem_of_ne_nil _ h
    have := (List.mem_filter.mp hi).2
    exact ⟨i, (ioMatch_iff_drop _ _).mpr (by simpa [matchesName] using this)⟩
  · exact matchingEntries_ne_nil fileData d

theorem validate_io_flag (fileData : configData) (hn : NamesNonEmpty fileData)
    (code : Char) (hcode : code = 'I' ∨ code = 'O') (d : List Char) (hd : d ≠ [])
    (st : Parse) :
    ∃ flag st2, validate fileData code d st = .ok (flag, st2) ∧
      (flag = true ↔ ∃ i, IoMatch (fileData.cycleData i).componentName d) := by
  obtain ⟨b, hb, hiff⟩ := ioScan_indices fileData d hn hd
  cases b with
  | true =>
    refine ⟨true, st, ?_, hiff⟩
    rcases hcode with h | h <;> subst h <;> simp [validate, hb]
  | false =>
    refine ⟨false, rejected st, ?_, hiff⟩
    rcases hcode with h | h <;> subst h <;> simp [validate, hb, rejected]

/-- C29: for a table of 8 non-empty component names, the parser accepts the
description of an `I` or `O` entry exactly when the list of the table entries that
the simulator matches with it is not empty; so every `I` or `O` instruction that
`readMetaData` returns has a non-empty description and at least one matching entry,
and `printMetrics`, when the quantity of an indexed device is not zero, processes
it without a fault and writes its start line and its end line at least once. -/
theorem readMetaData_io_matched (allocateMemory : Nat → Int → Int → Nat)
    (fileData : configData) (hn : NamesNonEmpty fileData) (filePath : String)
    (file : List Char) (instrs : List metaData) (out : List String)
    (h : readMetaData [] fileData filePath file = .ok (instrs, out)) :
    (∀ (code : Char) (d : List Char) (st : Parse), (code = 'I' ∨ code = 'O') → d ≠ [] →
      ∃ flag st2, validate fileData code d st = .ok (flag, st2) ∧
        (flag = true ↔ matchingEntries fileData d ≠ [])) ∧
    ∀ m ∈ instrs, (m.code = 'I' ∨ m.code = 'O') →
      m.description ≠ [] ∧ matchingEntries fileData m.description ≠ [] ∧
      ((m.description = hardDriveText → fileData.hardDriveQuantity ≠ 0) →
        (m.description = printerText → fileData.printerQuantity ≠ 0) →
        ∀ s, ∃ s2 evs, step allocateMemory fileData m s = .ok (s2, evs) ∧
          2 ≤ (logLines evs).length ∧
          ∃ more, logLines evs = ioStartLine m s :: ioEndLine m s :: more) := by
  constructor
  · intro code d st hcode hd
    obtain ⟨flag, st2, hv, hiff⟩ := validate_io_flag fileData hn code hcode d hd st
    refine ⟨flag, st2, hv, ?_⟩
    rw [hiff, matchingEntries_iff]
  · intro m hm hio
    obtain ⟨_, _, hw⟩ := readMetaData_whitelisted fileData filePath file instrs out h m hm
    have hmatch : ∃ i, IoMatch (fileData.cycleData i).componentName m.description := by
      rcases hw with ⟨hc, _⟩ | ⟨hc, _⟩ | ⟨hc, _⟩ | ⟨_, hi⟩
      · rcases hc with hc | hc <;> rcases hio with h1 | h1 <;> rw [hc] at h1 <;>
          exact absurd h1 (by decide)
      · rcases hio with h1 | h1 <;> rw [hc] at h1 <;> exact absurd h1 (by decide)
      · rcases hio with h1 | h1 <;> rw [hc] at h1 <;> exact absurd h1 (by decide)
      · exact hi
    obtain ⟨i, hi⟩ := hmatch
    have hd : m.description ≠ [] := ioMatch_ne_nil _ _ (hn i) hi
    have hne := matchingEntries_ne_nil fileData m.description ⟨i, hi⟩
    refine ⟨hd, hne, ?_⟩
    intro h4 h5 s
    have hsafe : Safe fileData m := fun _ => ⟨hn, hd, h4, h5⟩
    refine ⟨_, _, step_io_blocks allocateMemory fileData m s hio hsafe, ?_⟩
    obtain ⟨i0, rest, hl⟩ := List.exists_cons_of_ne_nil hne
    rw [hl]
    have hlog : logLines (runBlocks (ioBlockOf m fileData) (i0 :: rest) s).2 =
        ioStartLine m s :: ioEndLine m s ::
          logLines (runBlocks (ioBlockOf m fileData) rest (ioAfter m fileData s)).2 := rfl
    rw [hlog]
    exact ⟨by simp, _, rfl⟩

theorem readMetaData_io_matched_witness :
    NamesNonEmpty sampleConfig ∧
      readMetaData [] sampleConfig "Test_1.mdf"
          (sampleBanner ++ "\nI(hard drive)5;E".toList) =
        .ok ([⟨'I', hardDriveText, 5⟩], []) ∧
      matchingEntries sampleConfig hardDriveText ≠ [] ∧
      ∃ s2 evs, step sampleAllocate sampleConfig ⟨'I', hardDriveText, 5⟩ (fresh 0) =
          .ok (s2, evs) ∧ 2 ≤ (logLines evs).length := by
  have hn : NamesNonEmpty sampleConfig := by intro i; revert i; decide
  have hr : readMetaData [] sampleConfig "Test_1.mdf"
      (sampleBanner ++ "\nI(hard drive)5;E".toList) =
      .ok ([⟨'I', hardDriveText, 5⟩], []) := by decide
  obtain ⟨_, hne, hrun⟩ :=
    (readMetaData_io_matched sampleAllocate sampleConfig hn "Test_1.mdf" _ _ _ hr).2
      ⟨'I', hardDriveText, 5⟩ (by simp) (Or.inl rfl)
  obtain ⟨s2, evs, h, hl, _⟩ := hrun (fun _ => by decide) (fun _ => by decide) (fresh 0)
  exact ⟨hn, hr, hne, s2, evs, h, hl⟩

/-! ## C25: `wait` and `pWait` -/

/-- The loop of `wait`: the readings it samples are the first readings of the
clock, all but the last of them lie before the deadline, and the last one has
reached it. -/
theorem waitLoop_sampled (t1 : timeval) (cycleTime : ℚ) :
    ∀ (clock : List timeval) (elapsedTime : ℚ) (sampled out : List timeval),
      waitLoop t1 cycleTime elapsedTime clock sampled = some out →
      ∃ taken, out = sampled ++ taken ∧ taken <+: clock ∧
        (¬ elapsedTime < cycleTime → taken = []) ∧
        (elapsedTime < cycleTime →
          ∃ r, taken.getLast? = some r ∧ cycleTime ≤ findTime t1 r) := by
  intro clock
  induction clock with
  | nil =>
    intro e sampled out h
    by_cases he : e < cycleTime
    · simp [waitLoop, he] at h
    · simp only [waitLoop, he, if_false, Option.some.injEq] at h
      exact ⟨[], by simp [h], List.prefix_refl _, fun _ => rfl, fun h2 => absurd h2 he⟩
  | cons t2 more ih =>
    intro e sampled out h
    by_cases he : e < cycleTime
    · simp only [waitLoop, he, if_true] at h
      obtain ⟨taken, h1, h2, h3, h4⟩ := ih _ _ _ h
      refine ⟨t2 :: taken, by simp [h1], List.cons_prefix_cons.mpr ⟨rfl, h2⟩,
        fun h5 => absurd he h5, fun _ => ?_⟩
      by_cases hn : findTime t1 t2 < cycleTime
      · obtain ⟨r, hr1, hr2⟩ := h4 hn
        refine ⟨r, ?_, hr2⟩
        cases taken with
        | nil => simp at hr1
        | cons a rest => simpa [List.getLast?_cons_cons] using hr1
      · rw [h3 hn]
        exact ⟨t2, rfl, not_lt.mp hn⟩
    · simp only [waitLoop, he, if_false, Option.some.injEq] at h
      exact ⟨[], by simp [h], List.nil_prefix, fun _ => rfl, fun h2 => absurd h2 he⟩

/-- The loop of `wait` ends when a reading of the clock reaches the deadline. -/
theorem waitLoop_returns (t1 : timeval) (cycleTime : ℚ) :
    ∀ (clock : List timeval) (elapsedTime : ℚ) (sampled : List timeval),
      (∃ r ∈ clock, cycleTime ≤ findTime t1 r) →
      ∃ out, waitLoop t1 cycleTime elapsedTime clock sampled = some out := by
  intro clock
  induction clock with
  | nil => intro e sampled h; obtain ⟨r, hr, _⟩ := h; simp at hr
  | cons t2 more ih =>
    intro e sampled h
    by_cases he : e < cycleTime
    · simp only [waitLoop, he, if_true]
      obtain ⟨r, hr, hle⟩ := h
      rcases List.mem_cons.mp hr with h1 | h1
      · subst h1
        have hn : ¬ findTime t1 r < cycleTime := not_lt.mpr hle
        cases more with
        | nil => exact ⟨sampled ++ [r], by simp [waitLoop, hn]⟩
        | cons a rest => exact ⟨sampled ++ [r], by simp [waitLoop, hn]⟩
      · exact ih _ _ ⟨r, h1, hle⟩
    · exact ⟨sampled, by simp [waitLoop, he]⟩

theorem pWaitLoop_eq (clock : List timeval) :
    ∀ (elapsedTime : ℚ) (IOData : threadData) (sampled : List timeval),
      (pWaitLoop elapsedTime IOData clock sampled).map (fun r => r.2) =
        waitLoop IOData.t1 IOData.cycleTime elapsedTime clock sampled := by
  induction clock with
  | nil =>
    intro e d sampled
    by_cases he : e < d.cycleTime <;> simp [pWaitLoop, waitLoop, he]
  | cons t2 more ih =>
    intro e d sampled
    by_cases he : e < d.cycleTime
    · simp only [pWaitLoop, waitLoop, he, if_true]
      exact ih _ _ _
    · simp [pWaitLoop, waitLoop, he]

/-- C25: over any list of clock readings and in exact arithmetic, when `wait`
returns for a duration `c ≤ 0` it has sampled no reading, and for `c > 0` the last
reading `r` it has sampled satisfies
`findTime t1 t2 + c ≤ findTime t1 r`; the readings sampled are the first readings
of the clock. It returns at once for `c ≤ 0`, and it returns whenever some reading
of the clock reaches the deadline. The thread function `pWait` samples the same
readings as `wait` for the same `t1`, `t2` and duration. -/
theorem wait_not_early (t1 t2 : timeval) (c : ℚ) (clock : List timeval) :
    (∀ sampled, wait t1 t2 c clock = some sampled →
      (c ≤ 0 → sampled = []) ∧
      (0 < c → ∃ r, sampled.getLast? = some r ∧
        findTime t1 t2 + c ≤ findTime t1 r) ∧
      sampled <+: clock) ∧
    (c ≤ 0 → wait t1 t2 c clock = some []) ∧
    ((∃ r ∈ clock, findTime t1 t2 + c ≤ findTime t1 r) →
      ∃ sampled, wait t1 t2 c clock = some sampled) ∧
    (pWait ⟨t1, t2, c⟩ clock).map (fun r => r.2) = wait t1 t2 c clock := by
  have hlt : findTime t1 t2 < findTime t1 t2 + c ↔ 0 < c := by
    constructor <;> intro h <;> linarith
  refine ⟨?_, ?_, ?_, ?_⟩
  · intro sampled h
    obtain ⟨taken, h1, h2, h3, h4⟩ := waitLoop_sampled t1 _ clock _ _ _ h
    rw [List.nil_append] at h1
    subst h1
    refine ⟨fun hc => h3 (fun h5 => ?_), fun hc => h4 (hlt.mpr hc), h2⟩
    have := hlt.mp h5
    linarith
  · intro hc
    have hn : ¬ findTime t1 t2 < findTime t1 t2 + c := fun h5 => by
      have := hlt.mp h5
      linarith
    cases clock with
    | nil => simp [wait, waitLoop, hn]
    | cons a rest => simp [wait, waitLoop, hn]
  · intro h
    exact waitLoop_returns t1 _ clock _ _ h
  · simp only [pWait, wait]
    rw [pWaitLoop_eq]
    simp only [add_comm]

theorem wait_not_early_witness :
    wait ⟨0, 0⟩ ⟨1, 0⟩ (1 / 2) [⟨1, 200000⟩, ⟨1, 600000⟩, ⟨2, 0⟩] =
        some [⟨1, 200000⟩, ⟨1, 600000⟩] ∧
      (0 : ℚ) < 1 / 2 ∧
      ∃ r, ([⟨1, 200000⟩, ⟨1, 600000⟩] : List timeval).getLast? = some r ∧
        findTime ⟨0, 0⟩ ⟨1, 0⟩ + 1 / 2 ≤ findTime ⟨0, 0⟩ r := by
  have h : wait ⟨0, 0⟩ ⟨1, 0⟩ (1 / 2) [⟨1, 200000⟩, ⟨1, 600000⟩, ⟨2, 0⟩] =
      some [⟨1, 200000⟩, ⟨1, 600000⟩] := by
    simp [wait, waitLoop, findTime]
    norm_num
  have hc : (0 : ℚ) < 1 / 2 := by norm_num
  exact ⟨h, hc, ((wait_not_early ⟨0, 0⟩ ⟨1, 0⟩ (1 / 2)
    [⟨1, 200000⟩, ⟨1, 600000⟩, ⟨2, 0⟩]).1 _ h).2.1 hc⟩

/-! ## The progress of the stream in a parse -/

theorem follows_refl (s : IStream) (h : ReadableOrEof s) : Follows s s := ⟨h, le_refl _⟩

theorem follows_trans (s t u : IStream) (h1 : Follows s t) (h2 : Follows t u) :
    Follows s u := ⟨h2.1, le_trans h2.2 h1.2⟩

theorem get_follows (s : IStream) (h : ReadableOrEof s) : Follows s (s.get).2 := by
  obtain ⟨buf, e, f⟩ := s
  cases e <;> cases f <;> cases buf <;>
    simp_all [ReadableOrEof, Follows, remaining, IStream.get, IStream.good]

theorem get_progress (s : IStream) (h : ReadableOrEof s) (he : s.eof = false) :
    remaining (s.get).2 < remaining s := by
  obtain ⟨buf, e, f⟩ := s
  cases e <;> cases f <;> cases buf <;>
    simp_all [ReadableOrEof, remaining, IStream.get, IStream.good, IStream.eof]

theorem peek_follows (s : IStream) (h : ReadableOrEof s) : Follows s (s.peek).2 := by
  obtain ⟨buf, e, f⟩ := s
  cases e <;> cases f <;> cases buf <;>
    simp_all [ReadableOrEof, Follows, remaining, IStream.peek, IStream.good]

theorem ignoreLoop_length (delim : Option Char) :
    ∀ (n : Nat) (cs : List Char), (IStream.ignoreLoop delim n cs).1.length ≤ cs.length := by
  intro n
  induction n with
  | zero => intro cs; simp [IStream.ignoreLoop]
  | succ k ih =>
    intro cs
    cases cs with
    | nil => simp [IStream.ignoreLoop]
    | cons c rest =>
      simp only [IStream.ignoreLoop]
      split
      · simp
      · exact le_trans (ih rest) (by simp)

theorem ignore_follows (s : IStream) (n : Nat) (delim : Option Char)
    (h : ReadableOrEof s) : Follows s (s.ignore n delim) := by
  obtain ⟨buf, e, f⟩ := s
  have hl := ignoreLoop_length delim n buf
  cases e <;> cases f <;>
    simp_all [ReadableOrEof, Follows, remaining, IStream.ignore, IStream.good]
  split <;> omega

theorem getlineLoop_spec (delim : Char) :
    ∀ (room : Nat) (cs : List Char),
      (IStream.getlineLoop delim room cs).rest.length ≤ cs.length ∧
      ((IStream.getlineLoop delim room cs).full = true →
        (IStream.getlineLoop delim room cs).stored.length = room) ∧
      ((IStream.getlineLoop delim room cs).full = false →
        (IStream.getlineLoop delim room cs).gotDelim = false →
        (IStream.getlineLoop delim room cs).hitEof = true) := by
  intro room cs
  induction cs generalizing room with
  | nil => simp [IStream.getlineLoop]
  | cons c rest ih =>
    by_cases hc : c = delim
    · subst hc
      cases room <;> simp [IStream.getlineLoop]
    · cases room with
      | zero => simp [IStream.getlineLoop, hc]
      | succ k =>
        obtain ⟨h1, h2, h3⟩ := ih k
        simp only [IStream.getlineLoop, hc, if_false, List.length_cons]
        exact ⟨by omega, fun h => by rw [h2 h], h3⟩

/-- A call `getline( s, 1000, delim )` that stores at most 29 characters leaves the
stream readable or at its end. -/
theorem getline_follows (s : IStream) (delim : Char) (h : ReadableOrEof s)
    (hlen : (s.getline 1000 delim).1.length ≤ 29) :
    Follows s (s.getline 1000 delim).2 := by
  obtain ⟨buf, e, f⟩ := s
  obtain ⟨h1, h2, h3⟩ := getlineLoop_spec delim 999 buf
  cases e <;> cases f <;>
    simp_all [ReadableOrEof, Follows, remaining, IStream.getline, IStream.good]
  constructor
  · intro hf
    rcases hf with hf | hf
    · have := h2 hf
      omega
    · by_cases hfull : (IStream.getlineLoop delim 999 buf).full = true
      · have := h2 hfull
        omega
      · exact h3 (by simpa using hfull) hf.2
  · split <;> omega

theorem getWhile_follows (ch : Char) :
    ∀ (fuel : Nat) (c : Option Char) (s : IStream), ReadableOrEof s →
      Follows s (IStream.getWhile ch fuel c s).2 := by
  intro fuel
  induction fuel with
  | zero => intro c s h; exact follows_refl s h
  | succ k ih =>
    intro c s h
    simp only [IStream.getWhile]
    split
    · have h1 := get_follows s h
      exact follows_trans _ _ _ h1 (ih _ _ h1.1)
    · exact follows_refl s h

theorem digitLoop_follows :
    ∀ (fuel : Nat) (tempNum cycles : Int) (c : Option Char) (fin : IStream),
      ReadableOrEof fin → Follows fin (digitLoop fuel tempNum cycles c fin).2 := by
  intro fuel
  induction fuel with
  | zero => intro _ _ _ fin h; exact follows_refl fin h
  | succ k ih =>
    intro tempNum cycles c fin h
    cases c with
    | none => exact follows_refl fin h
    | some x =>
      simp only [digitLoop]
      split
      · have h1 := get_follows fin h
        exact follows_trans _ _ _ h1 (ih _ _ _ _ h1.1)
      · exact follows_refl fin h

theorem skipSeparator_follows (fin : IStream) (h : ReadableOrEof fin) :
    Follows fin (skipSeparator fin) := by
  have h1 := peek_follows fin h
  unfold skipSeparator
  simp only
  split
  · have h2 := ignore_follows (fin.peek).2 1000 (some ' ') h1.1
    have h3 := peek_follows _ h2.1
    have h13 := follows_trans _ _ _ (follows_trans _ _ _ h1 h2) h3
    split
    · exact follows_trans _ _ _ h13 (ignore_follows _ 1000 (some '\n') h3.1)
    · exact h13
  · exact h1

theorem validate_fin (fileData : configData) (code : Char) (d : List Char) (st st2 : Parse)
    (flag : Bool) (h : validate fileData code d st = .ok (flag, st2)) :
    st2.fin = st.fin ∨ st2.fin = st.fin.ignore 1000 none := by
  unfold validate at h
  simp only at h
  split at h
  · split at h <;> obtain ⟨_, rfl⟩ := Prod.mk.inj (Except.ok.inj h)
    · exact Or.inl rfl
    · exact Or.inr rfl
  · split at h
    · split at h <;> obtain ⟨_, rfl⟩ := Prod.mk.inj (Except.ok.inj h)
      · exact Or.inl rfl
      · exact Or.inr rfl
    · split at h
      · split at h <;> obtain ⟨_, rfl⟩ := Prod.mk.inj (Except.ok.inj h)
        · exact Or.inl rfl
        · exact Or.inr rfl
      · split at h
        · exact Except.noConfusion h
        · obtain ⟨_, rfl⟩ := Prod.mk.inj (Except.ok.inj h)
          exact Or.inl rfl
        · obtain ⟨_, rfl⟩ := Prod.mk.inj (Except.ok.inj h)
          exact Or.inr rfl

theorem validate_follows (fileData : configData) (code : Char) (d : List Char)
    (st st2 : Parse) (flag : Bool) (h : validate fileData code d st = .ok (flag, st2))
    (hr : ReadableOrEof st.fin) : Follows st.fin st2.fin := by
  rcases validate_fin fileData code d st st2 flag h with h1 | h1
  · rw [h1]
    exact follows_refl _ hr
  · rw [h1]
    exact ignore_follows _ _ _ hr

theorem readCycles_follows (code : Char) (d : List Char) (st : Parse)
    (hr : ReadableOrEof st.fin) : Follows st.fin (readCycles code d st).fin := by
  have h1 := get_follows st.fin hr
  have h2 := getWhile_follows ' ' (st.fin.buf.length + 1) (st.fin.get).1 (st.fin.get).2 h1.1
  have h12 := follows_trans _ _ _ h1 h2
  have hig := follows_trans _ _ _ h12 (ignore_follows _ 1000 none h2.1)
  unfold readCycles
  simp only
  split
  · exact hig
  · split
    · exact hig
    · split
      · exact hig
      · have h3 := get_follows _ h2.1
        have h4 := fun a b c =>
          digitLoop_follows (st.fin.buf.length + 1) a b c _ h3.1
        refine follows_trans _ _ _ h12 (follows_trans _ _ _ h3 ?_)
        exact follows_trans _ _ _ (h4 _ _ _) (skipSeparator_follows _ (h4 _ _ _).1)

/-- One iteration of the main loop on a stream that is readable and not at its
end: afterwards the stream is readable or at its end, and it allows fewer
iterations than before. -/
theorem loopBody_progress (fileData : configData) (st st2 : Parse)
    (hr : ReadableOrEof st.fin) (he : st.fin.eof = false)
    (h : loopBody fileData st = .ok st2) :
    ReadableOrEof st2.fin ∧ remaining st2.fin < remaining st.fin := by
  have hp := get_progress st.fin hr he
  have h1 := get_follows st.fin hr
  have h2 := getWhile_follows '\n' (st.fin.buf.length + 1) (st.fin.get).1 (st.fin.get).2 h1.1
  have h3 := getWhile_follows ' ' (st.fin.buf.length + 1)
    (IStream.getWhile '\n' (st.fin.buf.length + 1) (st.fin.get).1 (st.fin.get).2).1 _ h2.1
  have h23 := follows_trans _ _ _ h2 h3
  have hig := follows_trans _ _ _ h23 (ignore_follows _ 1000 none h3.1)
  have key : ∀ t : IStream, Follows (st.fin.get).2 t →
      ReadableOrEof t ∧ remaining t < remaining st.fin :=
    fun t ht => ⟨ht.1, lt_of_le_of_lt ht.2 hp⟩
  unfold loopBody at h
  simp only at h
  split at h
  · obtain rfl := Except.ok.inj h
    exact key _ hig
  · split at h
    · obtain rfl := Except.ok.inj h
      exact key _ hig
    · split at h
      · split at h
        · exact Except.noConfusion h
        · rename_i hlen
          have h4 := ignore_follows _ 1000 (some '(') h3.1
          have h5 := getline_follows _ ')' h4.1 (by omega)
          have h45 := follows_trans _ _ _ h23 (follows_trans _ _ _ h4 h5)
          split at h
          · exact Except.noConfusion h
          · rename_i st3 hv
            obtain rfl := Except.ok.inj h
            have h6 := (fun hr6 => validate_follows _ _ _ _ _ _ hv hr6) h5.1
            exact key _ (follows_trans _ _ _ h45
              (follows_trans _ _ _ h6 (readCycles_follows _ _ st3 h6.1)))
          · rename_i st3 hv
            obtain rfl := Except.ok.inj h
            have h6 := (fun hr6 => validate_follows _ _ _ _ _ _ hv hr6) h5.1
            exact key _ (follows_trans _ _ _ h45 h6)
      · obtain rfl := Except.ok.inj h
        exact key _ hig

theorem ioScan_error (fileData : configData) (d : List Char) :
    ∀ (l : List (Fin 8)) (flag : Bool) (e : Fault), ioScan fileData d l flag = .error e →
      e = .outOfRange := by
  intro l
  induction l with
  | nil => intro flag e h; simp [ioScan] at h
  | cons i more ih =>
    intro flag e h
    simp only [ioScan] at h
    by_cases hc : 1 > (fileData.cycleData i).componentName.length ∨ 1 > d.length
    · simp only [compareIsZero, hc, if_true] at h
      exact (Except.error.inj h).symm
    · simp only [compareIsZero, hc, if_false] at h
      split at h
      · rename_i e2 heq
        exact Except.noConfusion heq
      · exact ih _ _ h
      · exact ih _ _ h

theorem validate_error (fileData : configData) (code : Char) (d : List Char) (st : Parse)
    (e : Fault) (h : validate fileData code d st = .error e) : e = .outOfRange := by
  unfold validate at h
  simp only at h
  split at h
  · split at h <;> exact Except.noConfusion h
  · split at h
    · split at h <;> exact Except.noConfusion h
    · split at h
      · split at h <;> exact Except.noConfusion h
      · split at h
        · rename_i e2 he
          obtain rfl := Except.error.inj h
          exact ioScan_error fileData d indices false _ he
        · exact Except.noConfusion h
        · exact Except.noConfusion h

/-- The faults of one iteration of the main loop are the write past the end of the
description field and the exception of `compare`. -/
theorem loopBody_error (fileData : configData) (st : Parse) (e : Fault)
    (h : loopBody fileData st = .error e) : e = .overrun ∨ e = .outOfRange := by
  unfold loopBody at h
  simp only at h
  split at h
  · exact Except.noConfusion h
  · split at h
    · exact Except.noConfusion h
    · split at h
      · split at h
        · exact Or.inl (Except.error.inj h).symm
        · split at h
          · rename_i e2 he
            obtain rfl := Except.error.inj h
            exact Or.inr (validate_error _ _ _ _ _ he)
          · exact Except.noConfusion h
          · exact Except.noConfusion h
      · exact Except.noConfusion h

/-- The main loop does not run out of iterations when it is given as many as the
stream allows. -/
theorem mainLoop_enough (fileData : configData) :
    ∀ (fuel : Nat) (st : Parse), ReadableOrEof st.fin → remaining st.fin ≤ fuel →
      mainLoop fileData fuel st ≠ .error .outOfFuel ∧
      ∀ extra, mainLoop fileData (fuel + extra) st = mainLoop fileData fuel st := by
  intro fuel
  induction fuel with
  | zero =>
    intro st hr hle
    have he : st.fin.eof = true := by
      by_contra hne
      simp [remaining, IStream.eof] at hle hne
      simp [hne] at hle
    constructor
    · unfold mainLoop
      simp [he]
    · intro extra
      unfold mainLoop
      simp [he]
  | succ k ih =>
    intro st hr hle
    by_cases he : st.fin.eof = true
    · constructor
      · unfold mainLoop
        simp [he]
      · intro extra
        unfold mainLoop
        simp [he]
    · have he2 : st.fin.eof = false := by simpa using he
      cases hb : loopBody fileData st with
      | error e =>
        have hne : e ≠ .outOfFuel := by
          intro h
          subst h
          rcases loopBody_error fileData st _ hb with h1 | h1 <;> exact Fault.noConfusion h1
        constructor
        · unfold mainLoop
          simp [he, hb, hne]
        · intro extra
          rw [Nat.add_right_comm]
          unfold mainLoop
          simp [he, hb]
      | ok st2 =>
        obtain ⟨hr2, hlt⟩ := loopBody_progress fileData st st2 hr he2 hb
        obtain ⟨h1, h2⟩ := ih st2 hr2 (by omega)
        constructor
        · unfold mainLoop
          simpa [he, hb] using h1
        · intro extra
          rw [Nat.add_right_comm]
          unfold mainLoop
          simpa [he, hb] using h2 extra

theorem mainLoop_error (fileData : configData) :
    ∀ (fuel : Nat) (st : Parse) (e : Fault), mainLoop fileData fuel st = .error e →
      e = .overrun ∨ e = .outOfRange ∨ e = .outOfFuel := by
  intro fuel
  induction fuel with
  | zero =>
    intro st e h
    unfold mainLoop at h
    split at h
    · exact Except.noConfusion h
    · exact Or.inr (Or.inr (Except.error.inj h).symm)
  | succ k ih =>
    intro st e h
    unfold mainLoop at h
    split at h
    · exact Except.noConfusion h
    · cases hb : loopBody fileData st with
      | error e2 =>
        simp only [hb] at h
        obtain rfl := Except.error.inj h
        rcases loopBody_error fileData st _ hb with h1 | h1
        · exact Or.inl h1
        · exact Or.inr (Or.inl h1)
      | ok st2 =>
        simp only [hb] at h
        exact ih st2 e h

/-! ## C30: the parse terminates -/

/-- C30: on a stream that is readable and not at its end, an iteration of the main
loop that returns leaves the stream readable or at its end, and either sets
`eofbit`, which ends the loop, or leaves fewer characters than before. So for every
script the `file.length + 1` iterations allowed to the main loop are enough:
`readMetaData` returns a result, or stops on a write past the description field or
on the exception of `compare`, and more iterations give the same outcome. -/
theorem readMetaData_terminates (metaDataStream : List metaData) (fileData : configData)
    (filePath : String) (file : List Char) :
    (∀ st st2 : Parse, ReadableOrEof st.fin → st.fin.eof = false →
      loopBody fileData st = .ok st2 →
      ReadableOrEof st2.fin ∧
        (st2.fin.eof = true ∨ st2.fin.buf.length < st.fin.buf.length)) ∧
    ((∃ r, readMetaData metaDataStream fileData filePath file = .ok r) ∨
      readMetaData metaDataStream fileData filePath file = .error .overrun ∨
      readMetaData metaDataStream fileData filePath file = .error .outOfRange) ∧
    ∀ extra,
      mainLoop fileData (file.length + 1 + extra)
          ⟨((IStream.ofFile file).peek).2.ignore 1000 (some '\n'), metaDataStream, []⟩ =
        mainLoop fileData (file.length + 1)
          ⟨((IStream.ofFile file).peek).2.ignore 1000 (some '\n'), metaDataStream, []⟩ := by
  have h0 : ReadableOrEof (IStream.ofFile file) := by
    intro h
    simp [IStream.ofFile] at h
  have h1 := peek_follows _ h0
  have h2 := ignore_follows _ 1000 (some '\n') h1.1
  have hrem : remaining (((IStream.ofFile file).peek).2.ignore 1000 (some '\n')) ≤
      file.length + 1 := by
    have := le_trans h2.2 h1.2
    simpa [remaining, IStream.ofFile] using this
  obtain ⟨hfuel, hextra⟩ := mainLoop_enough fileData (file.length + 1)
    ⟨((IStream.ofFile file).peek).2.ignore 1000 (some '\n'), metaDataStream, []⟩ h2.1 hrem
  refine ⟨?_, ?_, hextra⟩
  · intro st st2 hr he hb
    obtain ⟨hr2, hlt⟩ := loopBody_progress fileData st st2 hr he hb
    refine ⟨hr2, ?_⟩
    have he1 : st.fin.eofbit = false := he
    by_cases he2 : st2.fin.eofbit = true
    · exact Or.inl he2
    · right
      have he3 : st2.fin.eofbit = false := by simpa using he2
      simp only [remaining, he1, he3] at hlt
      simpa using hlt
  · unfold readMetaData
    simp only
    split
    · exact Or.inl ⟨_, rfl⟩
    · cases hm : mainLoop fileData (file.length + 1)
          ⟨((IStream.ofFile file).peek).2.ignore 1000 (some '\n'), metaDataStream, []⟩ with
      | ok st => exact Or.inl ⟨_, rfl⟩
      | error e =>
        rcases mainLoop_error fileData _ _ e hm with h | h | h
        · subst h
          exact Or.inr (Or.inl rfl)
        · subst h
          exact Or.inr (Or.inr rfl)
        · subst h
          exact absurd hm hfuel

theorem readMetaData_terminates_witness :
    ReadableOrEof (IStream.ofFile "S(start)0;E".toList) ∧
      (IStream.ofFile "S(start)0;E".toList).eof = false ∧
      loopBody sampleTable ⟨IStream.ofFile "S(start)0;E".toList, [], []⟩ =
        .ok ⟨⟨"E".toList, false, false⟩, [⟨'S', startText, 0⟩], []⟩ ∧
      ReadableOrEof ⟨"E".toList, false, false⟩ ∧
      ((⟨"E".toList, false, false⟩ : IStream).eof = true ∨
        (⟨"E".toList, false, false⟩ : IStream).buf.length <
          (IStream.ofFile "S(start)0;E".toList).buf.length) :=
  have hr : ReadableOrEof (IStream.ofFile "S(start)0;E".toList) := fun h => by
    simp [IStream.ofFile] at h
  have hb : loopBody sampleTable ⟨IStream.ofFile "S(start)0;E".toList, [], []⟩ =
      .ok ⟨⟨"E".toList, false, false⟩, [⟨'S', startText, 0⟩], []⟩ := by decide
  ⟨hr, rfl, hb,
    (readMetaData_terminates [] sampleTable "Test_1.mdf" "S(start)0;E".toList).1
      ⟨IStream.ofFile "S(start)0;E".toList, [], []⟩ _ hr rfl hb⟩

end Sim03

namespace Sim01

/-! ## The parser of Sim01 and the parser of Sim03 -/

theorem ioScan_tableOf (fileData : Cs446.configData) (logData : logInfo) (d : List Char) :
    ∀ (l : List (Fin 8)) (flag : Bool),
      ioScan (tableOf fileData logData) d l flag = Sim03.ioScan fileData d l flag := by
  intro l
  induction l with
  | nil => intro flag; rfl
  | cons i more ih =>
    intro flag
    have hname : ((tableOf fileData logData).cycleData i).componentName =
        (fileData.cycleData i).componentName := rfl
    simp only [ioScan, Sim03.ioScan, hname, ih]

theorem validate_tableOf (fileData : Cs446.configData) (logData : logInfo) (code : Char)
    (d : List Char) (st : Sim03.Parse) :
    validate (tableOf fileData logData) code d st = Sim03.validate fileData code d st := by
  simp only [validate, Sim03.validate, ioScan_tableOf]

/-- An iteration of the main loop in which the character taken as the entry code
is not a blank is the same in the two versions. -/
theorem loopBody_tableOf (fileData : Cs446.configData) (logData : logInfo)
    (st : Sim03.Parse) (h : (readCode st).1 ≠ some ' ') :
    loopBody (tableOf fileData logData) st = Sim03.loopBody fileData st := by
  have hw : IStream.getWhile ' ' (st.fin.buf.length + 1) (readCode st).1 (readCode st).2 =
      readCode st := by
    rw [Sim03.getWhile_ne ' ' _ _ h]
  unfold readCode at hw
  simp only [loopBody, Sim03.loopBody, readCode, validate_tableOf] at hw ⊢
  rw [hw]

/-- As long as Sim01 takes no blank as an entry code, its main loop is the main
loop of Sim03. -/
theorem mainLoop_tableOf (fileData : Cs446.configData) (logData : logInfo) :
    ∀ (fuel : Nat) (st : Sim03.Parse),
      readsBlankCode (tableOf fileData logData) fuel st = false →
      mainLoop (tableOf fileData logData) fuel st = Sim03.mainLoop fileData fuel st := by
  intro fuel
  induction fuel with
  | zero =>
    intro st _
    unfold mainLoop Sim03.mainLoop
    rfl
  | succ k ih =>
    intro st h
    unfold mainLoop Sim03.mainLoop
    by_cases he : st.fin.eof = true
    · simp [he]
    · unfold readsBlankCode at h
      simp only [he, Bool.false_eq_true, if_false, Bool.or_eq_false_iff,
        decide_eq_false_iff_not] at h ⊢
      rw [← loopBody_tableOf fileData logData st h.1]
      cases hb : loopBody (tableOf fileData logData) st with
      | error e => rfl
      | ok st2 =>
        have h2 := h.2
        rw [hb] at h2
        exact ih st2 h2

/-- For every script and table such that Sim01 takes no blank as an entry code, the
two versions of `readMetaData` return the same instructions and write the same
diagnostics, or stop on the same fault. -/
theorem readMetaData_tableOf (metaDataStream : List metaData)
    (fileData : Cs446.configData) (logData : logInfo) (filePath : String)
    (file : List Char)
    (h : readsBlankCode (tableOf fileData logData) (file.length + 1)
      (start metaDataStream file) = false) :
    readMetaData metaDataStream (tableOf fileData logData) filePath file =
      Sim03.readMetaData metaDataStream fileData filePath file := by
  unfold readMetaData Sim03.readMetaData
  simp only
  rw [mainLoop_tableOf fileData logData _ _ h]
  rfl

/-- An iteration of the main loop of Sim01 that takes a blank as the entry code
writes the invalid-code diagnostic, appends nothing and calls
`fin.ignore( 1000, EOF )`. -/
theorem loopBody_blank_code (fileData : configData) (st : Sim03.Parse)
    (h : (readCode st).1 = some ' ') :
    loopBody fileData st =
      .ok { st with
        cout := st.cout ++ [invalidCodeMsg], fin := (readCode st).2.ignore 1000 none } := by
  have hE : (' ' : Char) ≠ 'E' := by decide
  have hc : (' ' : Char) ∉ Sim03.entryCodes := by decide
  unfold loopBody
  simp only [h, hE, hc, if_false]

/-- When fewer than 1000 characters follow the blank taken as an entry code, the
parse of Sim01 ends there: the rest of the file is dropped and no entry is
appended. -/
theorem mainLoop_blank_code_short (fileData : configData) (st : Sim03.Parse)
    (fuel : Nat) (rest : List Char) (he : st.fin.eof = false)
    (h : (readCode st).1 = some ' ') (hg : (readCode st).2 = ⟨rest, false, false⟩)
    (hlen : rest.length < 1000) :
    mainLoop fileData (fuel + 1) st =
      .ok { st with cout := st.cout ++ [invalidCodeMsg], fin := ⟨[], true, false⟩ } := by
  unfold mainLoop
  rw [loopBody_blank_code fileData st h, hg, Sim03.ignore_eof_short rest hlen]
  simp only [he, Bool.false_eq_true, if_false]
  unfold mainLoop
  simp [IStream.eof]

/-! ## C31: the two versions of `readMetaData` -/

/-- C31 fails on the code in its last part, by the defect of C6 and C8: on a script
in which Sim01 takes a blank as an entry code and more than 1000 characters follow,
Sim01 writes the invalid-code diagnostic and does not stop: `fin.ignore( 1000, EOF )`
drops 1000 characters only, and the entry `A(start)0;` that stands behind 1001
blanks is parsed and appended. With a single blank before the entry Sim01 writes the
diagnostic and returns no instruction; Sim03 returns the entry in both cases. -/
theorem readMetaData_blank_code_long_trailer :
    readsBlankCode sampleTable
        (Sim03.sampleBanner ++ '\n' ::
          (List.replicate 1001 ' ' ++ "A(start)0;E".toList)).length
        (start [] (Sim03.sampleBanner ++ '\n' ::
          (List.replicate 1001 ' ' ++ "A(start)0;E".toList))) = true ∧
      readMetaData [] sampleTable "Test_1.mdf"
          (Sim03.sampleBanner ++ '\n' ::
            (List.replicate 1001 ' ' ++ "A(start)0;E".toList)) =
        .ok ([⟨'A', Sim03.startText, 0⟩], [invalidCodeMsg]) ∧
      Sim03.readMetaData [] Sim03.sampleTable "Test_1.mdf"
          (Sim03.sampleBanner ++ '\n' ::
            (List.replicate 1001 ' ' ++ "A(start)0;E".toList)) =
        .ok ([⟨'A', Sim03.startText, 0⟩], []) ∧
      readMetaData [] sampleTable "Test_1.mdf"
          (Sim03.sampleBanner ++ "\n A(start)0;E".toList) =
        .ok ([], [invalidCodeMsg]) ∧
      Sim03.readMetaData [] Sim03.sampleTable "Test_1.mdf"
          (Sim03.sampleBanner ++ "\n A(start)0;E".toList) =
        .ok ([⟨'A', Sim03.startText, 0⟩], []) := by
  decide

/-! ## The metrics lines of Sim01 -/

/-- A loop over the table whose body writes one line for the entries that pass a
test and nothing for the others. -/
theorem forLines_filter (body : Fin 8 → Except Fault (List (List Char)))
    (p : Fin 8 → Bool) (line : Fin 8 → List Char)
    (h : ∀ i, body i = if p i = true then .ok [line i] else .ok []) :
    ∀ l : List (Fin 8), forLines body l = .ok ((l.filter p).map line) := by
  intro l
  induction l with
  | nil => rfl
  | cons i more ih =>
    by_cases hp : p i = true
    · have hb : body i = .ok [line i] := by rw [h, if_pos hp]
      rw [List.filter_cons_of_pos hp]
      simp only [forLines, hb, ih, List.map_cons, List.singleton_append]
    · have hb : body i = .ok [] := by rw [h, if_neg hp]
      rw [List.filter_cons_of_neg hp]
      simp only [forLines, hb, ih, List.nil_append]

/-- The lines of one instruction: one line for each entry that matches it, in table
order. -/
theorem metricsStep_lines (fileData : configData) (m : metaData)
    (h : Printable fileData m) :
    metricsStep fileData m =
      .ok ((metricsEntries fileData m).map (fun i => metricsLine m (fileData.cycleData i))) := by
  unfold metricsStep metricsEntries
  by_cases hP : m.code = 'P'
  · rw [if_pos hP, if_pos hP]
    apply forLines_filter
    intro i
    by_cases hn : (fileData.cycleData i).componentName = Sim03.processorName <;> simp [hn]
  · rw [if_neg hP, if_neg hP]
    by_cases hM : m.code = 'M'
    · rw [if_pos hM, if_pos hM]
      apply forLines_filter
      intro i
      by_cases hn : (fileData.cycleData i).componentName = Sim03.memoryName <;> simp [hn]
    · rw [if_neg hM, if_neg hM]
      by_cases hio : m.code = 'I' ∨ m.code = 'O'
      · rw [if_pos hio, if_pos hio]
        obtain ⟨hn, hd⟩ := h hio
        apply forLines_filter
        intro i
        have h1 : 1 ≤ (fileData.cycleData i).componentName.length :=
          List.length_pos.mpr (hn i)
        have h2 : 1 ≤ m.description.length := List.length_pos.mpr hd
        simp only [Sim03.compareIsZero_eq _ _ h1 h2, Sim03.matchesName]
        by_cases hm : (fileData.cycleData i).componentName.length = m.description.length ∧
            (fileData.cycleData i).componentName.drop 1 = m.description.drop 1
        · simp only [decide_eq_true hm, if_true]
        · simp only [decide_eq_false hm, Bool.false_eq_true, if_false]
      · rw [if_neg hio, if_neg hio]
        rfl

theorem metricsRun_lines (fileData : configData) :
    ∀ xs : List metaData, (∀ m ∈ xs, Printable fileData m) →
      metricsRun fileData xs =
        .ok (xs.flatMap (fun m =>
          (metricsEntries fileData m).map (fun i => metricsLine m (fileData.cycleData i)))) := by
  intro xs
  induction xs with
  | nil => intro _; rfl
  | cons m more ih =>
    intro h
    simp only [metricsRun, metricsStep_lines fileData m (h m (by simp)),
      ih (fun x hx => h x (by simp [hx])), List.flatMap_cons]

/-! ## C32: the metrics lines of `printMetrics` -/

/-- C32: for a sequence of instructions on which `printMetrics` of Sim01 throws no
exception, the lines written after the title are, instruction by instruction in the
order of the sequence, one line for each table entry that matches the instruction,
in table order: the entries named `Processor` for the code `P`, the entries named
`Memory` for `M`, the entries that match the description when the first character
is ignored for `I` and `O`, and no entry for `S`, `A` or any other code. The line is
`<code>(<description>)<c> - <p> ms` with `c` and `p` in base 10, where `p` is the
product of the two `int` values `c` and `t`, which is `c * t` when that is in the
range of `int`. -/
theorem printMetrics_metrics_lines (fileData : configData) (xs : List metaData)
    (h : ∀ m ∈ xs, Printable fileData m) :
    printMetrics xs fileData =
        .ok (headerLines fileData ++ xs.flatMap (fun m =>
          (metricsEntries fileData m).map
            (fun i => metricsLine m (fileData.cycleData i)))) ∧
      (∀ m : metaData, m.code = 'S' ∨ m.code = 'A' → metricsEntries fileData m = []) ∧
      (∀ (m : metaData) (i : Fin 8),
        (m.code = 'P' → (i ∈ metricsEntries fileData m ↔
          (fileData.cycleData i).componentName = Sim03.processorName)) ∧
        (m.code = 'M' → (i ∈ metricsEntries fileData m ↔
          (fileData.cycleData i).componentName = Sim03.memoryName)) ∧
        ((m.code = 'I' ∨ m.code = 'O') → (i ∈ metricsEntries fileData m ↔
          Sim03.IoMatch (fileData.cycleData i).componentName m.description))) ∧
      (∀ m : metaData, (metricsEntries fileData m).Sublist Sim03.indices) ∧
      (∀ (m : metaData) (entry : cycleTime),
        -2147483648 ≤ m.cycles * entry.time → m.cycles * entry.time < 2147483648 →
        metricsLine m entry =
          [m.code] ++ "(".toList ++ m.description ++ ")".toList ++
            Sim03.showInt false m.cycles ++ " - ".toList ++
            Sim03.showInt false (m.cycles * entry.time) ++ " ms".toList) ∧
      metricsLine ⟨'P', Sim03.runText, 3⟩ ⟨Sim03.processorName, 20⟩ =
        "P(run)3 - 60 ms".toList := by
  have hPM : ('P' : Char) ≠ 'M' := by decide
  refine ⟨?_, ?_, ?_, ?_, ?_, by decide⟩
  · simp only [printMetrics, metricsRun_lines fileData xs h]
  · intro m hm
    have h1 : m.code ≠ 'P' := by rcases hm with h | h <;> rw [h] <;> decide
    have h2 : m.code ≠ 'M' := by rcases hm with h | h <;> rw [h] <;> decide
    have h3 : ¬ (m.code = 'I' ∨ m.code = 'O') := by rcases hm with h | h <;> rw [h] <;> decide
    unfold metricsEntries
    rw [if_neg h1, if_neg h2, if_neg h3]
  · intro m i
    refine ⟨?_, ?_, ?_⟩
    · intro hP
      unfold metricsEntries
      rw [if_pos hP]
      simp [List.mem_filter, Sim03.mem_indices]
    · intro hM
      have hP : m.code ≠ 'P' := by rw [hM]; decide
      unfold metricsEntries
      rw [if_neg hP, if_pos hM]
      simp [List.mem_filter, Sim03.mem_indices]
    · intro hio
      have hP : m.code ≠ 'P' := by rcases hio with h | h <;> rw [h] <;> decide
      have hM : m.code ≠ 'M' := by rcases hio with h | h <;> rw [h] <;> decide
      unfold metricsEntries
      rw [if_neg hP, if_neg hM, if_pos hio, Sim03.ioMatch_iff_drop]
      simp [List.mem_filter, Sim03.mem_indices, Sim03.matchesName]
  · intro m
    unfold metricsEntries
    split
    · exact List.filter_sublist _
    · split
      · exact List.filter_sublist _
      · split
        · exact List.filter_sublist _
        · exact List.nil_sublist _
  · intro m entry h0 h1
    unfold metricsLine
    rw [Sim03.wrap32_of_int_range _ h0 h1]

theorem printMetrics_metrics_lines_witness :
    (∀ m ∈ [(⟨'S', Sim03.startText, 0⟩ : metaData), ⟨'A', Sim03.startText, 0⟩,
        ⟨'P', Sim03.runText, 3⟩, ⟨'I', Sim03.hardDriveText, 5⟩,
        ⟨'M', Sim03.allocateText, 2⟩, ⟨'O', "monitor".toList, 4⟩],
      Printable sampleTable m) ∧
      (printMetrics [⟨'S', Sim03.startText, 0⟩, ⟨'A', Sim03.startText, 0⟩,
          ⟨'P', Sim03.runText, 3⟩, ⟨'I', Sim03.hardDriveText, 5⟩,
          ⟨'M', Sim03.allocateText, 2⟩, ⟨'O', "monitor".toList, 4⟩] sampleTable).map
          (fun lines => lines.drop (headerLines sampleTable).length) =
        .ok ["P(run)3 - 60 ms".toList, "I(hard drive)5 - 75 ms".toList,
          "M(allocate)2 - 60 ms".toList, "O(monitor)4 - 20 ms".toList] := by
  have hn : ∀ i, (sampleTable.cycleData i).componentName ≠ [] := by decide
  have hs : ∀ m ∈ [(⟨'S', Sim03.startText, 0⟩ : metaData), ⟨'A', Sim03.startText, 0⟩,
      ⟨'P', Sim03.runText, 3⟩, ⟨'I', Sim03.hardDriveText, 5⟩,
      ⟨'M', Sim03.allocateText, 2⟩, ⟨'O', "monitor".toList, 4⟩],
      Printable sampleTable m := by
    intro m hm _
    simp only [List.mem_cons, List.mem_singleton, List.not_mem_nil, or_false] at hm
    rcases hm with h | h | h | h | h | h <;> subst h <;> exact ⟨hn, by decide⟩
  refine ⟨hs, ?_⟩
  rw [(printMetrics_metrics_lines sampleTable _ hs).1]
  decide

end Sim01

end Cs446
